import Mathlib

/-!
# Verification of `immutability-utils`

A shallow embedding of the copy-on-write utility library consisting of
`src/lib/src/extClone.ts` (structural cloning: `extClone`, `_extClone`,
`isCustomCloneable`, `satisfiesDepth`) and `src/lib/src/index.ts`
(`isGetter`, the `immutable` proxy-based interceptor, `immutableMut`).

JavaScript objects are modelled as records of own property descriptors plus
a prototype link, living in an address-indexed heap.  The lodash helpers
`clone` and `cloneDeep` are external library calls; they are modelled as a
one-level structural copy and a cycle-safe deep structural copy (lodash's
documented behaviour on plain objects).  Accessor properties are kept as
opaque descriptors referencing function ids; the `immutable` interceptor
executes getter/setter/method bodies through a small fueled command
language so that reentrancy through the proxy traps is modelled exactly.
-/

/-- Property keys. -/
abbrev Key := String

/-- JavaScript values: `undefined`, `null`, numbers, strings, booleans,
functions (identified by a function id into a function table) and object
references. -/
inductive JSValue where
  | undef : JSValue
  | vNull : JSValue
  | vNum (n : Int) : JSValue
  | vStr (s : String) : JSValue
  | vBool (b : Bool) : JSValue
  | fn (fid : Nat) : JSValue
  | ref (a : Nat) : JSValue
deriving Repr, DecidableEq

/-- `value !== null && typeof value === "object"` — the composite test used
by `_extClone` on property values (functions are not `typeof "object"`). -/
def JSValue.isObjRef : JSValue → Bool
  | .ref _ => true
  | _ => false

/-- `typeof v === "function"` (the `is-callable` package on our value
fragment). -/
def JSValue.isCallable : JSValue → Bool
  | .fn _ => true
  | _ => false

/-- A value that is `null` or a non-function primitive. -/
def JSValue.isPrimitiveNonFunction : JSValue → Bool
  | .fn _ => false
  | .ref _ => false
  | _ => true

/-- An own property descriptor: either a data descriptor holding a value, or
an accessor descriptor holding optional getter/setter function ids
(`"value" in descriptor` distinguishes the two in the source). -/
inductive Desc where
  | data (v : JSValue) : Desc
  | accessor (get : Option Nat) (set : Option Nat) : Desc
deriving Repr, DecidableEq

/-- The object references stored in a descriptor (none for accessors). -/
def Desc.refs : Desc → List Nat
  | .data (.ref a) => [a]
  | _ => []

/-- A JavaScript object: own property descriptors in insertion order
(`Reflect.ownKeys` order) plus the prototype link. -/
structure Obj where
  props : List (Key × Desc)
  proto : Option Nat
deriving Repr, DecidableEq

/-- A heap: an association list of live objects plus an allocation counter.
`set` and `alloc` cons onto the front; `get` finds the most recent entry. -/
structure Heap where
  objs : List (Nat × Obj)
  next : Nat
deriving Repr, DecidableEq

def Heap.get (h : Heap) (a : Nat) : Option Obj :=
  (h.objs.find? (fun p => p.1 == a)).map (·.2)

def Heap.set (h : Heap) (a : Nat) (o : Obj) : Heap :=
  ⟨(a, o) :: h.objs, h.next⟩

def Heap.alloc (h : Heap) (o : Obj) : Nat × Heap :=
  (h.next, ⟨(h.next, o) :: h.objs, h.next + 1⟩)

/-- Look up an own property descriptor
(`Object.getOwnPropertyDescriptor`). -/
def propsGet (ps : List (Key × Desc)) (k : Key) : Option Desc :=
  (ps.find? (fun p => p.1 == k)).map (·.2)

/-- Define/overwrite an own property, preserving the position of an existing
key and appending a new key at the end (JavaScript property order). -/
def propsSet (ps : List (Key × Desc)) (k : Key) (d : Desc) : List (Key × Desc) :=
  match ps with
  | [] => [(k, d)]
  | (k', d') :: rest =>
    if k' == k then (k', d) :: rest else (k', d') :: propsSet rest k d

/-- Write a data property on the object at `a` (a plain `[[Set]]` landing on
the receiver). A write to a missing address is a no-op. -/
def Heap.writeProp (h : Heap) (a : Nat) (k : Key) (v : JSValue) : Heap :=
  match h.get a with
  | some o => h.set a ⟨propsSet o.props k (.data v), o.proto⟩
  | none => h

/-- The object references stored in an object's own data fields. -/
def Obj.refs (o : Obj) : List Nat :=
  o.props.flatMap (fun p => p.2.refs)

/-- Well-formed heap: all live addresses, all object-valued fields and all
prototype links are below the allocation counter. -/
def Heap.WF (h : Heap) : Prop :=
  (∀ p ∈ h.objs, p.1 < h.next) ∧
  (∀ p ∈ h.objs, ∀ b ∈ p.2.refs, b < h.next) ∧
  (∀ p ∈ h.objs, ∀ q, p.2.proto = some q → q < h.next)

instance (h : Heap) : Decidable h.WF := by
  unfold Heap.WF; infer_instance

/-! ## `extClone.ts` -/

/-- `CloneDepth = number | "max"`. -/
inductive CloneDepth where
  | max : CloneDepth
  | num (n : Int) : CloneDepth
deriving Repr, DecidableEq

/-- `satisfiesDepth` from `extClone.ts`: `"max"` satisfies everything,
negative depths are clamped to `0`, otherwise compare. -/
def satisfiesDepth (depth : CloneDepth) (value : Int) : Bool :=
  match depth with
  | .max => true
  | .num d => value ≤ (if d < 0 then 0 else d)

/-- The `WeakMap` of already-cloned source objects, keyed by source
address. -/
abbrev Seen := List (Nat × Nat)

def seenGet (seen : Seen) (a : Nat) : Option Nat :=
  (seen.find? (fun p => p.1 == a)).map (·.2)

/-- Model of lodash `clone` on our value fragment: primitives are returned
unchanged and an object is copied one level deep — a fresh object with the
same own properties (values shared) and the same prototype. -/
def lodashClone (h : Heap) (v : JSValue) : Heap × JSValue :=
  match v with
  | .ref a =>
    match h.get a with
    | some o =>
      let (a', h') := h.alloc ⟨o.props, o.proto⟩
      (h', .ref a')
    | none => (h, v)
  | v => (h, v)

mutual

/-- Model of lodash `cloneDeep` on our value fragment: a full structural
copy that tracks already-copied source objects (lodash's internal `Stack`),
so it terminates on cycles and preserves aliasing.  Accessor descriptors and
function values are kept as-is; prototypes are preserved.  `none` means the
fuel ran out (used only to make the recursion over arbitrary cyclic heaps
well-founded; any fuel larger than the heap is enough). -/
def cloneDeep (fuel : Nat) (h : Heap) (seen : Seen) (v : JSValue) :
    Option (Heap × Seen × JSValue) :=
  match v with
  | .ref a =>
    match seenGet seen a with
    | some a' => some (h, seen, .ref a')
    | none =>
      match h.get a with
      | none => some (h, seen, v)
      | some o =>
        match fuel with
        | 0 => none
        | f + 1 =>
          let (a', h1) := h.alloc ⟨o.props, o.proto⟩
          let seen1 := (a, a') :: seen
          match cloneDeepProps f h1 seen1 o.props with
          | none => none
          | some (h2, seen2, ps) => some (h2.set a' ⟨ps, o.proto⟩, seen2, .ref a')
  | v => some (h, seen, v)
termination_by (fuel, 0, 0)
decreasing_by
  all_goals simp_wf
  all_goals first
    | (apply Prod.Lex.left; omega)
    | (apply Prod.Lex.right; first
        | (apply Prod.Lex.left; omega)
        | (apply Prod.Lex.right; omega))

/-- Recursively deep-copy the values of data properties. -/
def cloneDeepProps (fuel : Nat) (h : Heap) (seen : Seen)
    (ps : List (Key × Desc)) : Option (Heap × Seen × List (Key × Desc)) :=
  match ps with
  | [] => some (h, seen, [])
  | (k, .data (.ref b)) :: rest =>
    match cloneDeep fuel h seen (.ref b) with
    | none => none
    | some (h1, seen1, v') =>
      match cloneDeepProps fuel h1 seen1 rest with
      | none => none
      | some (h2, seen2, rest') => some (h2, seen2, (k, .data v') :: rest')
  | d :: rest =>
    match cloneDeepProps fuel h seen rest with
    | none => none
    | some (h2, seen2, rest') => some (h2, seen2, d :: rest')
termination_by (fuel, 1, ps.length)
decreasing_by
  all_goals simp_wf
  all_goals first
    | (apply Prod.Lex.left; omega)
    | (apply Prod.Lex.right; first
        | (apply Prod.Lex.left; omega)
        | (apply Prod.Lex.right; omega))

end

mutual

/-- `_extClone` from `extClone.ts`.  Non-objects are returned as-is; an
already-seen source is mapped to its existing clone; otherwise the object is
shallow-copied (lodash `clone`), registered in the seen map, and its own
keys are walked: accessor descriptors are kept on the copy unchanged,
object-valued data fields are shared when `remainingDepth <= 0` and
recursively cloned at `remainingDepth - 1` otherwise, primitive data fields
are copied by value. -/
def extCloneRec (h : Heap) (seen : Seen) (v : JSValue) (d : Int) :
    Heap × Seen × JSValue :=
  match v with
  | .ref a =>
    match seenGet seen a with
    | some a' => (h, seen, .ref a')
    | none =>
      match h.get a with
      | none => (h, seen, v)
      | some o =>
        let (a', h1) := h.alloc ⟨o.props, o.proto⟩
        let seen1 := (a, a') :: seen
        let (h2, seen2, ps) := extCloneRecProps h1 seen1 o.props d
        (h2.set a' ⟨ps, o.proto⟩, seen2, .ref a')
  | v => (h, seen, v)
termination_by (d.toNat, 1, 0)
decreasing_by
  all_goals simp_wf
  all_goals first
    | (apply Prod.Lex.left; omega)
    | (apply Prod.Lex.right; first
        | (apply Prod.Lex.left; omega)
        | (apply Prod.Lex.right; omega))

/-- The walk over `Reflect.ownKeys(source)` inside `_extClone`. -/
def extCloneRecProps (h : Heap) (seen : Seen) (ps : List (Key × Desc))
    (d : Int) : Heap × Seen × List (Key × Desc) :=
  match ps with
  | [] => (h, seen, [])
  | (k, .data (.ref b)) :: rest =>
    if d ≤ 0 then
      let (h2, seen2, rest') := extCloneRecProps h seen rest d
      (h2, seen2, (k, .data (.ref b)) :: rest')
    else
      let (h1, seen1, v') := extCloneRec h seen (.ref b) (d - 1)
      let (h2, seen2, rest') := extCloneRecProps h1 seen1 rest d
      (h2, seen2, (k, .data v') :: rest')
  | dkv :: rest =>
    let (h2, seen2, rest') := extCloneRecProps h seen rest d
    (h2, seen2, dkv :: rest')
termination_by (d.toNat, 0, ps.length)
decreasing_by
  all_goals simp_wf
  all_goals first
    | (apply Prod.Lex.left; omega)
    | (apply Prod.Lex.right; first
        | (apply Prod.Lex.left; omega)
        | (apply Prod.Lex.right; omega))

end

/-- Walk the prototype chain for the nearest own descriptor of `k`
(`none` = fuel exhausted, `some none` = chain exhausted without finding the
key). -/
def chainLookup (fuel : Nat) (h : Heap) (a : Nat) (k : Key) :
    Option (Option Desc) :=
  match fuel with
  | 0 => none
  | f + 1 =>
    match h.get a with
    | none => some none
    | some o =>
      match propsGet o.props k with
      | some d => some (some d)
      | none =>
        match o.proto with
        | some p => chainLookup f h p k
        | none => some none

/-- `isCustomCloneable` from `extClone.ts`: the value is an object and
`"clone" in obj && isCallable(obj.clone)`.  The `in` test walks the
prototype chain; a callable `clone` is a data descriptor holding a
function. -/
def isCustomCloneable (fuel : Nat) (h : Heap) (v : JSValue) : Option Bool :=
  match v with
  | .ref a =>
    (chainLookup fuel h a "clone").map (fun d? =>
      match d? with
      | some (.data (.fn _)) => true
      | _ => false)
  | _ => some false

/-- The custom clone hook `obj.clone(depth)`: user code, modelled as an
opaque trusted function from heap, depth and receiver address to a new heap
and result (the spec trusts it to be non-mutating). -/
abbrev Hook := Heap → CloneDepth → Nat → Heap × JSValue

/-- `extClone` from `extClone.ts`: delegate to a custom clone hook when
`respectCustom` and the value is custom-cloneable; otherwise `cloneDeep` at
depth `"max"`, lodash `clone` at depth `0`, and `_extClone` with a fresh
seen map at any other numeric depth. -/
def extClone (hook : Hook) (fuel : Nat) (h : Heap) (v : JSValue)
    (depth : CloneDepth) (respectCustom : Bool) : Option (Heap × JSValue) :=
  match isCustomCloneable fuel h v with
  | none => none
  | some cc =>
    if respectCustom && cc then
      match v with
      | .ref a => some (hook h depth a)
      | _ => some (h, v)
    else
      match depth with
      | .max =>
        match cloneDeep fuel h [] v with
        | none => none
        | some (h', _, v') => some (h', v')
      | .num d =>
        if d = 0 then some (lodashClone h v)
        else
          let (h', _, v') := extCloneRec h [] v d
          some (h', v')

/-! ## `isGetter` from `index.ts` -/

/-- `isGetter` from `index.ts`: look for an own descriptor of `prop` on the
target; if found, answer whether its `get` is callable; otherwise recurse on
the prototype; `false` once the chain is exhausted.  (`descriptor.get` of a
data descriptor is `undefined`, hence not callable.)  `none` = fuel
exhausted. -/
def isGetter (fuel : Nat) (h : Heap) (a : Nat) (k : Key) : Option Bool :=
  match fuel with
  | 0 => none
  | f + 1 =>
    match h.get a with
    | none => some false
    | some o =>
      match propsGet o.props k with
      | some d =>
        some (match d with
          | .accessor (some _) _ => true
          | _ => false)
      | none =>
        match o.proto with
        | some p => isGetter f h p k
        | none => some false

/-! ## The `immutable` interceptor from `index.ts`

The interceptor wraps a target object in a `Proxy` whose `get`/`set`
handlers implement the clone-swap-notify commit protocol.  Method, getter
and setter bodies are user code; they are modelled by a small command
language executed by a fueled interpreter, which is what makes the
`receiver`-threading of the real `Reflect.get`/`Reflect.set` calls (and
hence reentrancy through the traps) observable.  Clone listeners are
modelled as opaque observers: firing one appends an event recording the
listener and the value of `cell.current` at the moment of the call. -/

/-- Expressions usable inside member bodies.  `thisField k` reads `this.k`
(through the proxy traps when `this` is a proxy). -/
inductive Expr where
  | const (v : JSValue) : Expr
  | argE : Expr
  | thisField (k : Key) : Expr
  | addNum (e : Expr) (i : Int) : Expr
deriving Repr, DecidableEq

/-- Commands usable inside member bodies: `this.k = e`, `this.k()`, and
`throw`. -/
inductive BOp where
  | setThis (k : Key) (e : Expr) : BOp
  | callThis (k : Key) : BOp
  | throwErr (msg : String) : BOp
deriving Repr, DecidableEq

/-- The body of a method, getter or setter: a command list followed by a
return expression. -/
structure Body where
  ops : List BOp
  ret : Expr
deriving Repr, DecidableEq

/-- The function table and the custom-clone hook interpretation. -/
structure Ctx where
  funs : List (Nat × Body)
  hook : Hook

def Ctx.fnBody (ctx : Ctx) (fid : Nat) : Option Body :=
  (ctx.funs.find? (fun p => p.1 == fid)).map (·.2)

/-- The `ImmutableRef` record (minus `current`'s proxy object, represented
by the pair of the current proxy identity and its target address). -/
structure Cell where
  currentTarget : Nat
  currentProxyId : Nat
  enabled : Bool
  depth : CloneDepth
  respectCustom : Bool
  nonMutatingKeys : List Key
  cloneListeners : List Nat
deriving Repr, DecidableEq

/-- Observable events: a clone produced by the interception machinery, the
reassignment of `cell.current` to a freshly wrapped clone, and a clone
listener invocation (recording `cell.current` as the listener observes
it). -/
inductive Ev where
  | cloned (src : Nat) (result : JSValue) : Ev
  | swapped (newTarget : Nat) (newProxyId : Nat) : Ev
  | listener (id : Nat) (curTarget : Nat) (curProxyId : Nat) : Ev
deriving Repr, DecidableEq

/-- Interpreter state: the heap, the reference cell, the event trace and the
proxy-identity counter. -/
structure St where
  heap : Heap
  cell : Cell
  events : List Ev
  nextProxyId : Nat
deriving Repr, DecidableEq

/-- The value of `this` during body execution: a raw object (methods and
setters run on the bare clone) or a proxy (getter bodies receive the proxy
as receiver). -/
inductive ThisVal where
  | raw (a : Nat) : ThisVal
  | prox (pid : Nat) (target : Nat) : ThisVal
deriving Repr, DecidableEq

/-- The address a default `[[Set]]` lands on: the receiver itself, or the
proxy's target (the default `defineProperty` of a proxy forwards to its
target). -/
def ThisVal.targetAddr : ThisVal → Nat
  | .raw x => x
  | .prox _ t => t

/-- Execution outcome: normal value, thrown error, or out of fuel. -/
inductive Res (α : Type) where
  | ok (v : α) : Res α
  | err (e : String) : Res α
  | oot : Res α
deriving Repr, DecidableEq

def St.emit (st : St) (e : Ev) : St :=
  { st with events := st.events ++ [e] }

def St.setEnabled (st : St) (b : Bool) : St :=
  { st with cell := { st.cell with enabled := b } }

/-- `setCurrent(imRef, applyProxy(cloned))`: repoint the cell at a fresh
proxy over the clone (recorded as a `swapped` event). -/
def St.swapCurrent (st : St) (ca : Nat) : St :=
  { st with
    cell := { st.cell with currentTarget := ca, currentProxyId := st.nextProxyId },
    nextProxyId := st.nextProxyId + 1,
    events := st.events ++ [.swapped ca st.nextProxyId] }

/-- `for (const listener of imRef.cloneListeners) listener(imRef)`:
listeners fire in registration order, observing the current cell. -/
def St.fireListeners (st : St) : St :=
  { st with
    events := st.events ++ st.cell.cloneListeners.map
      (fun l => .listener l st.cell.currentTarget st.cell.currentProxyId) }

mutual

/-- Invoke the function with id `fid` on receiver `thisV`. -/
def runFnId (ctx : Ctx) (fuel : Nat) (st : St) (thisV : ThisVal)
    (argv : JSValue) (fid : Nat) : St × Res JSValue :=
  match fuel with
  | 0 => (st, .oot)
  | f + 1 =>
    match ctx.fnBody fid with
    | none => (st, .err "not a function")
    | some b => runBody ctx f st thisV argv b

/-- Run a body: its commands, then its return expression. -/
def runBody (ctx : Ctx) (fuel : Nat) (st : St) (thisV : ThisVal)
    (argv : JSValue) (b : Body) : St × Res JSValue :=
  match fuel with
  | 0 => (st, .oot)
  | f + 1 =>
    match runOps ctx f st thisV argv b.ops with
    | (st1, .ok _) => evalExpr ctx f st1 thisV argv b.ret
    | (st1, .err e) => (st1, .err e)
    | (st1, .oot) => (st1, .oot)

/-- Run a command list in order, stopping at the first throw. -/
def runOps (ctx : Ctx) (fuel : Nat) (st : St) (thisV : ThisVal)
    (argv : JSValue) (ops : List BOp) : St × Res Unit :=
  match fuel with
  | 0 => (st, .oot)
  | f + 1 =>
    match ops with
    | [] => (st, .ok ())
    | .throwErr msg :: _ => (st, .err msg)
    | .setThis k e :: rest =>
      match evalExpr ctx f st thisV argv e with
      | (st1, .ok v) =>
        match setMember ctx f st1 thisV k v with
        | (st2, .ok _) => runOps ctx f st2 thisV argv rest
        | (st2, .err e') => (st2, .err e')
        | (st2, .oot) => (st2, .oot)
      | (st1, .err e') => (st1, .err e')
      | (st1, .oot) => (st1, .oot)
    | .callThis k :: rest =>
      match callMember ctx f st thisV k with
      | (st1, .ok _) => runOps ctx f st1 thisV argv rest
      | (st1, .err e') => (st1, .err e')
      | (st1, .oot) => (st1, .oot)

/-- Evaluate an expression (reading `this.k` may run getter bodies and,
through a proxy, the traps). -/
def evalExpr (ctx : Ctx) (fuel : Nat) (st : St) (thisV : ThisVal)
    (argv : JSValue) (e : Expr) : St × Res JSValue :=
  match fuel with
  | 0 => (st, .oot)
  | f + 1 =>
    match e with
    | .const v => (st, .ok v)
    | .argE => (st, .ok argv)
    | .thisField k => getMember ctx f st thisV k
    | .addNum e' i =>
      match evalExpr ctx f st thisV argv e' with
      | (st1, .ok (.vNum n)) => (st1, .ok (.vNum (n + i)))
      | (st1, .ok _) => (st1, .err "not a number")
      | (st1, r) => (st1, r)

/-- Member read `this.k`. -/
def getMember (ctx : Ctx) (fuel : Nat) (st : St) (thisV : ThisVal)
    (k : Key) : St × Res JSValue :=
  match fuel with
  | 0 => (st, .oot)
  | f + 1 =>
    match thisV with
    | .raw a => reflectGet ctx f st a k (.raw a)
    | .prox pid t => trapGet ctx f st pid t k

/-- Member write `this.k = v`. -/
def setMember (ctx : Ctx) (fuel : Nat) (st : St) (thisV : ThisVal)
    (k : Key) (v : JSValue) : St × Res JSValue :=
  match fuel with
  | 0 => (st, .oot)
  | f + 1 =>
    match thisV with
    | .raw a => reflectSet ctx f st a k v (.raw a)
    | .prox pid t => trapSet ctx f st pid t k v

/-- Member call `this.k()`. -/
def callMember (ctx : Ctx) (fuel : Nat) (st : St) (thisV : ThisVal)
    (k : Key) : St × Res JSValue :=
  match fuel with
  | 0 => (st, .oot)
  | f + 1 =>
    match thisV with
    | .raw a =>
      match reflectGet ctx f st a k (.raw a) with
      | (st1, .ok (.fn fid)) => runFnId ctx f st1 (.raw a) .undef fid
      | (st1, .ok _) => (st1, .err "not a function")
      | (st1, .err e) => (st1, .err e)
      | (st1, .oot) => (st1, .oot)
    | .prox pid t => trapCall ctx f st pid t k

/-- `Reflect.get(target, k, receiver)`: find the nearest descriptor of `k`
on `target`'s chain; return a data value directly, call a getter with
`this = receiver`, and yield `undefined` for a missing key or a setter-only
accessor. -/
def reflectGet (ctx : Ctx) (fuel : Nat) (st : St) (a : Nat) (k : Key)
    (receiver : ThisVal) : St × Res JSValue :=
  match fuel with
  | 0 => (st, .oot)
  | f + 1 =>
    match chainLookup fuel st.heap a k with
    | none => (st, .oot)
    | some none => (st, .ok .undef)
    | some (some (.data v)) => (st, .ok v)
    | some (some (.accessor (some g) _)) => runFnId ctx f st receiver .undef g
    | some (some (.accessor none _)) => (st, .ok .undef)

/-- `Reflect.set(target, k, v, receiver)`: a setter found on `target`'s
chain runs with `this = receiver`; otherwise the data property is created or
updated on the receiver (for a proxy receiver the default `defineProperty`
lands on its target). -/
def reflectSet (ctx : Ctx) (fuel : Nat) (st : St) (a : Nat) (k : Key)
    (v : JSValue) (receiver : ThisVal) : St × Res JSValue :=
  match fuel with
  | 0 => (st, .oot)
  | f + 1 =>
    match chainLookup fuel st.heap a k with
    | none => (st, .oot)
    | some (some (.accessor _ (some s))) =>
      match runFnId ctx f st receiver v s with
      | (st1, .ok _) => (st1, .ok (.vBool true))
      | (st1, .err e) => (st1, .err e)
      | (st1, .oot) => (st1, .oot)
    | some (some (.accessor _ none)) => (st, .ok (.vBool false))
    | _ =>
      ({ st with heap := st.heap.writeProp receiver.targetAddr k v },
        .ok (.vBool true))

/-- The proxy `get` trap of `applyProxy` for a property read.  Disabled or
exempt (`nonMutatingKeys` / `'clone'`) accesses pass straight through via
`Reflect.get(o, prop, receiver)`; a getter read runs the commit protocol;
any other read passes through.  (When the passed-through value is callable
the source wraps it; invoking the wrapper is modelled by `trapCall`.) -/
def trapGet (ctx : Ctx) (fuel : Nat) (st : St) (pid : Nat) (t : Nat)
    (k : Key) : St × Res JSValue :=
  match fuel with
  | 0 => (st, .oot)
  | f + 1 =>
    let recv := ThisVal.prox pid t
    if !st.cell.enabled then reflectGet ctx f st t k recv
    else if st.cell.nonMutatingKeys.contains k || k == "clone" then
      reflectGet ctx f st t k recv
    else
      match isGetter fuel st.heap t k with
      | none => (st, .oot)
      | some true => getterCommit ctx f st pid t k
      | some false => reflectGet ctx f st t k recv

/-- The commit protocol run for a getter read: clone, evaluate the accessor
on the clone via `Reflect.get(cloned, prop, receiver)` under
`enabled = false` (restored on every exit path), then swap and notify on
normal completion, or propagate the error with no swap and no
notification. -/
def getterCommit (ctx : Ctx) (fuel : Nat) (st : St) (pid : Nat) (t : Nat)
    (k : Key) : St × Res JSValue :=
  match fuel with
  | 0 => (st, .oot)
  | f + 1 =>
    match extClone ctx.hook fuel st.heap (.ref t) st.cell.depth
        st.cell.respectCustom with
    | none => (st, .oot)
    | some (h1, cv) =>
      let st1 := ({ st with heap := h1 }).emit (.cloned t cv)
      match cv with
      | .ref ca =>
        let st2 := st1.setEnabled false
        match reflectGet ctx f st2 ca k (.prox pid t) with
        | (st3, .ok v) =>
          let st4 := (st3.setEnabled true).swapCurrent ca
          (st4.fireListeners, .ok v)
        | (st3, .err e) => (st3.setEnabled true, .err e)
        | (st3, .oot) => (st3.setEnabled true, .oot)
      | _ =>
        let st2 := st1.setEnabled false
        (st2.setEnabled true, .err "clone is not an object")

/-- The proxy `set` trap of `applyProxy`.  When disabled, pass through via
`Reflect.set(o, prop, value, receiver)`; otherwise always run the commit
protocol: clone, apply the write to the clone via
`Reflect.set(cloned, prop, value, cloned)` under `enabled = false`
(restored on every exit path), then swap and notify on normal completion, or
propagate the error with no swap and no notification. -/
def trapSet (ctx : Ctx) (fuel : Nat) (st : St) (pid : Nat) (t : Nat)
    (k : Key) (v : JSValue) : St × Res JSValue :=
  match fuel with
  | 0 => (st, .oot)
  | f + 1 =>
    if !st.cell.enabled then reflectSet ctx f st t k v (.prox pid t)
    else
      match extClone ctx.hook fuel st.heap (.ref t) st.cell.depth
          st.cell.respectCustom with
      | none => (st, .oot)
      | some (h1, cv) =>
        let st1 := ({ st with heap := h1 }).emit (.cloned t cv)
        match cv with
        | .ref ca =>
          let st2 := st1.setEnabled false
          match reflectSet ctx f st2 ca k v (.raw ca) with
          | (st3, .ok rv) =>
            let st4 := (st3.setEnabled true).swapCurrent ca
            (st4.fireListeners, .ok rv)
          | (st3, .err e) => (st3.setEnabled true, .err e)
          | (st3, .oot) => (st3.setEnabled true, .oot)
        | _ =>
          let st2 := st1.setEnabled false
          (st2.setEnabled true, .err "clone is not an object")

/-- A member call `proxy.k()`.  The `get` trap classifies the access: on the
pass-through paths the raw function is returned and invoked with
`this = proxy`; on the enabled non-exempt path with a callable value the
trap's wrapper function runs the commit protocol — clone, then
`result = cloned[prop](...args)` (method looked up and invoked on the bare
clone) under `enabled = false` (restored on every exit path), then swap and
notify on normal completion, or propagate the error. -/
def trapCall (ctx : Ctx) (fuel : Nat) (st : St) (pid : Nat) (t : Nat)
    (k : Key) : St × Res JSValue :=
  match fuel with
  | 0 => (st, .oot)
  | f + 1 =>
    let recv := ThisVal.prox pid t
    if !st.cell.enabled then
      match reflectGet ctx f st t k recv with
      | (st1, .ok (.fn fid)) => runFnId ctx f st1 recv .undef fid
      | (st1, .ok _) => (st1, .err "not a function")
      | (st1, .err e) => (st1, .err e)
      | (st1, .oot) => (st1, .oot)
    else if st.cell.nonMutatingKeys.contains k || k == "clone" then
      match reflectGet ctx f st t k recv with
      | (st1, .ok (.fn fid)) => runFnId ctx f st1 recv .undef fid
      | (st1, .ok _) => (st1, .err "not a function")
      | (st1, .err e) => (st1, .err e)
      | (st1, .oot) => (st1, .oot)
    else
      match isGetter fuel st.heap t k with
      | none => (st, .oot)
      | some true =>
        match getterCommit ctx f st pid t k with
        | (st1, .ok (.fn fid)) => runFnId ctx f st1 recv .undef fid
        | (st1, .ok _) => (st1, .err "not a function")
        | (st1, .err e) => (st1, .err e)
        | (st1, .oot) => (st1, .oot)
      | some false =>
        match reflectGet ctx f st t k recv with
        | (st1, .ok v) =>
          if v.isCallable then
            match extClone ctx.hook fuel st1.heap (.ref t) st.cell.depth
                st.cell.respectCustom with
            | none => (st1, .oot)
            | some (h2, cv) =>
              let st2 := ({ st1 with heap := h2 }).emit (.cloned t cv)
              match cv with
              | .ref ca =>
                let st3 := st2.setEnabled false
                let (st5, r2) :=
                  match reflectGet ctx f st3 ca k (.raw ca) with
                  | (st4, .ok (.fn fid2)) => runFnId ctx f st4 (.raw ca) .undef fid2
                  | (st4, .ok _) => (st4, Res.err "not a function")
                  | (st4, .err e) => (st4, Res.err e)
                  | (st4, .oot) => (st4, Res.oot)
                match r2 with
                | .ok rv =>
                  let st6 := (st5.setEnabled true).swapCurrent ca
                  (st6.fireListeners, .ok rv)
                | .err e => (st5.setEnabled true, .err e)
                | .oot => (st5.setEnabled true, .oot)
              | _ =>
                let st3 := st2.setEnabled false
                (st3.setEnabled true, .err "clone is not an object")
          else (st1, .err "not a function")
        | (st1, .err e) => (st1, .err e)
        | (st1, .oot) => (st1, .oot)

end

/-- External operations a caller performs on `cell.current`. -/
inductive ExtOp where
  | read (k : Key) : ExtOp
  | write (k : Key) (v : JSValue) : ExtOp
  | call (k : Key) : ExtOp
deriving Repr, DecidableEq

/-- Run one external access through the current proxy. -/
def execExt (ctx : Ctx) (fuel : Nat) (st : St) (op : ExtOp) :
    St × Res JSValue :=
  match op with
  | .read k => trapGet ctx fuel st st.cell.currentProxyId st.cell.currentTarget k
  | .write k v => trapSet ctx fuel st st.cell.currentProxyId st.cell.currentTarget k v
  | .call k => trapCall ctx fuel st st.cell.currentProxyId st.cell.currentTarget k

/-! ## Basic heap and property-list lemmas -/

theorem Heap.get_set_self (h : Heap) (a : Nat) (o : Obj) :
    (h.set a o).get a = some o := by
  simp [Heap.get, Heap.set]

theorem Heap.get_set_ne (h : Heap) (a b : Nat) (o : Obj) (hne : b ≠ a) :
    (h.set a o).get b = h.get b := by
  simp only [Heap.get, Heap.set]
  rw [List.find?_cons_of_neg]
  simp [Ne.symm hne]

theorem Heap.next_set (h : Heap) (a : Nat) (o : Obj) :
    (h.set a o).next = h.next := rfl

theorem Heap.alloc_fst (h : Heap) (o : Obj) : (h.alloc o).1 = h.next := rfl

theorem Heap.alloc_next (h : Heap) (o : Obj) :
    (h.alloc o).2.next = h.next + 1 := rfl

theorem Heap.get_alloc_self (h : Heap) (o : Obj) :
    (h.alloc o).2.get h.next = some o := by
  simp [Heap.get, Heap.alloc]

theorem Heap.get_alloc_ne (h : Heap) (o : Obj) (b : Nat) (hne : b ≠ h.next) :
    (h.alloc o).2.get b = h.get b := by
  simp only [Heap.get, Heap.alloc]
  rw [List.find?_cons_of_neg]
  simp [Ne.symm hne]

theorem Heap.get_none_of_le_next (h : Heap) (hwf : h.WF) (a : Nat)
    (ha : h.next ≤ a) : h.get a = none := by
  rcases hwf with ⟨h1, -, -⟩
  have hfind : h.objs.find? (fun p => p.1 == a) = none := by
    rw [List.find?_eq_none]
    intro p hp
    have hlt := h1 p hp
    intro hcontra
    simp only [beq_iff_eq] at hcontra
    omega
  unfold Heap.get
  rw [hfind]
  rfl

theorem propsGet_nil (k : Key) : propsGet [] k = none := rfl

theorem propsGet_cons (k0 : Key) (d0 : Desc) (rest : List (Key × Desc))
    (k : Key) :
    propsGet ((k0, d0) :: rest) k = if k0 = k then some d0 else propsGet rest k := by
  by_cases hk : k0 = k
  · subst hk
    simp only [propsGet, if_pos rfl]
    rw [List.find?_cons_of_pos _ (by simp)]
    rfl
  · simp only [propsGet, if_neg hk]
    rw [List.find?_cons_of_neg]
    simp [hk]

theorem propsSet_cons_hit (k0 : Key) (d0 : Desc) (rest : List (Key × Desc))
    (d : Desc) : propsSet ((k0, d0) :: rest) k0 d = (k0, d) :: rest := by
  simp [propsSet]

theorem propsSet_cons_miss (k0 : Key) (d0 : Desc) (rest : List (Key × Desc))
    (k : Key) (d : Desc) (hk : k0 ≠ k) :
    propsSet ((k0, d0) :: rest) k d = (k0, d0) :: propsSet rest k d := by
  simp [propsSet, hk]

theorem propsGet_propsSet_self (ps : List (Key × Desc)) (k : Key) (d : Desc) :
    propsGet (propsSet ps k d) k = some d := by
  induction ps with
  | nil => simp [propsSet, propsGet_cons]
  | cons p rest ih =>
    obtain ⟨k', d'⟩ := p
    by_cases hk : k' = k
    · subst hk
      rw [propsSet_cons_hit, propsGet_cons, if_pos rfl]
    · rw [propsSet_cons_miss _ _ _ _ _ hk, propsGet_cons, if_neg hk, ih]

theorem propsGet_propsSet_ne (ps : List (Key × Desc)) (k k' : Key) (d : Desc)
    (hne : k' ≠ k) : propsGet (propsSet ps k d) k' = propsGet ps k' := by
  induction ps with
  | nil => simp [propsSet, propsGet_cons, Ne.symm hne]
  | cons p rest ih =>
    obtain ⟨k0, d0⟩ := p
    by_cases hk : k0 = k
    · subst hk
      rw [propsSet_cons_hit, propsGet_cons, propsGet_cons,
        if_neg (Ne.symm hne), if_neg (Ne.symm hne)]
    · rw [propsSet_cons_miss _ _ _ _ _ hk, propsGet_cons, propsGet_cons, ih]

theorem seenGet_nil (a : Nat) : seenGet [] a = none := rfl

theorem seenGet_cons (seen : Seen) (a b x : Nat) :
    seenGet ((a, b) :: seen) x = if a = x then some b else seenGet seen x := by
  by_cases hx : a = x
  · subst hx
    simp only [seenGet, if_pos rfl]
    rw [List.find?_cons_of_pos _ (by simp)]
    rfl
  · simp only [seenGet, if_neg hx]
    rw [List.find?_cons_of_neg]
    simp [hx]

/-- `chainLookup` is monotone in fuel on successful lookups. -/
theorem chainLookup_mono (h : Heap) (k : Key) :
    ∀ (f f' : Nat) (a : Nat) (r : Option Desc), f ≤ f' →
      chainLookup f h a k = some r → chainLookup f' h a k = some r := by
  intro f
  induction f with
  | zero => intro f' a r _ hc; simp [chainLookup] at hc
  | succ f ih =>
    intro f' a r hle hc
    rcases f' with _ | f'
    · omega
    rcases hget : h.get a with _ | o
    · simp only [chainLookup, hget] at hc ⊢; exact hc
    · rcases hp : propsGet o.props k with _ | d
      · rcases hpr : o.proto with _ | p
        · simp only [chainLookup, hget, hp, hpr] at hc ⊢; exact hc
        · simp only [chainLookup, hget, hp, hpr] at hc ⊢
          exact ih f' p r (by omega) hc
      · simp only [chainLookup, hget, hp] at hc ⊢; exact hc

/-- Whether the nearest descriptor defines a callable getter
(`isCallable(descriptor.get)` — `undefined` for a data descriptor). -/
def descCallableGet : Option Desc → Bool
  | some (.accessor (some _) _) => true
  | _ => false

/-- C10: `isGetter` consults only the nearest own descriptor along the
prototype chain: it computes exactly `descCallableGet` of the nearest
descriptor found by `chainLookup`.  In particular a stored-value (data) or
setter-only descriptor shadowing an ancestor's getter yields `false`, and an
exhausted chain yields `false`. -/
theorem c10_isGetter_nearest_descriptor (h : Heap) (k : Key) :
    ∀ (fuel : Nat) (a : Nat),
      isGetter fuel h a k = (chainLookup fuel h a k).map descCallableGet := by
  intro fuel
  induction fuel with
  | zero => intro a; rfl
  | succ f ih =>
    intro a
    rcases hget : h.get a with _ | o
    · simp only [isGetter, chainLookup, hget]; rfl
    · rcases hp : propsGet o.props k with _ | d
      · rcases hpr : o.proto with _ | p
        · simp only [isGetter, chainLookup, hget, hp, hpr]; rfl
        · simp only [isGetter, chainLookup, hget, hp, hpr]; exact ih p
      · simp only [isGetter, chainLookup, hget, hp]
        cases d with
        | data v => rfl
        | accessor g s => cases g <;> rfl

/-- C9: `extClone` is the identity on `null` and non-function primitives,
for every depth (negative, zero, positive or `"max"`), every
`respectCustom` setting and every custom-clone interpretation: the heap is
returned unchanged along with the input value itself. -/
theorem c9_extClone_identity_on_primitives (hook : Hook) (fuel : Nat)
    (h : Heap) (v : JSValue) (depth : CloneDepth) (respectCustom : Bool)
    (hprim : v.isPrimitiveNonFunction = true) :
    extClone hook fuel h v depth respectCustom = some (h, v) := by
  cases v
  case fn fid => simp [JSValue.isPrimitiveNonFunction] at hprim
  case ref a => simp [JSValue.isPrimitiveNonFunction] at hprim
  all_goals
    cases depth with
    | max => simp [extClone, isCustomCloneable, cloneDeep]
    | num d =>
      by_cases hd : d = 0
      · subst hd; simp [extClone, isCustomCloneable, lodashClone]
      · simp [extClone, isCustomCloneable, extCloneRec, lodashClone, hd]

/-- Closed instance of C9 at a concrete primitive input. -/
theorem c9_extClone_identity_on_primitives_witness :
    JSValue.vNull.isPrimitiveNonFunction = true ∧
      extClone (fun h _ a => (h, .ref a)) 0 ⟨[], 0⟩ .vNull (.num (-2)) true =
        some (⟨[], 0⟩, .vNull) :=
  ⟨rfl, c9_extClone_identity_on_primitives _ 0 _ _ _ _ rfl⟩

/-! ## Preservation invariants of the structural clone

`extCloneRec` (and its props walk) only allocates fresh addresses and writes
only to those, so every pre-existing object is untouched; the seen map grows
by fresh clone addresses only. -/

/-- Preservation statement for `extCloneRecProps` at depth `d`. -/
def PropsWalkPres (d : Int) : Prop :=
  ∀ h seen ps h' seen' ps', extCloneRecProps h seen ps d = (h', seen', ps') →
    h.next ≤ h'.next ∧ (∀ x, x < h.next → h'.get x = h.get x) ∧
    ∃ pre, seen' = pre ++ seen ∧ ∀ p ∈ pre, h.next ≤ p.2 ∧ p.2 < h'.next

/-- Preservation statement for `extCloneRec` at depth `d`. -/
def CloneRecPres (d : Int) : Prop :=
  ∀ h seen v h' seen' v', extCloneRec h seen v d = (h', seen', v') →
    h.next ≤ h'.next ∧ (∀ x, x < h.next → h'.get x = h.get x) ∧
    ∃ pre, seen' = pre ++ seen ∧ ∀ p ∈ pre, h.next ≤ p.2 ∧ p.2 < h'.next

theorem propsWalkPres_of_rec (d : Int)
    (hrec : ¬ d ≤ 0 → CloneRecPres (d - 1)) : PropsWalkPres d := by
  intro h0 seen0 ps
  induction ps generalizing h0 seen0 with
  | nil =>
    intro h' seen' ps' heq
    simp only [extCloneRecProps, Prod.mk.injEq] at heq
    obtain ⟨rfl, rfl, rfl⟩ := heq
    exact ⟨le_refl _, fun x _ => rfl, [], by simp, by simp⟩
  | cons p rest ih =>
    intro h' seen' ps' heq
    obtain ⟨k, dsc⟩ := p
    have hgeneric : ∀ (h2 : Heap) (seen2 : Seen) (rest' : List (Key × Desc)),
        extCloneRecProps h0 seen0 rest d = (h2, seen2, rest') →
        h2 = h' → seen2 = seen' →
        h0.next ≤ h'.next ∧ (∀ x, x < h0.next → h'.get x = h0.get x) ∧
        ∃ pre, seen' = pre ++ seen0 ∧ ∀ p ∈ pre, h0.next ≤ p.2 ∧ p.2 < h'.next := by
      intro h2 seen2 rest' hrest hh hs
      rw [← hh, ← hs]
      exact ih h0 seen0 h2 seen2 rest' hrest
    rcases dsc with v | ⟨g, s⟩
    · rcases v with _ | _ | n | sv | b | fid | b
      case ref =>
        by_cases hd : d ≤ 0
        · rcases hrest : extCloneRecProps h0 seen0 rest d with ⟨h2, seen2, rest'⟩
          simp only [extCloneRecProps, hd, if_true, hrest, Prod.mk.injEq] at heq
          exact hgeneric h2 seen2 rest' hrest heq.1 heq.2.1
        · rcases hone : extCloneRec h0 seen0 (.ref b) (d - 1) with ⟨h1, seen1, v'⟩
          rcases hrest : extCloneRecProps h1 seen1 rest d with ⟨h2, seen2, rest'⟩
          simp only [extCloneRecProps, hd, if_false, hone, hrest, Prod.mk.injEq] at heq
          obtain ⟨rfl, rfl, -⟩ := heq
          obtain ⟨hn1, hg1, pre1, rfl, hb1⟩ := hrec hd h0 seen0 (.ref b) h1 seen1 v' hone
          obtain ⟨hn2, hg2, pre2, rfl, hb2⟩ := ih h1 (pre1 ++ seen0) h2 seen2 rest' hrest
          refine ⟨le_trans hn1 hn2, ?_, pre2 ++ pre1, by rw [List.append_assoc], ?_⟩
          · intro x hx
            rw [hg2 x (by omega), hg1 x hx]
          · intro p hp
            rcases List.mem_append.mp hp with hp2 | hp1
            · have h3 := hb2 p hp2; omega
            · have h3 := hb1 p hp1; omega
      all_goals
        rcases hrest : extCloneRecProps h0 seen0 rest d with ⟨h2, seen2, rest'⟩
      all_goals
        simp only [extCloneRecProps, hrest, Prod.mk.injEq] at heq
      all_goals
        exact hgeneric h2 seen2 rest' hrest heq.1 heq.2.1
    · rcases hrest : extCloneRecProps h0 seen0 rest d with ⟨h2, seen2, rest'⟩
      simp only [extCloneRecProps, hrest, Prod.mk.injEq] at heq
      exact hgeneric h2 seen2 rest' hrest heq.1 heq.2.1

theorem cloneRecPres_of_props (d : Int) (hp : PropsWalkPres d) :
    CloneRecPres d := by
  intro h seen v h' seen' v' heq
  have htriv : h = h' → seen = seen' →
      h.next ≤ h'.next ∧ (∀ x, x < h.next → h'.get x = h.get x) ∧
      ∃ pre, seen' = pre ++ seen ∧ ∀ p ∈ pre, h.next ≤ p.2 ∧ p.2 < h'.next := by
    intro hh hs; subst hh; subst hs
    exact ⟨le_refl _, fun x _ => rfl, [], by simp, by simp⟩
  cases v with
  | ref a =>
    rcases hs : seenGet seen a with _ | a'
    · rcases hg : h.get a with _ | o
      · simp only [extCloneRec, hs, hg, Prod.mk.injEq] at heq
        exact htriv heq.1 heq.2.1
      · rcases hps : extCloneRecProps ⟨(h.next, ⟨o.props, o.proto⟩) :: h.objs, h.next + 1⟩
            ((a, h.next) :: seen) o.props d with ⟨h2, seen2, ps⟩
        simp only [extCloneRec, hs, hg, Heap.alloc, hps, Prod.mk.injEq] at heq
        obtain ⟨rfl, rfl, -⟩ := heq
        obtain ⟨hn2, hg2, pre, rfl, hb⟩ := hp _ _ _ _ _ _ hps
        have hn2' : h.next + 1 ≤ h2.next := hn2
        refine ⟨?_, ?_, pre ++ [(a, h.next)], by rw [List.append_assoc]; rfl, ?_⟩
        · have : (h2.set h.next ⟨ps, o.proto⟩).next = h2.next := Heap.next_set h2 _ _
          omega
        · intro x hx
          rw [Heap.get_set_ne _ _ _ _ (by omega)]
          have hx1 : x < (⟨(h.next, ⟨o.props, o.proto⟩) :: h.objs, h.next + 1⟩ : Heap).next := by
            show x < h.next + 1; omega
          rw [hg2 x hx1]
          exact Heap.get_alloc_ne h ⟨o.props, o.proto⟩ x (by omega)
        · intro p hp'
          have hsetnext : (h2.set h.next ⟨ps, o.proto⟩).next = h2.next := Heap.next_set h2 _ _
          rcases List.mem_append.mp hp' with hp2 | hp1
          · have h3 : h.next + 1 ≤ p.2 ∧ p.2 < h2.next := hb p hp2
            constructor
            · omega
            · rw [hsetnext]; omega
          · simp only [List.mem_singleton] at hp1
            subst hp1
            constructor
            · exact le_refl _
            · rw [hsetnext]; omega
    · simp only [extCloneRec, hs, Prod.mk.injEq] at heq
      exact htriv heq.1 heq.2.1
  | undef => simp only [extCloneRec, Prod.mk.injEq] at heq; exact htriv heq.1 heq.2.1
  | vNull => simp only [extCloneRec, Prod.mk.injEq] at heq; exact htriv heq.1 heq.2.1
  | vNum n => simp only [extCloneRec, Prod.mk.injEq] at heq; exact htriv heq.1 heq.2.1
  | vStr s => simp only [extCloneRec, Prod.mk.injEq] at heq; exact htriv heq.1 heq.2.1
  | vBool b => simp only [extCloneRec, Prod.mk.injEq] at heq; exact htriv heq.1 heq.2.1
  | fn fid => simp only [extCloneRec, Prod.mk.injEq] at heq; exact htriv heq.1 heq.2.1

theorem extCloneRec_preserves : ∀ d : Int, PropsWalkPres d ∧ CloneRecPres d := by
  have main : ∀ (n : Nat) (d : Int), d.toNat ≤ n → PropsWalkPres d ∧ CloneRecPres d := by
    intro n
    induction n with
    | zero =>
      intro d hd
      have hp : PropsWalkPres d :=
        propsWalkPres_of_rec d (fun hpos => absurd (by omega : d ≤ 0) hpos)
      exact ⟨hp, cloneRecPres_of_props d hp⟩
    | succ m ih =>
      intro d hd
      have hp : PropsWalkPres d :=
        propsWalkPres_of_rec d (fun hpos => (ih (d - 1) (by omega)).2)
      exact ⟨hp, cloneRecPres_of_props d hp⟩
  exact fun d => main d.toNat d (le_refl _)

/-! ## Shape of cloned property lists

A clone's own property list mirrors the source: keys in the same order,
primitives, functions and accessor descriptors copied verbatim, object
references possibly repointed. -/

/-- Relation between a source descriptor and its counterpart on a clone. -/
inductive DescSim : Desc → Desc → Prop where
  | dataRef (a b : Nat) : DescSim (.data (.ref a)) (.data (.ref b))
  | same (d : Desc) : DescSim d d

/-- Clone property lists mirror the source key-for-key. -/
def PropsSim (ps ps' : List (Key × Desc)) : Prop :=
  List.Forall₂ (fun p q => p.1 = q.1 ∧ DescSim p.2 q.2) ps ps'

theorem propsGet_of_sim {ps ps' : List (Key × Desc)} (hsim : PropsSim ps ps')
    (k : Key) :
    (propsGet ps k = none → propsGet ps' k = none) ∧
    (∀ dsc, propsGet ps k = some dsc →
      ∃ dsc', propsGet ps' k = some dsc' ∧ DescSim dsc dsc') := by
  induction hsim with
  | nil => exact ⟨fun _ => rfl, fun dsc h => by simp [propsGet_nil] at h⟩
  | cons hpq hrest ih =>
    rename_i p q ps0 ps0'
    obtain ⟨hk, hd⟩ := hpq
    obtain ⟨k0, d0⟩ := p
    obtain ⟨k0', d0'⟩ := q
    simp only at hk hd
    subst hk
    constructor
    · intro hnone
      rw [propsGet_cons] at hnone ⊢
      by_cases hkk : k0 = k
      · simp [hkk] at hnone
      · rw [if_neg hkk] at hnone ⊢
        exact ih.1 hnone
    · intro dsc hsome
      rw [propsGet_cons] at hsome ⊢
      by_cases hkk : k0 = k
      · rw [if_pos hkk] at hsome ⊢
        obtain rfl := Option.some_inj.mp hsome
        exact ⟨d0', rfl, hd⟩
      · rw [if_neg hkk] at hsome ⊢
        exact ih.2 dsc hsome

/-- `extCloneRec` maps object references to object references. -/
theorem extCloneRec_ref_shape (h : Heap) (s : Seen) (b : Nat) (d : Int)
    (h' : Heap) (s' : Seen) (v' : JSValue)
    (heq : extCloneRec h s (.ref b) d = (h', s', v')) :
    ∃ b', v' = .ref b' := by
  rcases hs : seenGet s b with _ | b0
  · rcases hg : h.get b with _ | o
    · simp only [extCloneRec, hs, hg, Prod.mk.injEq] at heq
      exact ⟨b, heq.2.2.symm⟩
    · rcases hps : extCloneRecProps ⟨(h.next, ⟨o.props, o.proto⟩) :: h.objs, h.next + 1⟩
          ((b, h.next) :: s) o.props d with ⟨h2, s2, ps⟩
      simp only [extCloneRec, hs, hg, Heap.alloc, hps, Prod.mk.injEq] at heq
      exact ⟨h.next, heq.2.2.symm⟩
  · simp only [extCloneRec, hs, Prod.mk.injEq] at heq
    exact ⟨b0, heq.2.2.symm⟩

/-- The props walk of `extCloneRec` produces a similar property list. -/
theorem extCloneRecProps_sim (d : Int) :
    ∀ (ps : List (Key × Desc)) (h : Heap) (s : Seen) (h' : Heap) (s' : Seen)
      (ps' : List (Key × Desc)),
      extCloneRecProps h s ps d = (h', s', ps') → PropsSim ps ps' := by
  intro ps
  induction ps with
  | nil =>
    intro h s h' s' ps' heq
    simp only [extCloneRecProps, Prod.mk.injEq] at heq
    obtain ⟨-, -, rfl⟩ := heq
    exact List.Forall₂.nil
  | cons p rest ih =>
    intro h s h' s' ps' heq
    obtain ⟨k, dsc⟩ := p
    rcases dsc with v | ⟨g, st⟩
    · rcases v with _ | _ | n | sv | bb | fid | b
      case ref =>
        by_cases hd : d ≤ 0
        · rcases hrest : extCloneRecProps h s rest d with ⟨h2, s2, rest'⟩
          simp only [extCloneRecProps, hd, if_true, hrest, Prod.mk.injEq] at heq
          obtain ⟨-, -, rfl⟩ := heq
          exact List.Forall₂.cons ⟨rfl, DescSim.same _⟩ (ih h s h2 s2 rest' hrest)
        · rcases hone : extCloneRec h s (.ref b) (d - 1) with ⟨h1, s1, v'⟩
          rcases hrest : extCloneRecProps h1 s1 rest d with ⟨h2, s2, rest'⟩
          simp only [extCloneRecProps, hd, if_false, hone, hrest, Prod.mk.injEq] at heq
          obtain ⟨-, -, rfl⟩ := heq
          obtain ⟨b', rfl⟩ := extCloneRec_ref_shape h s b (d - 1) h1 s1 v' hone
          exact List.Forall₂.cons ⟨rfl, DescSim.dataRef b b'⟩ (ih h1 s1 h2 s2 rest' hrest)
      all_goals
        rcases hrest : extCloneRecProps h s rest d with ⟨h2, s2, rest'⟩
      all_goals
        simp only [extCloneRecProps, hrest, Prod.mk.injEq] at heq
      all_goals
        obtain ⟨-, -, rfl⟩ := heq
      all_goals
        exact List.Forall₂.cons ⟨rfl, DescSim.same _⟩ (ih h s h2 s2 rest' hrest)
    · rcases hrest : extCloneRecProps h s rest d with ⟨h2, s2, rest'⟩
      simp only [extCloneRecProps, hrest, Prod.mk.injEq] at heq
      obtain ⟨-, -, rfl⟩ := heq
      exact List.Forall₂.cons ⟨rfl, DescSim.same _⟩ (ih h s h2 s2 rest' hrest)

/-! ## The same invariants for the deep-clone model -/

/-- Preservation statement for `cloneDeep` at fuel `f`. -/
def CloneDeepPres (f : Nat) : Prop :=
  ∀ h seen v h' seen' v', cloneDeep f h seen v = some (h', seen', v') →
    h.next ≤ h'.next ∧ (∀ x, x < h.next → h'.get x = h.get x) ∧
    ∃ pre, seen' = pre ++ seen ∧ ∀ p ∈ pre, h.next ≤ p.2 ∧ p.2 < h'.next

/-- Preservation statement for `cloneDeepProps` at fuel `f`. -/
def CloneDeepPropsPres (f : Nat) : Prop :=
  ∀ h seen ps h' seen' ps', cloneDeepProps f h seen ps = some (h', seen', ps') →
    h.next ≤ h'.next ∧ (∀ x, x < h.next → h'.get x = h.get x) ∧
    ∃ pre, seen' = pre ++ seen ∧ ∀ p ∈ pre, h.next ≤ p.2 ∧ p.2 < h'.next

theorem propsDeepPres_of_deep (f : Nat) (hd : CloneDeepPres f) :
    CloneDeepPropsPres f := by
  intro h0 seen0 ps
  induction ps generalizing h0 seen0 with
  | nil =>
    intro h' seen' ps' heq
    simp only [cloneDeepProps, Option.some.injEq, Prod.mk.injEq] at heq
    obtain ⟨rfl, rfl, rfl⟩ := heq
    exact ⟨le_refl _, fun x _ => rfl, [], by simp, by simp⟩
  | cons p rest ih =>
    intro h' seen' ps' heq
    obtain ⟨k, dsc⟩ := p
    have hgeneric : ∀ (h2 : Heap) (seen2 : Seen) (rest' : List (Key × Desc)),
        cloneDeepProps f h0 seen0 rest = some (h2, seen2, rest') →
        h2 = h' → seen2 = seen' →
        h0.next ≤ h'.next ∧ (∀ x, x < h0.next → h'.get x = h0.get x) ∧
        ∃ pre, seen' = pre ++ seen0 ∧ ∀ p ∈ pre, h0.next ≤ p.2 ∧ p.2 < h'.next := by
      intro h2 seen2 rest' hrest hh hs
      rw [← hh, ← hs]
      exact ih h0 seen0 h2 seen2 rest' hrest
    rcases dsc with v | ⟨g, st⟩
    · rcases v with _ | _ | n | sv | bb | fid | b
      case ref =>
        rcases hone : cloneDeep f h0 seen0 (.ref b) with _ | ⟨h1, seen1, v'⟩
        · simp only [cloneDeepProps, hone] at heq
          exact Option.noConfusion heq
        · rcases hrest : cloneDeepProps f h1 seen1 rest with _ | ⟨h2, seen2, rest'⟩
          · simp only [cloneDeepProps, hone, hrest] at heq
            exact Option.noConfusion heq
          · simp only [cloneDeepProps, hone, hrest, Option.some.injEq,
              Prod.mk.injEq] at heq
            obtain ⟨rfl, rfl, -⟩ := heq
            obtain ⟨hn1, hg1, pre1, rfl, hb1⟩ := hd h0 seen0 (.ref b) h1 seen1 v' hone
            obtain ⟨hn2, hg2, pre2, rfl, hb2⟩ := ih h1 (pre1 ++ seen0) h2 seen2 rest' hrest
            refine ⟨le_trans hn1 hn2, ?_, pre2 ++ pre1, by rw [List.append_assoc], ?_⟩
            · intro x hx
              rw [hg2 x (by omega), hg1 x hx]
            · intro p hp
              rcases List.mem_append.mp hp with hp2 | hp1
              · have h3 := hb2 p hp2; omega
              · have h3 := hb1 p hp1; omega
      all_goals
        rcases hrest : cloneDeepProps f h0 seen0 rest with _ | ⟨h2, seen2, rest'⟩ <;>
          simp only [cloneDeepProps, hrest, Option.some.injEq, Prod.mk.injEq] at heq
      all_goals
        first
          | exact Option.noConfusion heq
          | exact hgeneric h2 seen2 rest' hrest heq.1 heq.2.1
    · rcases hrest : cloneDeepProps f h0 seen0 rest with _ | ⟨h2, seen2, rest'⟩
      · simp only [cloneDeepProps, hrest] at heq
        exact Option.noConfusion heq
      · simp only [cloneDeepProps, hrest, Option.some.injEq, Prod.mk.injEq] at heq
        exact hgeneric h2 seen2 rest' hrest heq.1 heq.2.1

theorem cloneDeepPres_zero : CloneDeepPres 0 := by
  intro h seen v h' seen' v' heq
  have htriv : h = h' → seen = seen' →
      h.next ≤ h'.next ∧ (∀ x, x < h.next → h'.get x = h.get x) ∧
      ∃ pre, seen' = pre ++ seen ∧ ∀ p ∈ pre, h.next ≤ p.2 ∧ p.2 < h'.next := by
    intro hh hs; rw [← hh, ← hs]
    exact ⟨le_refl _, fun x _ => rfl, [], by simp, by simp⟩
  cases v with
  | ref a =>
    rcases hs : seenGet seen a with _ | a'
    · rcases hg : h.get a with _ | o
      · simp only [cloneDeep, hs, hg, Option.some.injEq, Prod.mk.injEq] at heq
        exact htriv heq.1 heq.2.1
      · simp only [cloneDeep, hs, hg] at heq
        exact Option.noConfusion heq
    · simp only [cloneDeep, hs, Option.some.injEq, Prod.mk.injEq] at heq
      exact htriv heq.1 heq.2.1
  | undef => simp only [cloneDeep, Option.some.injEq, Prod.mk.injEq] at heq; exact htriv heq.1 heq.2.1
  | vNull => simp only [cloneDeep, Option.some.injEq, Prod.mk.injEq] at heq; exact htriv heq.1 heq.2.1
  | vNum n => simp only [cloneDeep, Option.some.injEq, Prod.mk.injEq] at heq; exact htriv heq.1 heq.2.1
  | vStr s => simp only [cloneDeep, Option.some.injEq, Prod.mk.injEq] at heq; exact htriv heq.1 heq.2.1
  | vBool b => simp only [cloneDeep, Option.some.injEq, Prod.mk.injEq] at heq; exact htriv heq.1 heq.2.1
  | fn fid => simp only [cloneDeep, Option.some.injEq, Prod.mk.injEq] at heq; exact htriv heq.1 heq.2.1

theorem cloneDeepPres_succ (f : Nat) (hp : CloneDeepPropsPres f) :
    CloneDeepPres (f + 1) := by
  intro h seen v h' seen' v' heq
  have htriv : h = h' → seen = seen' →
      h.next ≤ h'.next ∧ (∀ x, x < h.next → h'.get x = h.get x) ∧
      ∃ pre, seen' = pre ++ seen ∧ ∀ p ∈ pre, h.next ≤ p.2 ∧ p.2 < h'.next := by
    intro hh hs; rw [← hh, ← hs]
    exact ⟨le_refl _, fun x _ => rfl, [], by simp, by simp⟩
  cases v with
  | ref a =>
    rcases hs : seenGet seen a with _ | a'
    · rcases hg : h.get a with _ | o
      · simp only [cloneDeep, hs, hg, Option.some.injEq, Prod.mk.injEq] at heq
        exact htriv heq.1 heq.2.1
      · rcases hps : cloneDeepProps f ⟨(h.next, ⟨o.props, o.proto⟩) :: h.objs, h.next + 1⟩
            ((a, h.next) :: seen) o.props with _ | ⟨h2, seen2, ps⟩
        · simp only [cloneDeep, hs, hg, Heap.alloc, hps] at heq
          exact Option.noConfusion heq
        · simp only [cloneDeep, hs, hg, Heap.alloc, hps, Option.some.injEq,
            Prod.mk.injEq] at heq
          obtain ⟨rfl, rfl, -⟩ := heq
          obtain ⟨hn2, hg2, pre, rfl, hb⟩ := hp _ _ _ _ _ _ hps
          have hn2' : h.next + 1 ≤ h2.next := hn2
          refine ⟨?_, ?_, pre ++ [(a, h.next)], by rw [List.append_assoc]; rfl, ?_⟩
          · have : (h2.set h.next ⟨ps, o.proto⟩).next = h2.next := Heap.next_set h2 _ _
            omega
          · intro x hx
            rw [Heap.get_set_ne _ _ _ _ (by omega)]
            have hx1 : x < (⟨(h.next, ⟨o.props, o.proto⟩) :: h.objs, h.next + 1⟩ : Heap).next := by
              show x < h.next + 1; omega
            rw [hg2 x hx1]
            exact Heap.get_alloc_ne h ⟨o.props, o.proto⟩ x (by omega)
          · intro p hp'
            have hsetnext : (h2.set h.next ⟨ps, o.proto⟩).next = h2.next := Heap.next_set h2 _ _
            rcases List.mem_append.mp hp' with hp2 | hp1
            · have h3 : h.next + 1 ≤ p.2 ∧ p.2 < h2.next := hb p hp2
              constructor
              · omega
              · rw [hsetnext]; omega
            · simp only [List.mem_singleton] at hp1
              subst hp1
              constructor
              · exact le_refl _
              · rw [hsetnext]; omega
    · simp only [cloneDeep, hs, Option.some.injEq, Prod.mk.injEq] at heq
      exact htriv heq.1 heq.2.1
  | undef => simp only [cloneDeep, Option.some.injEq, Prod.mk.injEq] at heq; exact htriv heq.1 heq.2.1
  | vNull => simp only [cloneDeep, Option.some.injEq, Prod.mk.injEq] at heq; exact htriv heq.1 heq.2.1
  | vNum n => simp only [cloneDeep, Option.some.injEq, Prod.mk.injEq] at heq; exact htriv heq.1 heq.2.1
  | vStr s => simp only [cloneDeep, Option.some.injEq, Prod.mk.injEq] at heq; exact htriv heq.1 heq.2.1
  | vBool b => simp only [cloneDeep, Option.some.injEq, Prod.mk.injEq] at heq; exact htriv heq.1 heq.2.1
  | fn fid => simp only [cloneDeep, Option.some.injEq, Prod.mk.injEq] at heq; exact htriv heq.1 heq.2.1

theorem cloneDeep_preserves : ∀ f : Nat, CloneDeepPres f ∧ CloneDeepPropsPres f := by
  intro f
  induction f with
  | zero => exact ⟨cloneDeepPres_zero, propsDeepPres_of_deep 0 cloneDeepPres_zero⟩
  | succ f ih =>
    have hd := cloneDeepPres_succ f ih.2
    exact ⟨hd, propsDeepPres_of_deep (f + 1) hd⟩

/-- `cloneDeep` maps object references to object references. -/
theorem cloneDeep_ref_shape (f : Nat) (h : Heap) (s : Seen) (b : Nat)
    (h' : Heap) (s' : Seen) (v' : JSValue)
    (heq : cloneDeep f h s (.ref b) = some (h', s', v')) :
    ∃ b', v' = .ref b' := by
  rcases hs : seenGet s b with _ | b0
  · rcases hg : h.get b with _ | o
    · simp only [cloneDeep, hs, hg, Option.some.injEq, Prod.mk.injEq] at heq
      exact ⟨b, heq.2.2.symm⟩
    · rcases f with _ | f
      · simp only [cloneDeep, hs, hg] at heq
        exact Option.noConfusion heq
      · rcases hps : cloneDeepProps f ⟨(h.next, ⟨o.props, o.proto⟩) :: h.objs, h.next + 1⟩
            ((b, h.next) :: s) o.props with _ | ⟨h2, s2, ps⟩
        · simp only [cloneDeep, hs, hg, Heap.alloc, hps] at heq
          exact Option.noConfusion heq
        · simp only [cloneDeep, hs, hg, Heap.alloc, hps, Option.some.injEq,
            Prod.mk.injEq] at heq
          exact ⟨h.next, heq.2.2.symm⟩
  · simp only [cloneDeep, hs, Option.some.injEq, Prod.mk.injEq] at heq
    exact ⟨b0, heq.2.2.symm⟩

/-- The props walk of `cloneDeep` produces a similar property list. -/
theorem cloneDeepProps_sim (f : Nat) :
    ∀ (ps : List (Key × Desc)) (h : Heap) (s : Seen) (h' : Heap) (s' : Seen)
      (ps' : List (Key × Desc)),
      cloneDeepProps f h s ps = some (h', s', ps') → PropsSim ps ps' := by
  intro ps
  induction ps with
  | nil =>
    intro h s h' s' ps' heq
    simp only [cloneDeepProps, Option.some.injEq, Prod.mk.injEq] at heq
    obtain ⟨-, -, rfl⟩ := heq
    exact List.Forall₂.nil
  | cons p rest ih =>
    intro h s h' s' ps' heq
    obtain ⟨k, dsc⟩ := p
    rcases dsc with v | ⟨g, st⟩
    · rcases v with _ | _ | n | sv | bb | fid | b
      case ref =>
        rcases hone : cloneDeep f h s (.ref b) with _ | ⟨h1, s1, v'⟩
        · simp only [cloneDeepProps, hone] at heq
          exact Option.noConfusion heq
        · rcases hrest : cloneDeepProps f h1 s1 rest with _ | ⟨h2, s2, rest'⟩
          · simp only [cloneDeepProps, hone, hrest] at heq
            exact Option.noConfusion heq
          · simp only [cloneDeepProps, hone, hrest, Option.some.injEq,
              Prod.mk.injEq] at heq
            obtain ⟨-, -, rfl⟩ := heq
            obtain ⟨b', rfl⟩ := cloneDeep_ref_shape f h s b h1 s1 v' hone
            exact List.Forall₂.cons ⟨rfl, DescSim.dataRef b b'⟩ (ih h1 s1 h2 s2 rest' hrest)
      all_goals
        rcases hrest : cloneDeepProps f h s rest with _ | ⟨h2, s2, rest'⟩ <;>
          simp only [cloneDeepProps, hrest, Option.some.injEq, Prod.mk.injEq] at heq
      all_goals
        first
          | exact Option.noConfusion heq
          | (obtain ⟨-, -, rfl⟩ := heq
             exact List.Forall₂.cons ⟨rfl, DescSim.same _⟩ (ih h s h2 s2 rest' hrest))
    · rcases hrest : cloneDeepProps f h s rest with _ | ⟨h2, s2, rest'⟩
      · simp only [cloneDeepProps, hrest] at heq
        exact Option.noConfusion heq
      · simp only [cloneDeepProps, hrest, Option.some.injEq, Prod.mk.injEq] at heq
        obtain ⟨-, -, rfl⟩ := heq
        exact List.Forall₂.cons ⟨rfl, DescSim.same _⟩ (ih h s h2 s2 rest' hrest)

/-! ## Top-level characterization of the structural clone of an object -/

/-- At any non-zero numeric depth, cloning an object yields a fresh address
carrying a similar property list and the same prototype, leaving every
pre-existing address untouched. -/
theorem extCloneRec_top (h : Heap) (a : Nat) (o : Obj) (d : Int)
    (hg : h.get a = some o) :
    ∃ h' s' ps, extCloneRec h [] (.ref a) d = (h', s', .ref h.next) ∧
      h'.get h.next = some ⟨ps, o.proto⟩ ∧ PropsSim o.props ps ∧
      h.next < h'.next ∧ (∀ x, x < h.next → h'.get x = h.get x) := by
  rcases hps : extCloneRecProps ⟨(h.next, ⟨o.props, o.proto⟩) :: h.objs, h.next + 1⟩
      [(a, h.next)] o.props d with ⟨h2, s2, ps⟩
  have heq : extCloneRec h [] (.ref a) d = (h2.set h.next ⟨ps, o.proto⟩, s2, .ref h.next) := by
    simp only [extCloneRec, seenGet_nil, hg, Heap.alloc, hps]
  obtain ⟨hn2, hg2, -⟩ := (extCloneRec_preserves d).1 _ _ _ _ _ _ hps
  have hn2' : h.next + 1 ≤ h2.next := hn2
  refine ⟨h2.set h.next ⟨ps, o.proto⟩, s2, ps, heq, Heap.get_set_self _ _ _,
    extCloneRecProps_sim d o.props _ _ _ _ _ hps, ?_, ?_⟩
  · have : (h2.set h.next ⟨ps, o.proto⟩).next = h2.next := Heap.next_set h2 _ _
    omega
  · intro x hx
    rw [Heap.get_set_ne _ _ _ _ (by omega)]
    have hx1 : x < (⟨(h.next, ⟨o.props, o.proto⟩) :: h.objs, h.next + 1⟩ : Heap).next := by
      show x < h.next + 1; omega
    rw [hg2 x hx1]
    exact Heap.get_alloc_ne h ⟨o.props, o.proto⟩ x (by omega)

/-- The deep clone of an object likewise yields a fresh top address with a
similar property list and the same prototype. -/
theorem cloneDeep_top (f : Nat) (h : Heap) (a : Nat) (o : Obj)
    (h' : Heap) (s' : Seen) (v' : JSValue) (hg : h.get a = some o)
    (heq : cloneDeep f h [] (.ref a) = some (h', s', v')) :
    ∃ ps, v' = .ref h.next ∧ h'.get h.next = some ⟨ps, o.proto⟩ ∧
      PropsSim o.props ps ∧ h.next < h'.next ∧
      (∀ x, x < h.next → h'.get x = h.get x) := by
  rcases f with _ | f
  · simp only [cloneDeep, seenGet_nil, hg] at heq
    exact Option.noConfusion heq
  rcases hps : cloneDeepProps f ⟨(h.next, ⟨o.props, o.proto⟩) :: h.objs, h.next + 1⟩
      [(a, h.next)] o.props with _ | ⟨h2, s2, ps⟩
  · simp only [cloneDeep, seenGet_nil, hg, Heap.alloc, hps] at heq
    exact Option.noConfusion heq
  · simp only [cloneDeep, seenGet_nil, hg, Heap.alloc, hps, Option.some.injEq,
      Prod.mk.injEq] at heq
    obtain ⟨rfl, rfl, rfl⟩ := heq
    obtain ⟨hn2, hg2, -⟩ := (cloneDeep_preserves f).2 _ _ _ _ _ _ hps
    have hn2' : h.next + 1 ≤ h2.next := hn2
    refine ⟨ps, rfl, Heap.get_set_self _ _ _,
      cloneDeepProps_sim f o.props _ _ _ _ _ hps, ?_, ?_⟩
    · have : (h2.set h.next ⟨ps, o.proto⟩).next = h2.next := Heap.next_set h2 _ _
      omega
    · intro x hx
      rw [Heap.get_set_ne _ _ _ _ (by omega)]
      have hx1 : x < (⟨(h.next, ⟨o.props, o.proto⟩) :: h.objs, h.next + 1⟩ : Heap).next := by
        show x < h.next + 1; omega
      rw [hg2 x hx1]
      exact Heap.get_alloc_ne h ⟨o.props, o.proto⟩ x (by omega)

/-- On the structural branches (`respectCustom && isCustomCloneable` false),
`extClone` of an object yields a fresh top address with a similar property
list and the same prototype, and never mutates any pre-existing address. -/
theorem extClone_structural_top (hook : Hook) (fuel : Nat) (h : Heap)
    (a : Nat) (o : Obj) (depth : CloneDepth) (rc : Bool) (cc : Bool)
    (h' : Heap) (v' : JSValue) (hg : h.get a = some o)
    (hcc : isCustomCloneable fuel h (.ref a) = some cc)
    (hno : (rc && cc) = false)
    (heq : extClone hook fuel h (.ref a) depth rc = some (h', v')) :
    ∃ ps, v' = .ref h.next ∧ h'.get h.next = some ⟨ps, o.proto⟩ ∧
      PropsSim o.props ps ∧ h.next < h'.next ∧
      (∀ x, x < h.next → h'.get x = h.get x) := by
  simp only [extClone, hcc, hno, if_false] at heq
  cases depth with
  | max =>
    rcases hdeep : cloneDeep fuel h [] (.ref a) with _ | ⟨h1, s1, v1⟩
    · rw [hdeep] at heq
      exact Option.noConfusion heq
    · rw [hdeep] at heq
      simp only [Option.some.injEq, Prod.mk.injEq] at heq
      obtain ⟨rfl, rfl⟩ := heq
      exact cloneDeep_top fuel h a o h' s1 v' hg hdeep
  | num d =>
    by_cases hd : d = 0
    · subst hd
      simp only [if_pos rfl, lodashClone, hg, Heap.alloc, Option.some.injEq,
        Prod.mk.injEq] at heq
      obtain ⟨rfl, rfl⟩ := heq
      refine ⟨o.props, rfl, Heap.get_alloc_self h _, ?_, ?_, ?_⟩
      · exact List.forall₂_same.mpr (fun p _ => ⟨rfl, DescSim.same _⟩)
      · show h.next < h.next + 1
        omega
      · intro x hx
        exact Heap.get_alloc_ne h ⟨o.props, o.proto⟩ x (by omega)
    · simp only [if_neg hd] at heq
      obtain ⟨h1, s1, ps1, hrec, hget1, hsim1, hlt1, hpres1⟩ :=
        extCloneRec_top h a o d hg
      rw [hrec] at heq
      simp only [Option.some.injEq, Prod.mk.injEq] at heq
      obtain ⟨rfl, rfl⟩ := heq
      exact ⟨ps1, rfl, hget1, hsim1, hlt1, hpres1⟩

/-! ## Stability of the seen map

Entries of the `WeakMap` are never shadowed: once a source maps to a clone,
every later lookup in the same `extClone` call returns that clone. -/

/-- Seen-map stability for `extCloneRecProps`. -/
def PropsSeenStable (d : Int) : Prop :=
  ∀ h seen ps h' seen' ps', extCloneRecProps h seen ps d = (h', seen', ps') →
    ∀ x y, seenGet seen x = some y → seenGet seen' x = some y

/-- Seen-map stability for `extCloneRec`. -/
def RecSeenStable (d : Int) : Prop :=
  ∀ h seen v h' seen' v', extCloneRec h seen v d = (h', seen', v') →
    ∀ x y, seenGet seen x = some y → seenGet seen' x = some y

theorem propsSeenStable_of_rec (d : Int)
    (hrec : ¬ d ≤ 0 → RecSeenStable (d - 1)) : PropsSeenStable d := by
  intro h0 seen0 ps
  induction ps generalizing h0 seen0 with
  | nil =>
    intro h' seen' ps' heq
    simp only [extCloneRecProps, Prod.mk.injEq] at heq
    obtain ⟨-, rfl, -⟩ := heq
    exact fun x y hxy => hxy
  | cons p rest ih =>
    intro h' seen' ps' heq
    obtain ⟨k, dsc⟩ := p
    rcases dsc with v | ⟨g, st⟩
    · rcases v with _ | _ | n | sv | bb | fid | b
      case ref =>
        by_cases hd : d ≤ 0
        · rcases hrest : extCloneRecProps h0 seen0 rest d with ⟨h2, seen2, rest'⟩
          simp only [extCloneRecProps, hd, if_true, hrest, Prod.mk.injEq] at heq
          obtain ⟨-, rfl, -⟩ := heq
          exact ih h0 seen0 h2 seen2 rest' hrest
        · rcases hone : extCloneRec h0 seen0 (.ref b) (d - 1) with ⟨h1, seen1, v'⟩
          rcases hrest : extCloneRecProps h1 seen1 rest d with ⟨h2, seen2, rest'⟩
          simp only [extCloneRecProps, hd, if_false, hone, hrest, Prod.mk.injEq] at heq
          obtain ⟨-, rfl, -⟩ := heq
          intro x y hxy
          exact ih h1 seen1 h2 seen2 rest' hrest x y
            (hrec hd h0 seen0 (.ref b) h1 seen1 v' hone x y hxy)
      all_goals
        rcases hrest : extCloneRecProps h0 seen0 rest d with ⟨h2, seen2, rest'⟩ <;>
          simp only [extCloneRecProps, hrest, Prod.mk.injEq] at heq
      all_goals
        obtain ⟨-, rfl, -⟩ := heq
      all_goals
        exact ih h0 seen0 h2 seen2 rest' hrest
    · rcases hrest : extCloneRecProps h0 seen0 rest d with ⟨h2, seen2, rest'⟩
      simp only [extCloneRecProps, hrest, Prod.mk.injEq] at heq
      obtain ⟨-, rfl, -⟩ := heq
      exact ih h0 seen0 h2 seen2 rest' hrest

theorem recSeenStable_of_props (d : Int) (hp : PropsSeenStable d) :
    RecSeenStable d := by
  intro h seen v h' seen' v' heq
  cases v with
  | ref a =>
    rcases hs : seenGet seen a with _ | a'
    · rcases hg : h.get a with _ | o
      · simp only [extCloneRec, hs, hg, Prod.mk.injEq] at heq
        obtain ⟨-, rfl, -⟩ := heq
        exact fun x y hxy => hxy
      · rcases hps : extCloneRecProps ⟨(h.next, ⟨o.props, o.proto⟩) :: h.objs, h.next + 1⟩
            ((a, h.next) :: seen) o.props d with ⟨h2, seen2, ps⟩
        simp only [extCloneRec, hs, hg, Heap.alloc, hps, Prod.mk.injEq] at heq
        obtain ⟨-, rfl, -⟩ := heq
        intro x y hxy
        have hx : x ≠ a := by
          intro hxa; subst hxa; rw [hxy] at hs; exact Option.noConfusion hs
        exact hp _ _ _ _ _ _ hps x y (by rw [seenGet_cons]; rw [if_neg (Ne.symm hx)]; exact hxy)
    · simp only [extCloneRec, hs, Prod.mk.injEq] at heq
      obtain ⟨-, rfl, -⟩ := heq
      exact fun x y hxy => hxy
  | undef => simp only [extCloneRec, Prod.mk.injEq] at heq; obtain ⟨-, rfl, -⟩ := heq; exact fun x y hxy => hxy
  | vNull => simp only [extCloneRec, Prod.mk.injEq] at heq; obtain ⟨-, rfl, -⟩ := heq; exact fun x y hxy => hxy
  | vNum n => simp only [extCloneRec, Prod.mk.injEq] at heq; obtain ⟨-, rfl, -⟩ := heq; exact fun x y hxy => hxy
  | vStr s => simp only [extCloneRec, Prod.mk.injEq] at heq; obtain ⟨-, rfl, -⟩ := heq; exact fun x y hxy => hxy
  | vBool b => simp only [extCloneRec, Prod.mk.injEq] at heq; obtain ⟨-, rfl, -⟩ := heq; exact fun x y hxy => hxy
  | fn fid => simp only [extCloneRec, Prod.mk.injEq] at heq; obtain ⟨-, rfl, -⟩ := heq; exact fun x y hxy => hxy

theorem extCloneRec_seenStable : ∀ d : Int, PropsSeenStable d ∧ RecSeenStable d := by
  have main : ∀ (n : Nat) (d : Int), d.toNat ≤ n → PropsSeenStable d ∧ RecSeenStable d := by
    intro n
    induction n with
    | zero =>
      intro d hd
      have hp : PropsSeenStable d :=
        propsSeenStable_of_rec d (fun hpos => absurd (by omega : d ≤ 0) hpos)
      exact ⟨hp, recSeenStable_of_props d hp⟩
    | succ m ih =>
      intro d hd
      have hp : PropsSeenStable d :=
        propsSeenStable_of_rec d (fun hpos => (ih (d - 1) (by omega)).2)
      exact ⟨hp, recSeenStable_of_props d hp⟩
  exact fun d => main d.toNat d (le_refl _)

/-- Cloning a live object reference records (or reuses) its clone in the
seen map, and the result is exactly that clone. -/
theorem extCloneRec_seen_result (d : Int) (h : Heap) (seen : Seen) (b : Nat)
    (ob : Obj) (h' : Heap) (seen' : Seen) (v' : JSValue)
    (hb : h.get b = some ob)
    (heq : extCloneRec h seen (.ref b) d = (h', seen', v')) :
    ∃ b', v' = .ref b' ∧ seenGet seen' b = some b' := by
  rcases hs : seenGet seen b with _ | b0
  · rcases hps : extCloneRecProps ⟨(h.next, ⟨ob.props, ob.proto⟩) :: h.objs, h.next + 1⟩
        ((b, h.next) :: seen) ob.props d with ⟨h2, seen2, ps⟩
    simp only [extCloneRec, hs, hb, Heap.alloc, hps, Prod.mk.injEq] at heq
    obtain ⟨-, rfl, hv⟩ := heq
    refine ⟨h.next, hv.symm, ?_⟩
    exact (extCloneRec_seenStable d).1 _ _ _ _ _ _ hps b h.next
      (by rw [seenGet_cons, if_pos rfl])
  · simp only [extCloneRec, hs, Prod.mk.injEq] at heq
    obtain ⟨-, rfl, hv⟩ := heq
    exact ⟨b0, hv.symm, hs⟩

/-- During the props walk at positive depth, every live object-valued field
is cloned to exactly the clone recorded for its source in the final seen
map — so two fields referencing the same source end up referencing the same
clone. -/
theorem extCloneRecProps_alias (d : Int) (hd : ¬ d ≤ 0) :
    ∀ (ps : List (Key × Desc)) (h : Heap) (seen : Seen) (h' : Heap)
      (seen' : Seen) (ps' : List (Key × Desc)),
      extCloneRecProps h seen ps d = (h', seen', ps') →
      ∀ k b ob, propsGet ps k = some (.data (.ref b)) → h.get b = some ob →
        b < h.next →
        ∃ b', propsGet ps' k = some (.data (.ref b')) ∧
          seenGet seen' b = some b' := by
  intro ps
  induction ps with
  | nil =>
    intro h seen h' seen' ps' heq k b ob hk
    simp [propsGet_nil] at hk
  | cons p rest ih =>
    intro h seen h' seen' ps' heq k b ob hk hb hlt
    obtain ⟨k0, dsc⟩ := p
    rcases dsc with v | ⟨g, st⟩
    · rcases v with _ | _ | n | sv | bb | fid | b0
      case ref =>
        rcases hone : extCloneRec h seen (.ref b0) (d - 1) with ⟨h1, seen1, v'⟩
        rcases hrest : extCloneRecProps h1 seen1 rest d with ⟨h2, seen2, rest'⟩
        simp only [extCloneRecProps, hd, if_false, hone, hrest, Prod.mk.injEq] at heq
        obtain ⟨rfl, rfl, rfl⟩ := heq
        by_cases hkk : k0 = k
        · rw [propsGet_cons, if_pos hkk] at hk
          obtain hb0 : b0 = b := by
            have := Option.some_inj.mp hk
            exact (JSValue.ref.injEq _ _).mp (Desc.data.injEq _ _ |>.mp this)
          subst hb0
          obtain ⟨b', rfl, hseen1⟩ :=
            extCloneRec_seen_result (d - 1) h seen b0 ob h1 seen1 v' hb hone
          refine ⟨b', ?_, ?_⟩
          · rw [propsGet_cons, if_pos hkk]
          · exact (extCloneRec_seenStable d).1 _ _ _ _ _ _ hrest b0 b' hseen1
        · rw [propsGet_cons, if_neg hkk] at hk
          obtain ⟨hn1, hg1, -⟩ := (extCloneRec_preserves (d - 1)).2 _ _ _ _ _ _ hone
          obtain ⟨b', hget', hseen'⟩ := ih h1 seen1 h2 seen2 rest' hrest k b ob hk
            (by rw [hg1 b hlt]; exact hb) (by omega)
          exact ⟨b', by rw [propsGet_cons, if_neg hkk]; exact hget', hseen'⟩
      all_goals
        rcases hrest : extCloneRecProps h seen rest d with ⟨h2, seen2, rest'⟩ <;>
          simp only [extCloneRecProps, hd, if_false, hrest, Prod.mk.injEq] at heq
      all_goals
        obtain ⟨rfl, rfl, rfl⟩ := heq
      all_goals
        by_cases hkk : k0 = k
      all_goals
        first
          | (rw [propsGet_cons, if_pos hkk] at hk; simp at hk)
          | (rw [propsGet_cons, if_neg hkk] at hk
             obtain ⟨b', hget', hseen'⟩ := ih h seen h2 seen2 rest' hrest k b ob hk hb hlt
             exact ⟨b', by rw [propsGet_cons, if_neg hkk]; exact hget', hseen'⟩)
    · rcases hrest : extCloneRecProps h seen rest d with ⟨h2, seen2, rest'⟩
      simp only [extCloneRecProps, hrest, Prod.mk.injEq] at heq
      obtain ⟨rfl, rfl, rfl⟩ := heq
      by_cases hkk : k0 = k
      · rw [propsGet_cons, if_pos hkk] at hk
        simp at hk
      · rw [propsGet_cons, if_neg hkk] at hk
        obtain ⟨b', hget', hseen'⟩ := ih h seen h2 seen2 rest' hrest k b ob hk hb hlt
        exact ⟨b', by rw [propsGet_cons, if_neg hkk]; exact hget', hseen'⟩

/-- C6: the seen map of the positive-bounded-depth branch (`_extClone`)
makes cloning (a) terminate on cyclic structures — a self-referential object
is cloned, in finitely many steps, to a self-referential clone — and
(b) preserve aliasing — two fields of the source referencing the same
nested live object are cloned to the very same clone instance. -/
theorem c6_bounded_clone_cycles_and_aliasing :
    (∀ (h : Heap) (a : Nat) (k : Key) (d : Int), 1 ≤ d →
      h.get a = some ⟨[(k, .data (.ref a))], none⟩ →
      ∃ h' s', extCloneRec h [] (.ref a) d = (h', s', .ref h.next) ∧
        h'.get h.next = some ⟨[(k, .data (.ref h.next))], none⟩) ∧
    (∀ (h : Heap) (a b : Nat) (o ob : Obj) (k1 k2 : Key) (d : Int), 1 ≤ d →
      h.WF → h.get a = some o → h.get b = some ob →
      propsGet o.props k1 = some (.data (.ref b)) →
      propsGet o.props k2 = some (.data (.ref b)) →
      ∃ h' s' ps b', extCloneRec h [] (.ref a) d = (h', s', .ref h.next) ∧
        h'.get h.next = some ⟨ps, o.proto⟩ ∧
        propsGet ps k1 = some (.data (.ref b')) ∧
        propsGet ps k2 = some (.data (.ref b'))) := by
  constructor
  · intro h a k d hd hg
    have hd' : ¬ d - 1 ≤ 0 ∨ d - 1 ≤ 0 := (em _).symm
    have hone : extCloneRec ⟨(h.next, ⟨[(k, .data (.ref a))], none⟩) :: h.objs, h.next + 1⟩
        [(a, h.next)] (.ref a) (d - 1) =
        (⟨(h.next, ⟨[(k, .data (.ref a))], none⟩) :: h.objs, h.next + 1⟩,
          [(a, h.next)], .ref h.next) := by
      have hseen : seenGet [(a, h.next)] a = some h.next := by
        rw [seenGet_cons, if_pos rfl]
      simp only [extCloneRec, hseen]
    have hprops : extCloneRecProps
        ⟨(h.next, ⟨[(k, .data (.ref a))], none⟩) :: h.objs, h.next + 1⟩
        [(a, h.next)] [(k, .data (.ref a))] d =
        (⟨(h.next, ⟨[(k, .data (.ref a))], none⟩) :: h.objs, h.next + 1⟩,
          [(a, h.next)], [(k, .data (.ref h.next))]) := by
      simp only [extCloneRecProps, if_neg (by omega : ¬ d ≤ 0), hone]
    refine ⟨Heap.set ⟨(h.next, ⟨[(k, .data (.ref a))], none⟩) :: h.objs, h.next + 1⟩
        h.next ⟨[(k, .data (.ref h.next))], none⟩, [(a, h.next)], ?_, ?_⟩
    · simp only [extCloneRec, seenGet_nil, hg, Heap.alloc, hprops]
    · exact Heap.get_set_self _ _ _
  · intro h a b o ob k1 k2 d hd hwf hg hb hk1 hk2
    rcases hps : extCloneRecProps ⟨(h.next, ⟨o.props, o.proto⟩) :: h.objs, h.next + 1⟩
        [(a, h.next)] o.props d with ⟨h2, s2, ps⟩
    have heq : extCloneRec h [] (.ref a) d =
        (h2.set h.next ⟨ps, o.proto⟩, s2, .ref h.next) := by
      simp only [extCloneRec, seenGet_nil, hg, Heap.alloc, hps]
    have hblt : b < h.next := by
      rcases hwf with ⟨hw1, -, -⟩
      unfold Heap.get at hb
      rcases hfind : h.objs.find? (fun p => p.1 == b) with _ | pr
      · rw [hfind] at hb; exact Option.noConfusion hb
      · have hmem := List.mem_of_find?_eq_some hfind
        have heqb := List.find?_some hfind
        simp only [beq_iff_eq] at heqb
        have := hw1 pr hmem
        omega
    have hb1 : (⟨(h.next, ⟨o.props, o.proto⟩) :: h.objs, h.next + 1⟩ : Heap).get b
        = some ob := by
      have : (⟨(h.next, ⟨o.props, o.proto⟩) :: h.objs, h.next + 1⟩ : Heap) =
        (h.alloc ⟨o.props, o.proto⟩).2 := rfl
      rw [this]
      rw [Heap.get_alloc_ne h _ b (by omega)]
      exact hb
    obtain ⟨b1', hget1, hseen1⟩ := extCloneRecProps_alias d (by omega) o.props _ _ _ _ _
      hps k1 b ob hk1 hb1 (by show b < h.next + 1; omega)
    obtain ⟨b2', hget2, hseen2⟩ := extCloneRecProps_alias d (by omega) o.props _ _ _ _ _
      hps k2 b ob hk2 hb1 (by show b < h.next + 1; omega)
    have hbb : b1' = b2' := by
      rw [hseen1] at hseen2
      exact Option.some_inj.mp hseen2
    subst hbb
    exact ⟨_, _, ps, b1', heq, Heap.get_set_self _ _ _, hget1, hget2⟩

/-- Closed instance of C6: a self-loop at address 0 is cloned to a
self-loop at address 1, and an object whose fields `p` and `q` alias the
same child is cloned with both fields pointing at the same clone. -/
theorem c6_bounded_clone_cycles_and_aliasing_witness :
    (∃ h' s', extCloneRec ⟨[(0, ⟨[("self", .data (.ref 0))], none⟩)], 1⟩ []
        (.ref 0) 5 = (h', s', .ref 1) ∧
      h'.get 1 = some ⟨[("self", .data (.ref 1))], none⟩) ∧
    (∃ h' s' ps b', extCloneRec
        ⟨[(0, ⟨[("p", .data (.ref 1)), ("q", .data (.ref 1))], none⟩),
          (1, ⟨[("v", .data (.vNum 3))], none⟩)], 2⟩ [] (.ref 0) 3 =
          (h', s', .ref 2) ∧
      h'.get 2 = some ⟨ps, none⟩ ∧
      propsGet ps "p" = some (.data (.ref b')) ∧
      propsGet ps "q" = some (.data (.ref b'))) :=
  ⟨c6_bounded_clone_cycles_and_aliasing.1 _ 0 "self" 5 (by omega) rfl,
   c6_bounded_clone_cycles_and_aliasing.2 _ 0 1 ⟨[("p", .data (.ref 1)), ("q", .data (.ref 1))], none⟩
     ⟨[("v", .data (.vNum 3))], none⟩ "p" "q" 3 (by omega) (by decide) rfl rfl rfl rfl⟩

/-! ## Depth semantics: shallow sharing, one-level copy, deep freshness -/

/-- A closed heap: every object-valued field of a live object points at a
live object. -/
def Heap.Closed (h : Heap) : Prop :=
  ∀ p ∈ h.objs, ∀ b ∈ p.2.refs, (h.get b).isSome

instance (h : Heap) : Decidable h.Closed := by
  unfold Heap.Closed; infer_instance

/-- Only the key-bound half of well-formedness. -/
def HeapKeysBound (h : Heap) : Prop :=
  ∀ p ∈ h.objs, p.1 < h.next

theorem Heap.get_lt_next (h : Heap) (hkb : HeapKeysBound h) (y : Nat)
    (o : Obj) (hget : h.get y = some o) : y < h.next := by
  unfold Heap.get at hget
  rcases hfind : h.objs.find? (fun p => p.1 == y) with _ | pr
  · rw [hfind] at hget; exact Option.noConfusion hget
  · have hmem := List.mem_of_find?_eq_some hfind
    have heqb := List.find?_some hfind
    simp only [beq_iff_eq] at heqb
    have := hkb pr hmem
    omega

theorem Heap.closed_get (h : Heap) (hcl : h.Closed) (y : Nat) (o : Obj)
    (hget : h.get y = some o) : ∀ b ∈ o.refs, (h.get b).isSome := by
  unfold Heap.get at hget
  rcases hfind : h.objs.find? (fun p => p.1 == y) with _ | pr
  · rw [hfind] at hget; exact Option.noConfusion hget
  · rw [hfind] at hget
    have hmem := List.mem_of_find?_eq_some hfind
    have := hcl pr hmem
    have ho : pr.2 = o := Option.some_inj.mp hget
    rw [← ho]
    exact this

theorem Heap.wf_get_refs (h : Heap) (hwf : h.WF) (y : Nat) (o : Obj)
    (hget : h.get y = some o) : ∀ b ∈ o.refs, b < h.next := by
  unfold Heap.get at hget
  rcases hfind : h.objs.find? (fun p => p.1 == y) with _ | pr
  · rw [hfind] at hget; exact Option.noConfusion hget
  · rw [hfind] at hget
    have hmem := List.mem_of_find?_eq_some hfind
    have := hwf.2.1 pr hmem
    have ho : pr.2 = o := Option.some_inj.mp hget
    rw [← ho]
    exact this

/-- At non-positive remaining depth the props walk is the identity:
everything — including object references — is shared as-is. -/
theorem extCloneRecProps_le_zero (d : Int) (hd : d ≤ 0) :
    ∀ (ps : List (Key × Desc)) (h : Heap) (s : Seen),
      extCloneRecProps h s ps d = (h, s, ps) := by
  intro ps
  induction ps with
  | nil => intro h s; simp only [extCloneRecProps]
  | cons p rest ih =>
    intro h s
    obtain ⟨k, dsc⟩ := p
    rcases dsc with v | ⟨g, st⟩
    · rcases v with _ | _ | n | sv | bb | fid | b
      case ref => simp only [extCloneRecProps, hd, if_true, ih]
      all_goals simp only [extCloneRecProps, ih]
    · simp only [extCloneRecProps, ih]

/-- At non-positive remaining depth, cloning a fresh live object is exactly
a one-level (lodash) copy. -/
theorem extCloneRec_le_zero (d : Int) (hd : d ≤ 0) (h : Heap) (s : Seen)
    (b : Nat) (ob : Obj) (hs : seenGet s b = none) (hb : h.get b = some ob) :
    extCloneRec h s (.ref b) d =
      ((⟨(h.next, ⟨ob.props, ob.proto⟩) :: h.objs, h.next + 1⟩ : Heap).set h.next
          ⟨ob.props, ob.proto⟩, (b, h.next) :: s, .ref h.next) := by
  simp only [extCloneRec, hs, hb, Heap.alloc,
    extCloneRecProps_le_zero d hd ob.props]

/-- Member-reachability between addresses: follow object-valued own data
fields. -/
inductive Reaches (h : Heap) : Nat → Nat → Prop where
  | refl (a : Nat) : Reaches h a a
  | step {a b c : Nat} {o : Obj} : Reaches h a b → h.get b = some o →
      c ∈ o.refs → Reaches h a c

/-- The object references stored in a property list. -/
def propsRefs (ps : List (Key × Desc)) : List Nat :=
  ps.flatMap (fun p => p.2.refs)

/-- Every object at an address `≥ N` outside the pending set `P` has all its
object-valued fields `≥ N`. -/
def FreshRegionExcept (N : Nat) (h : Heap) (P : List Nat) : Prop :=
  ∀ y o', N ≤ y → y ∉ P → h.get y = some o' → ∀ b ∈ o'.refs, N ≤ b

/-- Everything reachable from a fresh root inside an `N`-fresh region stays
fresh. -/
theorem reaches_fresh (N : Nat) (h : Heap)
    (hfre : FreshRegionExcept N h []) :
    ∀ x y, Reaches h x y → N ≤ x → N ≤ y := by
  intro x y hr
  induction hr with
  | refl => exact fun hx => hx
  | step hr hget hmem ih =>
    intro hx
    exact hfre _ _ (ih hx) (List.not_mem_nil _) hget _ hmem

/-- Freshness statement for `cloneDeep` at fuel `f`. -/
def DeepFresh (f : Nat) : Prop :=
  ∀ h seen v h' seen' v' (N : Nat) (P : List Nat),
    cloneDeep f h seen v = some (h', seen', v') →
    N ≤ h.next → (∀ p ∈ P, p < h.next) →
    FreshRegionExcept N h P →
    (∀ y o', y < N → h.get y = some o' → ∀ b ∈ o'.refs, b < N ∧ (h.get b).isSome) →
    (∀ p ∈ seen, N ≤ p.2) →
    (∀ a, v = .ref a → a < N ∧ (h.get a).isSome) →
    FreshRegionExcept N h' P ∧ (∀ b, v' = .ref b → N ≤ b)

/-- Freshness statement for `cloneDeepProps` at fuel `f`. -/
def DeepPropsFresh (f : Nat) : Prop :=
  ∀ h seen ps h' seen' ps' (N : Nat) (P : List Nat),
    cloneDeepProps f h seen ps = some (h', seen', ps') →
    N ≤ h.next → (∀ p ∈ P, p < h.next) →
    FreshRegionExcept N h P →
    (∀ y o', y < N → h.get y = some o' → ∀ b ∈ o'.refs, b < N ∧ (h.get b).isSome) →
    (∀ p ∈ seen, N ≤ p.2) →
    (∀ b ∈ propsRefs ps, b < N ∧ (h.get b).isSome) →
    FreshRegionExcept N h' P ∧ (∀ b ∈ propsRefs ps', N ≤ b)

theorem deepPropsFresh_of_deep (f : Nat) (hd : DeepFresh f) :
    DeepPropsFresh f := by
  intro h0 seen0 ps
  induction ps generalizing h0 seen0 with
  | nil =>
    intro h' seen' ps' N P heq hN hP hfre hlow hseen hrefs
    simp only [cloneDeepProps, Option.some.injEq, Prod.mk.injEq] at heq
    obtain ⟨rfl, -, rfl⟩ := heq
    exact ⟨hfre, by intro b hb; simp [propsRefs] at hb⟩
  | cons p rest ih =>
    intro h' seen' ps' N P heq hN hP hfre hlow hseen hrefs
    obtain ⟨k, dsc⟩ := p
    rcases dsc with v | ⟨g, st⟩
    · rcases v with _ | _ | n | sv | bb | fid | b
      case ref =>
        rcases hone : cloneDeep f h0 seen0 (.ref b) with _ | ⟨h1, seen1, v'⟩
        · simp only [cloneDeepProps, hone] at heq
          exact Option.noConfusion heq
        rcases hrest : cloneDeepProps f h1 seen1 rest with _ | ⟨h2, seen2, rest'⟩
        · simp only [cloneDeepProps, hone, hrest] at heq
          exact Option.noConfusion heq
        simp only [cloneDeepProps, hone, hrest, Option.some.injEq, Prod.mk.injEq] at heq
        obtain ⟨rfl, -, rfl⟩ := heq
        have hbref : b ∈ propsRefs ((k, Desc.data (.ref b)) :: rest) := by
          simp [propsRefs, Desc.refs]
        obtain ⟨hblt, hblive⟩ := hrefs b hbref
        obtain ⟨hn1, hg1, pre1, rfl, hb1⟩ := (cloneDeep_preserves f).1 _ _ _ _ _ _ hone
        obtain ⟨hfre1, hv'⟩ := hd h0 seen0 (.ref b) h1 _ v' N P hone hN hP hfre hlow hseen
          (fun a ha => by
            have hab : b = a := (JSValue.ref.injEq _ _).mp ha
            rw [← hab]
            exact ⟨hblt, hblive⟩)
        have hlow1 : ∀ y o', y < N → h1.get y = some o' →
            ∀ b' ∈ o'.refs, b' < N ∧ (h1.get b').isSome := by
          intro y o' hy hgy b' hb'
          rw [hg1 y (by omega)] at hgy
          obtain ⟨hlt, hsome⟩ := hlow y o' hy hgy b' hb'
          refine ⟨hlt, ?_⟩
          rw [hg1 b' (by omega)]
          exact hsome
        have hseen1 : ∀ p ∈ pre1 ++ seen0, N ≤ p.2 := by
          intro p hp
          rcases List.mem_append.mp hp with hp1 | hp0
          · have := hb1 p hp1; omega
          · exact hseen p hp0
        have hrefs1 : ∀ b' ∈ propsRefs rest, b' < N ∧ (h1.get b').isSome := by
          intro b' hb'
          obtain ⟨hlt, hsome⟩ := hrefs b' (by
            simp only [propsRefs, List.flatMap_cons, List.mem_append]
            exact Or.inr hb')
          refine ⟨hlt, ?_⟩
          rw [hg1 b' (by omega)]
          exact hsome
        obtain ⟨hfre2, hrest'⟩ := ih h1 (pre1 ++ seen0) h2 seen2 rest' N P hrest
          (by omega) (fun p hp => by have := hP p hp; omega) hfre1 hlow1 hseen1 hrefs1
        refine ⟨hfre2, ?_⟩
        intro b' hb'
        simp only [propsRefs, List.flatMap_cons, List.mem_append] at hb'
        rcases hb' with hhead | htail
        · obtain ⟨b2, rfl⟩ := cloneDeep_ref_shape f h0 seen0 b h1 _ v' hone
          simp only [Desc.refs, List.mem_singleton] at hhead
          rw [hhead]
          exact hv' b2 rfl
        · exact hrest' b' htail
      all_goals
        rcases hrest : cloneDeepProps f h0 seen0 rest with _ | ⟨h2, seen2, rest'⟩ <;>
          simp only [cloneDeepProps, hrest, Option.some.injEq, Prod.mk.injEq] at heq
      all_goals
        first
          | exact Option.noConfusion heq
          | (obtain ⟨rfl, -, rfl⟩ := heq
             obtain ⟨hfre2, hrest'⟩ := ih h0 seen0 h2 seen2 rest' N P hrest hN hP hfre hlow hseen
               (fun b' hb' => hrefs b' (by
                 simp only [propsRefs, List.flatMap_cons, List.mem_append]
                 exact Or.inr hb'))
             refine ⟨hfre2, ?_⟩
             intro b' hb'
             simp only [propsRefs, List.flatMap_cons, List.mem_append, Desc.refs] at hb'
             rcases hb' with hhead | htail
             · simp at hhead
             · exact hrest' b' htail)
    · rcases hrest : cloneDeepProps f h0 seen0 rest with _ | ⟨h2, seen2, rest'⟩
      · simp only [cloneDeepProps, hrest] at heq
        exact Option.noConfusion heq
      · simp only [cloneDeepProps, hrest, Option.some.injEq, Prod.mk.injEq] at heq
        obtain ⟨rfl, -, rfl⟩ := heq
        obtain ⟨hfre2, hrest'⟩ := ih h0 seen0 h2 seen2 rest' N P hrest hN hP hfre hlow hseen
          (fun b' hb' => hrefs b' (by
            simp only [propsRefs, List.flatMap_cons, List.mem_append]
            exact Or.inr hb'))
        refine ⟨hfre2, ?_⟩
        intro b' hb'
        simp only [propsRefs, List.flatMap_cons, List.mem_append, Desc.refs] at hb'
        rcases hb' with hhead | htail
        · simp at hhead
        · exact hrest' b' htail

theorem seenGet_mem (seen : Seen) (a b : Nat) (hs : seenGet seen a = some b) :
    (a, b) ∈ seen := by
  unfold seenGet at hs
  rcases hfind : seen.find? (fun p => p.1 == a) with _ | pr
  · rw [hfind] at hs; exact Option.noConfusion hs
  · rw [hfind] at hs
    have h2 : pr.2 = b := Option.some_inj.mp hs
    have h3 := List.find?_some hfind
    simp only [beq_iff_eq] at h3
    have hmem := List.mem_of_find?_eq_some hfind
    have hpr : pr = (a, b) := by
      obtain ⟨pa, pb⟩ := pr
      simp only at h2 h3
      rw [h2, h3]
    rw [← hpr]
    exact hmem

theorem deepFresh_zero : DeepFresh 0 := by
  intro h seen v h' seen' v' N P heq hN hP hfre hlow hseen hv
  cases v with
  | ref a =>
    rcases hs : seenGet seen a with _ | a'
    · rcases hg : h.get a with _ | o
      · obtain ⟨-, hsome⟩ := hv a rfl
        rw [hg] at hsome
        simp at hsome
      · simp only [cloneDeep, hs, hg] at heq
        exact Option.noConfusion heq
    · simp only [cloneDeep, hs, Option.some.injEq, Prod.mk.injEq] at heq
      obtain ⟨rfl, -, rfl⟩ := heq
      refine ⟨hfre, ?_⟩
      intro b hb
      have hab : a' = b := (JSValue.ref.injEq _ _).mp hb
      have hmem := hseen (a, a') (seenGet_mem seen a a' hs)
      simp only at hmem
      omega
  | undef =>
    simp only [cloneDeep, Option.some.injEq, Prod.mk.injEq] at heq
    obtain ⟨rfl, -, rfl⟩ := heq
    exact ⟨hfre, fun b hb => JSValue.noConfusion hb⟩
  | vNull =>
    simp only [cloneDeep, Option.some.injEq, Prod.mk.injEq] at heq
    obtain ⟨rfl, -, rfl⟩ := heq
    exact ⟨hfre, fun b hb => JSValue.noConfusion hb⟩
  | vNum n =>
    simp only [cloneDeep, Option.some.injEq, Prod.mk.injEq] at heq
    obtain ⟨rfl, -, rfl⟩ := heq
    exact ⟨hfre, fun b hb => JSValue.noConfusion hb⟩
  | vStr s =>
    simp only [cloneDeep, Option.some.injEq, Prod.mk.injEq] at heq
    obtain ⟨rfl, -, rfl⟩ := heq
    exact ⟨hfre, fun b hb => JSValue.noConfusion hb⟩
  | vBool b =>
    simp only [cloneDeep, Option.some.injEq, Prod.mk.injEq] at heq
    obtain ⟨rfl, -, rfl⟩ := heq
    exact ⟨hfre, fun b hb => JSValue.noConfusion hb⟩
  | fn fid =>
    simp only [cloneDeep, Option.some.injEq, Prod.mk.injEq] at heq
    obtain ⟨rfl, -, rfl⟩ := heq
    exact ⟨hfre, fun b hb => JSValue.noConfusion hb⟩

theorem deepFresh_succ (f : Nat) (hp : DeepPropsFresh f) : DeepFresh (f + 1) := by
  intro h seen v h' seen' v' N P heq hN hP hfre hlow hseen hv
  cases v with
  | ref a =>
    rcases hs : seenGet seen a with _ | a'
    · rcases hg : h.get a with _ | o
      · obtain ⟨-, hsome⟩ := hv a rfl
        rw [hg] at hsome
        simp at hsome
      · rcases hps : cloneDeepProps f ⟨(h.next, ⟨o.props, o.proto⟩) :: h.objs, h.next + 1⟩
            ((a, h.next) :: seen) o.props with _ | ⟨h2, seen2, ps⟩
        · simp only [cloneDeep, hs, hg, Heap.alloc, hps] at heq
          exact Option.noConfusion heq
        simp only [cloneDeep, hs, hg, Heap.alloc, hps, Option.some.injEq,
          Prod.mk.injEq] at heq
        obtain ⟨rfl, -, rfl⟩ := heq
        obtain ⟨halt, halive⟩ := hv a rfl
        have h1 : Heap := ⟨(h.next, ⟨o.props, o.proto⟩) :: h.objs, h.next + 1⟩
        have hfre1 : FreshRegionExcept N
            ⟨(h.next, ⟨o.props, o.proto⟩) :: h.objs, h.next + 1⟩ (h.next :: P) := by
          intro y o' hy hyP hgy b hb
          have hynext : y ≠ h.next := fun hc => hyP (hc ▸ List.mem_cons_self _ _)
          have hyP' : y ∉ P := fun hc => hyP (List.mem_cons_of_mem _ hc)
          have : (⟨(h.next, ⟨o.props, o.proto⟩) :: h.objs, h.next + 1⟩ : Heap) =
            (h.alloc ⟨o.props, o.proto⟩).2 := rfl
          rw [this, Heap.get_alloc_ne h _ y hynext] at hgy
          exact hfre y o' hy hyP' hgy b hb
        have hlow1 : ∀ y o', y < N →
            (⟨(h.next, ⟨o.props, o.proto⟩) :: h.objs, h.next + 1⟩ : Heap).get y = some o' →
            ∀ b ∈ o'.refs, b < N ∧
              ((⟨(h.next, ⟨o.props, o.proto⟩) :: h.objs, h.next + 1⟩ : Heap).get b).isSome := by
          intro y o' hy hgy b hb
          have : (⟨(h.next, ⟨o.props, o.proto⟩) :: h.objs, h.next + 1⟩ : Heap) =
            (h.alloc ⟨o.props, o.proto⟩).2 := rfl
          rw [this, Heap.get_alloc_ne h _ y (by omega)] at hgy
          obtain ⟨hlt, hsome⟩ := hlow y o' hy hgy b hb
          refine ⟨hlt, ?_⟩
          rw [this, Heap.get_alloc_ne h _ b (by omega)]
          exact hsome
        have hrefs1 : ∀ b ∈ propsRefs o.props, b < N ∧
            ((⟨(h.next, ⟨o.props, o.proto⟩) :: h.objs, h.next + 1⟩ : Heap).get b).isSome := by
          intro b hb
          obtain ⟨hlt, hsome⟩ := hlow a o halt hg b hb
          refine ⟨hlt, ?_⟩
          have : (⟨(h.next, ⟨o.props, o.proto⟩) :: h.objs, h.next + 1⟩ : Heap) =
            (h.alloc ⟨o.props, o.proto⟩).2 := rfl
          rw [this, Heap.get_alloc_ne h _ b (by omega)]
          exact hsome
        obtain ⟨hfre2, hps'⟩ := hp _ _ _ _ _ _ N (h.next :: P) hps
          (by show N ≤ h.next + 1; omega)
          (by
            intro p hpp
            rcases List.mem_cons.mp hpp with rfl | hpP
            · show h.next < h.next + 1; omega
            · have := hP p hpP; show p < h.next + 1; omega)
          hfre1 hlow1
          (by
            intro p hpp
            rcases List.mem_cons.mp hpp with rfl | hpseen
            · exact hN
            · exact hseen p hpseen)
          hrefs1
        constructor
        · intro y o' hy hyP hgy b hb
          by_cases hyn : y = h.next
          · subst hyn
            rw [Heap.get_set_self] at hgy
            obtain rfl := Option.some_inj.mp hgy.symm
            exact hps' b (by
              show b ∈ propsRefs ps
              simp only [Obj.refs] at hb
              exact hb)
          · rw [Heap.get_set_ne _ _ _ _ hyn] at hgy
            exact hfre2 y o' hy (by
              intro hc
              rcases List.mem_cons.mp hc with rfl | hcP
              · exact hyn rfl
              · exact hyP hcP) hgy b hb
        · intro b hb
          obtain rfl := (JSValue.ref.injEq _ _).mp hb
          exact hN
    · simp only [cloneDeep, hs, Option.some.injEq, Prod.mk.injEq] at heq
      obtain ⟨rfl, -, rfl⟩ := heq
      refine ⟨hfre, ?_⟩
      intro b hb
      have hab : a' = b := (JSValue.ref.injEq _ _).mp hb
      have hmem := hseen (a, a') (seenGet_mem seen a a' hs)
      simp only at hmem
      omega
  | undef =>
    simp only [cloneDeep, Option.some.injEq, Prod.mk.injEq] at heq
    obtain ⟨rfl, -, rfl⟩ := heq
    exact ⟨hfre, fun b hb => JSValue.noConfusion hb⟩
  | vNull =>
    simp only [cloneDeep, Option.some.injEq, Prod.mk.injEq] at heq
    obtain ⟨rfl, -, rfl⟩ := heq
    exact ⟨hfre, fun b hb => JSValue.noConfusion hb⟩
  | vNum n =>
    simp only [cloneDeep, Option.some.injEq, Prod.mk.injEq] at heq
    obtain ⟨rfl, -, rfl⟩ := heq
    exact ⟨hfre, fun b hb => JSValue.noConfusion hb⟩
  | vStr s =>
    simp only [cloneDeep, Option.some.injEq, Prod.mk.injEq] at heq
    obtain ⟨rfl, -, rfl⟩ := heq
    exact ⟨hfre, fun b hb => JSValue.noConfusion hb⟩
  | vBool b =>
    simp only [cloneDeep, Option.some.injEq, Prod.mk.injEq] at heq
    obtain ⟨rfl, -, rfl⟩ := heq
    exact ⟨hfre, fun b hb => JSValue.noConfusion hb⟩
  | fn fid =>
    simp only [cloneDeep, Option.some.injEq, Prod.mk.injEq] at heq
    obtain ⟨rfl, -, rfl⟩ := heq
    exact ⟨hfre, fun b hb => JSValue.noConfusion hb⟩

theorem deepFresh_all : ∀ f : Nat, DeepFresh f ∧ DeepPropsFresh f := by
  intro f
  induction f with
  | zero => exact ⟨deepFresh_zero, deepPropsFresh_of_deep 0 deepFresh_zero⟩
  | succ f ih =>
    have hd := deepFresh_succ f ih.2
    exact ⟨hd, deepPropsFresh_of_deep (f + 1) hd⟩

/-- How one source field relates to its counterpart after a depth-1 clone
rooted at source `a` over original heap `h0`: non-composite descriptors are
copied verbatim; a field referencing the root maps to the root's clone; a
dangling reference is shared; any other composite field maps to a fresh
one-level copy of its object — a copy sharing all of that object's own
property values (hence everything beyond one level) by reference. -/
def DepthOneField (h0 : Heap) (a : Nat) (hfin : Heap)
    (p q : Key × Desc) : Prop :=
  p.1 = q.1 ∧
  ((p.2.refs = [] ∧ q.2 = p.2) ∨
   (∃ b b', p.2 = .data (.ref b) ∧ q.2 = .data (.ref b') ∧
     ((b = a ∧ b' = h0.next) ∨
      (h0.get b = none ∧ b' = b) ∨
      (∃ ob, h0.get b = some ob ∧ h0.next < b' ∧
        hfin.get b' = some ⟨ob.props, ob.proto⟩))))

/-- Invariant of the depth-1 props walk relative to the original heap `h0`
and the top source `a` (whose clone sits at `h0.next`). -/
def D1Inv (h0 : Heap) (a : Nat) (hc : Heap) (sc : Seen) : Prop :=
  h0.next < hc.next ∧
  HeapKeysBound hc ∧
  (∀ x, x < h0.next → hc.get x = h0.get x) ∧
  seenGet sc a = some h0.next ∧
  (∀ x y, seenGet sc x = some y → (x = a ∧ y = h0.next) ∨
    (∃ ox, h0.get x = some ox ∧ h0.next < y ∧ hc.get y = some ⟨ox.props, ox.proto⟩))

theorem d1_walk (h0 : Heap) (a : Nat) :
    ∀ (ps : List (Key × Desc)) (hc : Heap) (sc : Seen) (h2 : Heap) (s2 : Seen)
      (ps' : List (Key × Desc)),
      extCloneRecProps hc sc ps 1 = (h2, s2, ps') →
      D1Inv h0 a hc sc →
      (∀ b ∈ propsRefs ps, b < h0.next) →
      D1Inv h0 a h2 s2 ∧ List.Forall₂ (DepthOneField h0 a h2) ps ps' := by
  intro ps
  induction ps with
  | nil =>
    intro hc sc h2 s2 ps' heq hinv hrefs
    simp only [extCloneRecProps, Prod.mk.injEq] at heq
    obtain ⟨rfl, rfl, rfl⟩ := heq
    exact ⟨hinv, List.Forall₂.nil⟩
  | cons p rest ih =>
    intro hc sc h2 s2 ps' heq hinv hrefs
    obtain ⟨k, dsc⟩ := p
    have hrefs_rest : ∀ b ∈ propsRefs rest, b < h0.next := by
      intro b hb
      exact hrefs b (by
        simp only [propsRefs, List.flatMap_cons, List.mem_append]
        exact Or.inr hb)
    rcases dsc with v | ⟨g, st⟩
    · rcases v with _ | _ | n | sv | bb | fid | b
      case ref =>
        have hd1 : ¬ (1 : Int) ≤ 0 := by omega
        obtain ⟨hI1, hI2, hI3, hI4, hI5⟩ := hinv
        have hblt : b < h0.next := hrefs b (by simp [propsRefs, Desc.refs])
        rcases hsb : seenGet sc b with _ | y
        · -- not yet seen: behaviour depends on liveness of `b` in `h0`
          rcases hgb : h0.get b with _ | ob
          · -- dangling: shared as-is
            have hone : extCloneRec hc sc (.ref b) (1 - 1) = (hc, sc, .ref b) := by
              have : hc.get b = none := by rw [hI3 b hblt]; exact hgb
              simp only [extCloneRec, hsb, this]
            rcases hrest : extCloneRecProps hc sc rest 1 with ⟨h2', s2', rest'⟩
            simp only [extCloneRecProps, hd1, if_false, hone, hrest,
              Prod.mk.injEq] at heq
            obtain ⟨rfl, rfl, rfl⟩ := heq
            obtain ⟨hinv2, hrel⟩ := ih hc sc h2' s2' rest' hrest
              ⟨hI1, hI2, hI3, hI4, hI5⟩ hrefs_rest
            refine ⟨hinv2, List.Forall₂.cons ⟨rfl, Or.inr ⟨b, b, rfl, rfl,
              Or.inr (Or.inl ⟨hgb, rfl⟩)⟩⟩ hrel⟩
          · -- live: a fresh one-level copy is made
            have hab : b ≠ a := by
              intro hba
              rw [hba, hI4] at hsb
              exact Option.noConfusion hsb
            have hgcb : hc.get b = some ob := by rw [hI3 b hblt]; exact hgb
            have hone := extCloneRec_le_zero (1 - 1) (by omega) hc sc b ob hsb hgcb
            rcases hrest : extCloneRecProps
                ((⟨(hc.next, ⟨ob.props, ob.proto⟩) :: hc.objs, hc.next + 1⟩ : Heap).set
                  hc.next ⟨ob.props, ob.proto⟩) ((b, hc.next) :: sc) rest 1
              with ⟨h2', s2', rest'⟩
            simp only [extCloneRecProps, hd1, if_false, hone, hrest,
              Prod.mk.injEq] at heq
            obtain ⟨rfl, rfl, rfl⟩ := heq
            have hinv1 : D1Inv h0 a
                ((⟨(hc.next, ⟨ob.props, ob.proto⟩) :: hc.objs, hc.next + 1⟩ : Heap).set
                  hc.next ⟨ob.props, ob.proto⟩) ((b, hc.next) :: sc) := by
              refine ⟨?_, ?_, ?_, ?_, ?_⟩
              · show h0.next < hc.next + 1; omega
              · intro pr hpr
                show pr.1 < hc.next + 1
                simp only [Heap.set, List.mem_cons] at hpr
                rcases hpr with rfl | hpr
                · simp
                rcases hpr with rfl | hpr
                · simp
                · have := hI2 pr hpr; omega
              · intro x hx
                rw [Heap.get_set_ne _ _ _ _ (by omega)]
                have hxa : (⟨(hc.next, ⟨ob.props, ob.proto⟩) :: hc.objs, hc.next + 1⟩ : Heap) =
                  (hc.alloc ⟨ob.props, ob.proto⟩).2 := rfl
                rw [hxa, Heap.get_alloc_ne hc _ x (by omega)]
                exact hI3 x hx
              · rw [seenGet_cons, if_neg hab]
                exact hI4
              · intro x y hxy
                rw [seenGet_cons] at hxy
                by_cases hxb : b = x
                · rw [if_pos hxb] at hxy
                  obtain rfl := Option.some_inj.mp hxy
                  refine Or.inr ⟨ob, by rw [← hxb]; exact hgb, by omega, ?_⟩
                  exact Heap.get_set_self _ _ _
                · rw [if_neg hxb] at hxy
                  rcases hI5 x y hxy with hxa | ⟨ox, hox, hy, hgy⟩
                  · exact Or.inl hxa
                  · have hylt : y < hc.next := Heap.get_lt_next hc hI2 y _ hgy
                    refine Or.inr ⟨ox, hox, hy, ?_⟩
                    rw [Heap.get_set_ne _ _ _ _ (by omega)]
                    have hxa : (⟨(hc.next, ⟨ob.props, ob.proto⟩) :: hc.objs, hc.next + 1⟩ : Heap) =
                      (hc.alloc ⟨ob.props, ob.proto⟩).2 := rfl
                    rw [hxa, Heap.get_alloc_ne hc _ y (by omega)]
                    exact hgy
            obtain ⟨hinv2, hrel⟩ := ih _ _ h2' s2' rest' hrest hinv1 hrefs_rest
            refine ⟨hinv2, List.Forall₂.cons ⟨rfl, Or.inr ⟨b, hc.next, rfl, rfl,
              Or.inr (Or.inr ⟨ob, hgb, by omega, ?_⟩)⟩⟩ hrel⟩
            obtain ⟨-, -, hpres, -, -⟩ := hinv2
            obtain ⟨hn', hg', -⟩ := (extCloneRec_preserves 1).1 _ _ _ _ _ _ hrest
            have : hc.next <
                ((⟨(hc.next, ⟨ob.props, ob.proto⟩) :: hc.objs, hc.next + 1⟩ : Heap).set
                  hc.next ⟨ob.props, ob.proto⟩).next := by
              show hc.next < hc.next + 1; omega
            rw [hg' hc.next this]
            exact Heap.get_set_self _ _ _
        · -- already seen: reuse the recorded clone
          have hone : extCloneRec hc sc (.ref b) (1 - 1) = (hc, sc, .ref y) := by
            simp only [extCloneRec, hsb]
          rcases hrest : extCloneRecProps hc sc rest 1 with ⟨h2', s2', rest'⟩
          simp only [extCloneRecProps, hd1, if_false, hone, hrest,
            Prod.mk.injEq] at heq
          obtain ⟨rfl, rfl, rfl⟩ := heq
          obtain ⟨hinv2, hrel⟩ := ih hc sc h2' s2' rest' hrest
            ⟨hI1, hI2, hI3, hI4, hI5⟩ hrefs_rest
          refine ⟨hinv2, List.Forall₂.cons ⟨rfl, Or.inr ⟨b, y, rfl, rfl, ?_⟩⟩ hrel⟩
          rcases hI5 b y hsb with ⟨rfl, rfl⟩ | ⟨ob, hob, hy, hgy⟩
          · exact Or.inl ⟨rfl, rfl⟩
          · refine Or.inr (Or.inr ⟨ob, hob, hy, ?_⟩)
            obtain ⟨hn', hg', -⟩ := (extCloneRec_preserves 1).1 _ _ _ _ _ _ hrest
            have hylt : y < hc.next := Heap.get_lt_next hc hI2 y _ hgy
            rw [hg' y hylt]
            exact hgy
      all_goals
        rcases hrest : extCloneRecProps hc sc rest 1 with ⟨h2', s2', rest'⟩ <;>
          simp only [extCloneRecProps, hrest, Prod.mk.injEq] at heq
      all_goals
        obtain ⟨rfl, rfl, rfl⟩ := heq
      all_goals
        obtain ⟨hinv2, hrel⟩ := ih hc sc h2' s2' rest' hrest hinv hrefs_rest
      all_goals
        exact ⟨hinv2, List.Forall₂.cons ⟨rfl, Or.inl ⟨rfl, rfl⟩⟩ hrel⟩
    · rcases hrest : extCloneRecProps hc sc rest 1 with ⟨h2', s2', rest'⟩
      simp only [extCloneRecProps, hrest, Prod.mk.injEq] at heq
      obtain ⟨rfl, rfl, rfl⟩ := heq
      obtain ⟨hinv2, hrel⟩ := ih hc sc h2' s2' rest' hrest hinv hrefs_rest
      exact ⟨hinv2, List.Forall₂.cons ⟨rfl, Or.inl ⟨rfl, rfl⟩⟩ hrel⟩

/-- C5: clone depth semantics of `extClone` on an object with no honored
custom clone hook.  At depth `0` the result is a new outer instance whose
own properties — in particular all nested composite members — are shared
by reference with the source.  At depth `"max"` every composite member is
copied: the result mirrors the source key-for-key and nothing composite
reachable from the clone is a pre-existing address.  At depth `1` composite
members are copied one level down (each to a fresh one-level copy of its
object, sharing everything beyond by reference, with the root and dangling
references handled by the seen map). -/
theorem c5_clone_depth_semantics :
    (∀ (hook : Hook) (fuel : Nat) (h : Heap) (a : Nat) (o : Obj) (rc cc : Bool)
      (h' : Heap) (v' : JSValue),
      h.WF → h.get a = some o →
      isCustomCloneable fuel h (.ref a) = some cc → (rc && cc) = false →
      extClone hook fuel h (.ref a) (.num 0) rc = some (h', v') →
      v' = .ref h.next ∧ h.get h.next = none ∧
      h'.get h.next = some ⟨o.props, o.proto⟩) ∧
    (∀ (hook : Hook) (fuel : Nat) (h : Heap) (a : Nat) (o : Obj) (rc cc : Bool)
      (h' : Heap) (v' : JSValue),
      h.WF → h.Closed → h.get a = some o →
      isCustomCloneable fuel h (.ref a) = some cc → (rc && cc) = false →
      extClone hook fuel h (.ref a) .max rc = some (h', v') →
      v' = .ref h.next ∧
      (∃ ps, h'.get h.next = some ⟨ps, o.proto⟩ ∧ PropsSim o.props ps) ∧
      (∀ x, Reaches h' h.next x → h.next ≤ x)) ∧
    (∀ (hook : Hook) (fuel : Nat) (h : Heap) (a : Nat) (o : Obj) (rc cc : Bool)
      (h' : Heap) (v' : JSValue),
      h.WF → h.get a = some o →
      isCustomCloneable fuel h (.ref a) = some cc → (rc && cc) = false →
      extClone hook fuel h (.ref a) (.num 1) rc = some (h', v') →
      v' = .ref h.next ∧
      ∃ ps, h'.get h.next = some ⟨ps, o.proto⟩ ∧
        List.Forall₂ (DepthOneField h a h') o.props ps) := by
  refine ⟨?_, ?_, ?_⟩
  · -- depth 0: lodash shallow copy
    intro hook fuel h a o rc cc h' v' hwf hg hcc hno heq
    simp only [extClone, hcc, hno, if_false, if_pos rfl, lodashClone, hg,
      Heap.alloc, Option.some.injEq, Prod.mk.injEq] at heq
    obtain ⟨rfl, rfl⟩ := heq
    exact ⟨rfl, Heap.get_none_of_le_next h hwf h.next (le_refl _),
      Heap.get_alloc_self h _⟩
  · -- depth "max": cloneDeep
    intro hook fuel h a o rc cc h' v' hwf hcl hg hcc hno heq
    simp only [extClone, hcc, hno, if_false] at heq
    rcases hdeep : cloneDeep fuel h [] (.ref a) with _ | ⟨h1, s1, v1⟩
    · rw [hdeep] at heq
      exact Option.noConfusion heq
    rw [hdeep] at heq
    simp only [Option.some.injEq, Prod.mk.injEq] at heq
    obtain ⟨rfl, rfl⟩ := heq
    obtain ⟨ps, rfl, hgn, hsim, hlt, hpres⟩ :=
      cloneDeep_top fuel h a o h' s1 v' hg hdeep
    refine ⟨rfl, ⟨ps, hgn, hsim⟩, ?_⟩
    have hfre : FreshRegionExcept h.next h' [] := by
      obtain ⟨hfre', -⟩ := (deepFresh_all fuel).1 h [] (.ref a) h' s1 (.ref h.next)
        h.next [] hdeep (le_refl _) (by intro p hp; simp at hp)
        (by
          intro y o' hy hyP hgy
          rw [Heap.get_none_of_le_next h hwf y hy] at hgy
          exact Option.noConfusion hgy)
        (by
          intro y o' hy hgy b hb
          exact ⟨Heap.wf_get_refs h hwf y o' hgy b hb,
            Heap.closed_get h hcl y o' hgy b hb⟩)
        (by intro p hp; simp at hp)
        (by
          intro x hx
          have hxa : a = x := (JSValue.ref.injEq _ _).mp hx
          rw [← hxa]
          exact ⟨Heap.get_lt_next h hwf.1 a o hg, by rw [hg]; rfl⟩)
      exact hfre'
    intro x hx
    exact reaches_fresh h.next h' hfre h.next x hx (le_refl _)
  · -- depth 1: one level copied, everything beyond shared
    intro hook fuel h a o rc cc h' v' hwf hg hcc hno heq
    simp only [extClone, hcc, hno, if_false,
      if_neg (by omega : ¬ (1 : Int) = 0)] at heq
    rcases hps : extCloneRecProps ⟨(h.next, ⟨o.props, o.proto⟩) :: h.objs, h.next + 1⟩
        [(a, h.next)] o.props 1 with ⟨h2, s2, ps⟩
    have hrec : extCloneRec h [] (.ref a) 1 =
        (h2.set h.next ⟨ps, o.proto⟩, s2, .ref h.next) := by
      simp only [extCloneRec, seenGet_nil, hg, Heap.alloc, hps]
    rw [hrec] at heq
    simp only [Option.some.injEq, Prod.mk.injEq] at heq
    obtain ⟨rfl, rfl⟩ := heq
    have hinv0 : D1Inv h a ⟨(h.next, ⟨o.props, o.proto⟩) :: h.objs, h.next + 1⟩
        [(a, h.next)] := by
      refine ⟨by show h.next < h.next + 1; omega, ?_, ?_, ?_, ?_⟩
      · intro pr hpr
        show pr.1 < h.next + 1
        simp only [List.mem_cons] at hpr
        rcases hpr with rfl | hpr
        · simp
        · have := hwf.1 pr hpr; omega
      · intro x hx
        have hxa : (⟨(h.next, ⟨o.props, o.proto⟩) :: h.objs, h.next + 1⟩ : Heap) =
          (h.alloc ⟨o.props, o.proto⟩).2 := rfl
        rw [hxa, Heap.get_alloc_ne h _ x (by omega)]
      · rw [seenGet_cons, if_pos rfl]
      · intro x y hxy
        rw [seenGet_cons] at hxy
        by_cases hax : a = x
        · rw [if_pos hax] at hxy
          exact Or.inl ⟨hax.symm, (Option.some_inj.mp hxy).symm⟩
        · rw [if_neg hax] at hxy
          exact Option.noConfusion hxy
    obtain ⟨⟨-, hkb2, hpres2, -, -⟩, hrel⟩ := d1_walk h a o.props _ _ h2 s2 ps hps hinv0
      (fun b hb => Heap.wf_get_refs h hwf a o hg b (by
        show b ∈ o.refs
        simp only [Obj.refs]
        exact hb))
    refine ⟨rfl, ps, Heap.get_set_self _ _ _, ?_⟩
    refine List.Forall₂.imp ?_ hrel
    intro p q hpq
    obtain ⟨hk, hrest⟩ := hpq
    refine ⟨hk, ?_⟩
    rcases hrest with hsame | ⟨b, b', hp2, hq2, hcase⟩
    · exact Or.inl hsame
    · refine Or.inr ⟨b, b', hp2, hq2, ?_⟩
      rcases hcase with hroot | hdangle | ⟨ob, hob, hb', hgb'⟩
      · exact Or.inl hroot
      · exact Or.inr (Or.inl hdangle)
      · refine Or.inr (Or.inr ⟨ob, hob, hb', ?_⟩)
        rw [Heap.get_set_ne _ _ _ _ (by omega)]
        exact hgb'

/-- A three-level concrete heap for exercising the depth semantics:
`{mid: {deep: {value: 5}}}`. -/
def H5c : Heap :=
  ⟨[(0, ⟨[("mid", .data (.ref 1))], none⟩),
    (1, ⟨[("deep", .data (.ref 2))], none⟩),
    (2, ⟨[("value", .data (.vNum 5))], none⟩)], 3⟩

/-- A trivial custom-clone hook (never invoked in the depth-semantics
examples since nothing in `H5c` is custom-cloneable). -/
def H5cHook : Hook := fun hh _ _ => (hh, .undef)

/-- Result heap of `extClone` on `H5c` at depth `"max"`. -/
def H5m : Heap :=
  ⟨[(3, ⟨[("mid", .data (.ref 4))], none⟩),
    (4, ⟨[("deep", .data (.ref 5))], none⟩),
    (5, ⟨[("value", .data (.vNum 5))], none⟩),
    (5, ⟨[("value", .data (.vNum 5))], none⟩),
    (4, ⟨[("deep", .data (.ref 2))], none⟩),
    (3, ⟨[("mid", .data (.ref 1))], none⟩),
    (0, ⟨[("mid", .data (.ref 1))], none⟩),
    (1, ⟨[("deep", .data (.ref 2))], none⟩),
    (2, ⟨[("value", .data (.vNum 5))], none⟩)], 6⟩

/-- Result heap of `extClone` on `H5c` at depth `1`. -/
def H5a : Heap :=
  ⟨[(3, ⟨[("mid", .data (.ref 4))], none⟩),
    (4, ⟨[("deep", .data (.ref 2))], none⟩),
    (4, ⟨[("deep", .data (.ref 2))], none⟩),
    (3, ⟨[("mid", .data (.ref 1))], none⟩),
    (0, ⟨[("mid", .data (.ref 1))], none⟩),
    (1, ⟨[("deep", .data (.ref 2))], none⟩),
    (2, ⟨[("value", .data (.vNum 5))], none⟩)], 5⟩

/-- Witness: the three depth-semantics conclusions hold concretely on the
nested heap `H5c`. -/
theorem c5_clone_depth_semantics_witness :
    (∃ h' v', extClone H5cHook 9 H5c (.ref 0) (.num 0) false = some (h', v') ∧
      v' = .ref H5c.next ∧ H5c.get H5c.next = none ∧
      h'.get H5c.next = some ⟨[("mid", .data (.ref 1))], none⟩) ∧
    (∃ h' v', extClone H5cHook 9 H5c (.ref 0) .max false = some (h', v') ∧
      v' = .ref H5c.next ∧
      (∃ ps, h'.get H5c.next = some ⟨ps, none⟩ ∧
        PropsSim [("mid", .data (.ref 1))] ps) ∧
      (∀ x, Reaches h' H5c.next x → H5c.next ≤ x)) ∧
    (∃ h' v', extClone H5cHook 9 H5c (.ref 0) (.num 1) false = some (h', v') ∧
      v' = .ref H5c.next ∧
      ∃ ps, h'.get H5c.next = some ⟨ps, none⟩ ∧
        List.Forall₂ (DepthOneField H5c 0 h') [("mid", .data (.ref 1))] ps) := by
  have heqm : extClone H5cHook 9 H5c (.ref 0) .max false = some (H5m, .ref 3) := by
    simp [extClone, isCustomCloneable, chainLookup, cloneDeep, cloneDeepProps,
      lodashClone, Heap.alloc, Heap.get, Heap.set, seenGet, propsGet, H5c, H5m, H5cHook]
  have heqa : extClone H5cHook 9 H5c (.ref 0) (.num 1) false = some (H5a, .ref 3) := by
    simp [extClone, isCustomCloneable, chainLookup, extCloneRec, extCloneRecProps,
      lodashClone, Heap.alloc, Heap.get, Heap.set, seenGet, propsGet, H5c, H5a, H5cHook]
  refine ⟨?_, ?_, ?_⟩
  · exact ⟨_, _, rfl, c5_clone_depth_semantics.1 H5cHook 9 H5c 0
      ⟨[("mid", .data (.ref 1))], none⟩ false false _ _ (by decide) rfl rfl rfl rfl⟩
  · exact ⟨H5m, .ref 3, heqm, c5_clone_depth_semantics.2.1 H5cHook 9 H5c 0
      ⟨[("mid", .data (.ref 1))], none⟩ false false H5m (.ref 3)
      (by decide) (by decide) rfl rfl rfl heqm⟩
  · exact ⟨H5a, .ref 3, heqa, c5_clone_depth_semantics.2.2 H5cHook 9 H5c 0
      ⟨[("mid", .data (.ref 1))], none⟩ false false H5a (.ref 3)
      (by decide) rfl rfl rfl heqa⟩

/-! ## The disabled frame: nothing clones, swaps or notifies while
`enabled = false` -/

/-- Control-state equality between interpreter states: same cell, same event
trace, same proxy counter (the heap may differ). -/
def CtlEq (st st' : St) : Prop :=
  st'.cell = st.cell ∧ st'.events = st.events ∧ st'.nextProxyId = st.nextProxyId

theorem ctlEq_refl (st : St) : CtlEq st st := ⟨rfl, rfl, rfl⟩

theorem ctlEq_trans {s1 s2 s3 : St} (h12 : CtlEq s1 s2) (h23 : CtlEq s2 s3) :
    CtlEq s1 s3 :=
  ⟨h23.1.trans h12.1, h23.2.1.trans h12.2.1, h23.2.2.trans h12.2.2⟩

theorem ctlEq_enabled {s1 s2 : St} (h : CtlEq s1 s2) :
    s2.cell.enabled = s1.cell.enabled := by rw [h.1]

/-- While the cell is disabled, every interpreter function preserves the
cell, the event trace and the proxy counter: a disabled path performs no
clone, no swap and no listener notification. -/
def DisFrame (f : Nat) : Prop :=
  (∀ ctx st tv argv fid, st.cell.enabled = false →
    CtlEq st (runFnId ctx f st tv argv fid).1) ∧
  (∀ ctx st tv argv b, st.cell.enabled = false →
    CtlEq st (runBody ctx f st tv argv b).1) ∧
  (∀ ctx st tv argv ops, st.cell.enabled = false →
    CtlEq st (runOps ctx f st tv argv ops).1) ∧
  (∀ ctx st tv argv e, st.cell.enabled = false →
    CtlEq st (evalExpr ctx f st tv argv e).1) ∧
  (∀ ctx st tv k, st.cell.enabled = false →
    CtlEq st (getMember ctx f st tv k).1) ∧
  (∀ ctx st tv k v, st.cell.enabled = false →
    CtlEq st (setMember ctx f st tv k v).1) ∧
  (∀ ctx st tv k, st.cell.enabled = false →
    CtlEq st (callMember ctx f st tv k).1) ∧
  (∀ ctx st a k recv, st.cell.enabled = false →
    CtlEq st (reflectGet ctx f st a k recv).1) ∧
  (∀ ctx st a k v recv, st.cell.enabled = false →
    CtlEq st (reflectSet ctx f st a k v recv).1) ∧
  (∀ ctx st pid t k, st.cell.enabled = false →
    CtlEq st (trapGet ctx f st pid t k).1) ∧
  (∀ ctx st pid t k v, st.cell.enabled = false →
    CtlEq st (trapSet ctx f st pid t k v).1) ∧
  (∀ ctx st pid t k, st.cell.enabled = false →
    CtlEq st (trapCall ctx f st pid t k).1)

theorem disFrame_all : ∀ f, DisFrame f := by
  intro f
  induction f with
  | zero =>
    refine ⟨?_, ?_, ?_, ?_, ?_, ?_, ?_, ?_, ?_, ?_, ?_, ?_⟩
    all_goals intros
    all_goals simp only [runFnId, runBody, runOps, evalExpr, getMember,
      setMember, callMember, reflectGet, reflectSet, trapGet, trapSet, trapCall]
    all_goals exact ctlEq_refl _
  | succ f ih =>
    obtain ⟨ihFn, ihBody, ihOps, ihEv, ihGet, ihSet, ihCall, ihRG, ihRS,
      ihTG, ihTS, ihTC⟩ := ih
    refine ⟨?_, ?_, ?_, ?_, ?_, ?_, ?_, ?_, ?_, ?_, ?_, ?_⟩
    · -- runFnId
      intro ctx st tv argv fid hdis
      rcases hb : ctx.fnBody fid with _ | b
      · simp only [runFnId, hb]
        exact ctlEq_refl st
      · simp only [runFnId, hb]
        exact ihBody ctx st tv argv b hdis
    · -- runBody
      intro ctx st tv argv b hdis
      rcases hops : runOps ctx f st tv argv b.ops with ⟨st1, r⟩
      have h1 : CtlEq st st1 := by
        have := ihOps ctx st tv argv b.ops hdis
        rwa [hops] at this
      rcases r with u | e | _
      · simp only [runBody, hops]
        exact ctlEq_trans h1
          (ihEv ctx st1 tv argv b.ret ((ctlEq_enabled h1).trans hdis))
      · simp only [runBody, hops]
        exact h1
      · simp only [runBody, hops]
        exact h1
    · -- runOps
      intro ctx st tv argv ops hdis
      rcases ops with _ | ⟨op, rest⟩
      · simp only [runOps]
        exact ctlEq_refl st
      rcases op with ⟨k, e⟩ | k | msg
      · -- setThis
        rcases hev : evalExpr ctx f st tv argv e with ⟨st1, r⟩
        have h1 : CtlEq st st1 := by
          have := ihEv ctx st tv argv e hdis
          rwa [hev] at this
        rcases r with v | e2 | _
        · rcases hsm : setMember ctx f st1 tv k v with ⟨st2, r2⟩
          have h2 : CtlEq st1 st2 := by
            have := ihSet ctx st1 tv k v ((ctlEq_enabled h1).trans hdis)
            rwa [hsm] at this
          rcases r2 with u | e2 | _
          · simp only [runOps, hev, hsm]
            exact ctlEq_trans (ctlEq_trans h1 h2)
              (ihOps ctx st2 tv argv rest
                ((ctlEq_enabled (ctlEq_trans h1 h2)).trans hdis))
          · simp only [runOps, hev, hsm]
            exact ctlEq_trans h1 h2
          · simp only [runOps, hev, hsm]
            exact ctlEq_trans h1 h2
        · simp only [runOps, hev]
          exact h1
        · simp only [runOps, hev]
          exact h1
      · -- callThis
        rcases hcm : callMember ctx f st tv k with ⟨st1, r⟩
        have h1 : CtlEq st st1 := by
          have := ihCall ctx st tv k hdis
          rwa [hcm] at this
        rcases r with v | e2 | _
        · simp only [runOps, hcm]
          exact ctlEq_trans h1
            (ihOps ctx st1 tv argv rest ((ctlEq_enabled h1).trans hdis))
        · simp only [runOps, hcm]
          exact h1
        · simp only [runOps, hcm]
          exact h1
      · -- throwErr
        simp only [runOps]
        exact ctlEq_refl st
    · -- evalExpr
      intro ctx st tv argv e hdis
      rcases e with v | _ | k | ⟨e', i⟩
      · simp only [evalExpr]
        exact ctlEq_refl st
      · simp only [evalExpr]
        exact ctlEq_refl st
      · simp only [evalExpr]
        exact ihGet ctx st tv k hdis
      · rcases hev : evalExpr ctx f st tv argv e' with ⟨st1, r⟩
        have h1 : CtlEq st st1 := by
          have := ihEv ctx st tv argv e' hdis
          rwa [hev] at this
        rcases r with v | e2 | _
        · rcases v with _ | _ | n | s | b | fid | a2
          all_goals simp only [evalExpr, hev]
          all_goals exact h1
        · simp only [evalExpr, hev]
          exact h1
        · simp only [evalExpr, hev]
          exact h1
    · -- getMember
      intro ctx st tv k hdis
      rcases tv with a | ⟨pid, t⟩
      · simp only [getMember]
        exact ihRG ctx st a k (.raw a) hdis
      · simp only [getMember]
        exact ihTG ctx st pid t k hdis
    · -- setMember
      intro ctx st tv k v hdis
      rcases tv with a | ⟨pid, t⟩
      · simp only [setMember]
        exact ihRS ctx st a k v (.raw a) hdis
      · simp only [setMember]
        exact ihTS ctx st pid t k v hdis
    · -- callMember
      intro ctx st tv k hdis
      rcases tv with a | ⟨pid, t⟩
      · rcases hrg : reflectGet ctx f st a k (.raw a) with ⟨st1, r⟩
        have h1 : CtlEq st st1 := by
          have := ihRG ctx st a k (.raw a) hdis
          rwa [hrg] at this
        rcases r with v | e | _
        · rcases v with _ | _ | n | s | b | fid | a2
          · simp only [callMember, hrg]
            exact h1
          · simp only [callMember, hrg]
            exact h1
          · simp only [callMember, hrg]
            exact h1
          · simp only [callMember, hrg]
            exact h1
          · simp only [callMember, hrg]
            exact h1
          · simp only [callMember, hrg]
            exact ctlEq_trans h1
              (ihFn ctx st1 (.raw a) .undef fid ((ctlEq_enabled h1).trans hdis))
          · simp only [callMember, hrg]
            exact h1
        · simp only [callMember, hrg]
          exact h1
        · simp only [callMember, hrg]
          exact h1
      · simp only [callMember]
        exact ihTC ctx st pid t k hdis
    · -- reflectGet
      intro ctx st a k recv hdis
      rcases hcl : chainLookup (f + 1) st.heap a k with _ | d
      · simp only [reflectGet, hcl]
        exact ctlEq_refl st
      rcases d with _ | d
      · simp only [reflectGet, hcl]
        exact ctlEq_refl st
      rcases d with v | ⟨g, s⟩
      · simp only [reflectGet, hcl]
        exact ctlEq_refl st
      rcases g with _ | g
      · simp only [reflectGet, hcl]
        exact ctlEq_refl st
      · simp only [reflectGet, hcl]
        exact ihFn ctx st recv .undef g hdis
    · -- reflectSet
      intro ctx st a k v recv hdis
      rcases hcl : chainLookup (f + 1) st.heap a k with _ | d
      · simp only [reflectSet, hcl]
        exact ctlEq_refl st
      rcases d with _ | d
      · simp only [reflectSet, hcl]
        exact ⟨rfl, rfl, rfl⟩
      rcases d with w | ⟨g, s⟩
      · simp only [reflectSet, hcl]
        exact ⟨rfl, rfl, rfl⟩
      rcases s with _ | s
      · simp only [reflectSet, hcl]
        exact ctlEq_refl st
      · rcases hrf : runFnId ctx f st recv v s with ⟨st1, r⟩
        have h1 : CtlEq st st1 := by
          have := ihFn ctx st recv v s hdis
          rwa [hrf] at this
        rcases r with u | e | _
        · simp only [reflectSet, hcl, hrf]
          exact h1
        · simp only [reflectSet, hcl, hrf]
          exact h1
        · simp only [reflectSet, hcl, hrf]
          exact h1
    · -- trapGet
      intro ctx st pid t k hdis
      simp only [trapGet, hdis, Bool.not_false, if_true]
      exact ihRG ctx st t k (.prox pid t) hdis
    · -- trapSet
      intro ctx st pid t k v hdis
      simp only [trapSet, hdis, Bool.not_false, if_true]
      exact ihRS ctx st t k v (.prox pid t) hdis
    · -- trapCall
      intro ctx st pid t k hdis
      rcases hrg : reflectGet ctx f st t k (.prox pid t) with ⟨st1, r⟩
      have h1 : CtlEq st st1 := by
        have := ihRG ctx st t k (.prox pid t) hdis
        rwa [hrg] at this
      rcases r with v | e | _
      · rcases v with _ | _ | n | s | b | fid | a2
        · simp only [trapCall, hdis, Bool.not_false, if_true, hrg]
          exact h1
        · simp only [trapCall, hdis, Bool.not_false, if_true, hrg]
          exact h1
        · simp only [trapCall, hdis, Bool.not_false, if_true, hrg]
          exact h1
        · simp only [trapCall, hdis, Bool.not_false, if_true, hrg]
          exact h1
        · simp only [trapCall, hdis, Bool.not_false, if_true, hrg]
          exact h1
        · simp only [trapCall, hdis, Bool.not_false, if_true, hrg]
          exact ctlEq_trans h1
            (ihFn ctx st1 (.prox pid t) .undef fid ((ctlEq_enabled h1).trans hdis))
        · simp only [trapCall, hdis, Bool.not_false, if_true, hrg]
          exact h1
      · simp only [trapCall, hdis, Bool.not_false, if_true, hrg]
        exact h1
      · simp only [trapCall, hdis, Bool.not_false, if_true, hrg]
        exact h1

theorem disFrame_runFnId (f : Nat) :
    ∀ ctx st tv argv fid, st.cell.enabled = false →
      CtlEq st (runFnId ctx f st tv argv fid).1 :=
  (disFrame_all f).1

theorem disFrame_reflectGet (f : Nat) :
    ∀ ctx st a k recv, st.cell.enabled = false →
      CtlEq st (reflectGet ctx f st a k recv).1 :=
  (disFrame_all f).2.2.2.2.2.2.2.1

theorem disFrame_reflectSet (f : Nat) :
    ∀ ctx st a k v recv, st.cell.enabled = false →
      CtlEq st (reflectSet ctx f st a k v recv).1 :=
  (disFrame_all f).2.2.2.2.2.2.2.2.1

theorem disFrame_trapGet (f : Nat) :
    ∀ ctx st pid t k, st.cell.enabled = false →
      CtlEq st (trapGet ctx f st pid t k).1 :=
  (disFrame_all f).2.2.2.2.2.2.2.2.2.1

theorem disFrame_trapSet (f : Nat) :
    ∀ ctx st pid t k v, st.cell.enabled = false →
      CtlEq st (trapSet ctx f st pid t k v).1 :=
  (disFrame_all f).2.2.2.2.2.2.2.2.2.2.1

theorem disFrame_trapCall (f : Nat) :
    ∀ ctx st pid t k, st.cell.enabled = false →
      CtlEq st (trapCall ctx f st pid t k).1 :=
  (disFrame_all f).2.2.2.2.2.2.2.2.2.2.2

/-! ## The commit protocol, characterized -/

/-- The state after cloning and disabling, from which the triggering
operation runs. -/
def commitStage (st : St) (h1 : Heap) (t : Nat) (cv : JSValue) : St :=
  ⟨h1, { st.cell with enabled := false },
    st.events ++ [.cloned t cv], st.nextProxyId⟩

/-- The final state of a successful commit: the operation left the machine
in `st4` (same control state as the stage), then `enabled` is restored, the
cell is swapped to a fresh proxy over the clone `ca`, and the listener batch
fires observing the post-swap cell. -/
def commitDone (st : St) (t : Nat) (ca : Nat) (st4 : St) : St :=
  ⟨st4.heap,
    { st.cell with currentTarget := ca, currentProxyId := st.nextProxyId },
    st.events ++ [.cloned t (.ref ca), .swapped ca st.nextProxyId] ++
      st.cell.cloneListeners.map (fun l => .listener l ca st.nextProxyId),
    st.nextProxyId + 1⟩

/-- A committed write: with the cell enabled, `trapSet` clones the target,
applies the write to the clone under `enabled = false`, and on normal
completion restores `enabled`, swaps the cell to a fresh proxy over the
clone and fires the listener batch. -/
theorem trapSet_commit_ok (ctx : Ctx) (f : Nat) (st : St) (pid t : Nat)
    (k : Key) (v : JSValue) (h1 : Heap) (ca : Nat) (st4 : St) (rv : JSValue)
    (hen : st.cell.enabled = true)
    (hcl : extClone ctx.hook (f + 1) st.heap (.ref t) st.cell.depth
      st.cell.respectCustom = some (h1, .ref ca))
    (hrs : reflectSet ctx f (commitStage st h1 t (.ref ca)) ca k v (.raw ca) =
      (st4, .ok rv)) :
    trapSet ctx (f + 1) st pid t k v = (commitDone st t ca st4, .ok rv) := by
  obtain ⟨hfr1, hfr2, hfr3⟩ :
      CtlEq (commitStage st h1 t (.ref ca)) st4 := by
    have := disFrame_reflectSet f ctx (commitStage st h1 t (.ref ca))
      ca k v (.raw ca) rfl
    rwa [hrs] at this
  simp only [commitStage] at hfr1 hfr2 hfr3 hrs
  simp only [trapSet]
  split
  · rename_i hc
    rw [hen] at hc
    simp at hc
  · simp only [hcl, St.emit, St.setEnabled, hrs, St.swapCurrent,
      St.fireListeners, commitDone, hfr1, hfr2, hfr3]
    rcases st with ⟨hp, ⟨ct, cpid, en, dp, rc, nmk, lst⟩, ev, np⟩
    simp only at hen
    subst hen
    simp [List.append_assoc]

/-- The final state of an aborted commit: the clone was produced (and its
event recorded) but the cell is untouched — `enabled` is restored to `true`,
`current` still points at the pre-operation instance, and no `swapped` or
`listener` event is appended. -/
def commitAbort (st : St) (t : Nat) (cv : JSValue) (st4 : St) : St :=
  ⟨st4.heap, st.cell, st.events ++ [.cloned t cv], st.nextProxyId⟩

/-- A write whose triggering operation throws: the error propagates, the
clone is discarded (no swap, no listeners) and `enabled` comes back `true`. -/
theorem trapSet_commit_err (ctx : Ctx) (f : Nat) (st : St) (pid t : Nat)
    (k : Key) (v : JSValue) (h1 : Heap) (ca : Nat) (st4 : St) (e : String)
    (hen : st.cell.enabled = true)
    (hcl : extClone ctx.hook (f + 1) st.heap (.ref t) st.cell.depth
      st.cell.respectCustom = some (h1, .ref ca))
    (hrs : reflectSet ctx f (commitStage st h1 t (.ref ca)) ca k v (.raw ca) =
      (st4, .err e)) :
    trapSet ctx (f + 1) st pid t k v = (commitAbort st t (.ref ca) st4, .err e) := by
  obtain ⟨hfr1, hfr2, hfr3⟩ :
      CtlEq (commitStage st h1 t (.ref ca)) st4 := by
    have := disFrame_reflectSet f ctx (commitStage st h1 t (.ref ca))
      ca k v (.raw ca) rfl
    rwa [hrs] at this
  simp only [commitStage] at hfr1 hfr2 hfr3 hrs
  simp only [trapSet]
  split
  · rename_i hc
    rw [hen] at hc
    simp at hc
  · simp only [hcl, St.emit, St.setEnabled, hrs, commitAbort,
      hfr1, hfr2, hfr3]
    rcases st with ⟨hp, ⟨ct, cpid, en, dp, rc, nmk, lst⟩, ev, np⟩
    simp only at hen
    subst hen
    simp

/-- A committed getter read via the commit protocol: clone, evaluate the
accessor under `enabled = false`, then restore, swap and notify. -/
theorem getterCommit_ok (ctx : Ctx) (f : Nat) (st : St) (pid t : Nat)
    (k : Key) (h1 : Heap) (ca : Nat) (st4 : St) (v : JSValue)
    (hen : st.cell.enabled = true)
    (hcl : extClone ctx.hook (f + 1) st.heap (.ref t) st.cell.depth
      st.cell.respectCustom = some (h1, .ref ca))
    (hrg : reflectGet ctx f (commitStage st h1 t (.ref ca)) ca k
      (.prox pid t) = (st4, .ok v)) :
    getterCommit ctx (f + 1) st pid t k = (commitDone st t ca st4, .ok v) := by
  obtain ⟨hfr1, hfr2, hfr3⟩ :
      CtlEq (commitStage st h1 t (.ref ca)) st4 := by
    have := disFrame_reflectGet f ctx (commitStage st h1 t (.ref ca))
      ca k (.prox pid t) rfl
    rwa [hrg] at this
  simp only [commitStage] at hfr1 hfr2 hfr3 hrg
  simp only [getterCommit, hcl, St.emit, St.setEnabled, hrg, St.swapCurrent,
    St.fireListeners, commitDone, hfr1, hfr2, hfr3]
  rcases st with ⟨hp, ⟨ct, cpid, en, dp, rc, nmk, lst⟩, ev, np⟩
  simp only at hen
  subst hen
  simp [List.append_assoc]

/-- A getter read whose accessor throws: the error propagates, the clone is
discarded and `enabled` comes back `true`. -/
theorem getterCommit_err (ctx : Ctx) (f : Nat) (st : St) (pid t : Nat)
    (k : Key) (h1 : Heap) (ca : Nat) (st4 : St) (e : String)
    (hen : st.cell.enabled = true)
    (hcl : extClone ctx.hook (f + 1) st.heap (.ref t) st.cell.depth
      st.cell.respectCustom = some (h1, .ref ca))
    (hrg : reflectGet ctx f (commitStage st h1 t (.ref ca)) ca k
      (.prox pid t) = (st4, .err e)) :
    getterCommit ctx (f + 1) st pid t k = (commitAbort st t (.ref ca) st4, .err e) := by
  obtain ⟨hfr1, hfr2, hfr3⟩ :
      CtlEq (commitStage st h1 t (.ref ca)) st4 := by
    have := disFrame_reflectGet f ctx (commitStage st h1 t (.ref ca))
      ca k (.prox pid t) rfl
    rwa [hrg] at this
  simp only [commitStage] at hfr1 hfr2 hfr3 hrg
  simp only [getterCommit, hcl, St.emit, St.setEnabled, hrg, commitAbort,
    hfr1, hfr2, hfr3]
  rcases st with ⟨hp, ⟨ct, cpid, en, dp, rc, nmk, lst⟩, ev, np⟩
  simp only at hen
  subst hen
  simp

/-- An enabled, non-exempt read of a getter member dispatches to the commit
protocol. -/
theorem trapGet_getter (ctx : Ctx) (f : Nat) (st : St) (pid t : Nat)
    (k : Key)
    (hen : st.cell.enabled = true)
    (hnm : st.cell.nonMutatingKeys.contains k = false)
    (hkc : (k == "clone") = false)
    (hig : isGetter (f + 1) st.heap t k = some true) :
    trapGet ctx (f + 1) st pid t k = getterCommit ctx f st pid t k := by
  simp only [trapGet, hig]
  split
  · rename_i hc
    rw [hen] at hc
    simp at hc
  · split
    · rename_i hc
      rw [hnm, hkc] at hc
      simp at hc
    · rfl

/-- A committed method call: the `get` trap finds a plain callable member on
an enabled, non-exempt access; its wrapper clones the target, looks the
method up on the bare clone and invokes it there (with `this` the raw
clone) under `enabled = false`; on normal completion `enabled` is restored,
the cell is swapped to a fresh proxy over the clone, and the listener batch
fires.  The method body is arbitrary: however many member writes it
performs, they all land on the clone while the cell is disabled, so the
whole call yields the single `cloned` event below. -/
theorem trapCall_commit_ok (ctx : Ctx) (f : Nat) (st : St) (pid t : Nat)
    (k : Key) (fid : Nat) (h2 : Heap) (ca : Nat) (fid2 : Nat) (st5 : St)
    (rv : JSValue)
    (hen : st.cell.enabled = true)
    (hnm : st.cell.nonMutatingKeys.contains k = false)
    (hkc : (k == "clone") = false)
    (hig : isGetter (f + 2) st.heap t k = some false)
    (hlk : chainLookup (f + 1) st.heap t k = some (some (.data (.fn fid))))
    (hcl : extClone ctx.hook (f + 2) st.heap (.ref t) st.cell.depth
      st.cell.respectCustom = some (h2, .ref ca))
    (hlk2 : chainLookup (f + 1) h2 ca k = some (some (.data (.fn fid2))))
    (hrun : runFnId ctx (f + 1) (commitStage st h2 t (.ref ca)) (.raw ca)
      .undef fid2 = (st5, .ok rv)) :
    trapCall ctx (f + 2) st pid t k = (commitDone st t ca st5, .ok rv) := by
  obtain ⟨hfr1, hfr2, hfr3⟩ :
      CtlEq (commitStage st h2 t (.ref ca)) st5 := by
    have := disFrame_runFnId (f + 1) ctx (commitStage st h2 t (.ref ca))
      (.raw ca) .undef fid2 rfl
    rwa [hrun] at this
  have hrg0 : reflectGet ctx (f + 1) st t k (.prox pid t) =
      (st, .ok (.fn fid)) := by
    simp only [reflectGet, hlk]
  have hrg2 : reflectGet ctx (f + 1) (commitStage st h2 t (.ref ca)) ca k
      (.raw ca) = (commitStage st h2 t (.ref ca), .ok (.fn fid2)) := by
    simp only [reflectGet, commitStage, hlk2]
  simp only [commitStage] at hfr1 hfr2 hfr3 hrun hrg2
  simp only [trapCall, hig]
  split
  · rename_i hc
    rw [hen] at hc
    simp at hc
  · split
    · rename_i hc
      rw [hnm, hkc] at hc
      simp at hc
    · simp only [hrg0, JSValue.isCallable, if_true, hcl, St.emit,
        St.setEnabled, hrg2, hrun, St.swapCurrent, St.fireListeners,
        commitDone, hfr1, hfr2, hfr3]
      rcases st with ⟨hp, ⟨ct, cpid, en, dp, rc, nmk, lst⟩, ev, np⟩
      simp only at hen
      subst hen
      simp [List.append_assoc]

/-- A method call whose body throws: the error propagates, the clone is
discarded (the cell keeps its pre-call target and proxy, no listener fires)
and `enabled` comes back `true`. -/
theorem trapCall_commit_err (ctx : Ctx) (f : Nat) (st : St) (pid t : Nat)
    (k : Key) (fid : Nat) (h2 : Heap) (ca : Nat) (fid2 : Nat) (st5 : St)
    (e : String)
    (hen : st.cell.enabled = true)
    (hnm : st.cell.nonMutatingKeys.contains k = false)
    (hkc : (k == "clone") = false)
    (hig : isGetter (f + 2) st.heap t k = some false)
    (hlk : chainLookup (f + 1) st.heap t k = some (some (.data (.fn fid))))
    (hcl : extClone ctx.hook (f + 2) st.heap (.ref t) st.cell.depth
      st.cell.respectCustom = some (h2, .ref ca))
    (hlk2 : chainLookup (f + 1) h2 ca k = some (some (.data (.fn fid2))))
    (hrun : runFnId ctx (f + 1) (commitStage st h2 t (.ref ca)) (.raw ca)
      .undef fid2 = (st5, .err e)) :
    trapCall ctx (f + 2) st pid t k = (commitAbort st t (.ref ca) st5, .err e) := by
  obtain ⟨hfr1, hfr2, hfr3⟩ :
      CtlEq (commitStage st h2 t (.ref ca)) st5 := by
    have := disFrame_runFnId (f + 1) ctx (commitStage st h2 t (.ref ca))
      (.raw ca) .undef fid2 rfl
    rwa [hrun] at this
  have hrg0 : reflectGet ctx (f + 1) st t k (.prox pid t) =
      (st, .ok (.fn fid)) := by
    simp only [reflectGet, hlk]
  have hrg2 : reflectGet ctx (f + 1) (commitStage st h2 t (.ref ca)) ca k
      (.raw ca) = (commitStage st h2 t (.ref ca), .ok (.fn fid2)) := by
    simp only [reflectGet, commitStage, hlk2]
  simp only [commitStage] at hfr1 hfr2 hfr3 hrun hrg2
  simp only [trapCall, hig]
  split
  · rename_i hc
    rw [hen] at hc
    simp at hc
  · split
    · rename_i hc
      rw [hnm, hkc] at hc
      simp at hc
    · simp only [hrg0, JSValue.isCallable, if_true, hcl, St.emit,
        St.setEnabled, hrg2, hrun, commitAbort, hfr1, hfr2, hfr3]
      rcases st with ⟨hp, ⟨ct, cpid, en, dp, rc, nmk, lst⟩, ev, np⟩
      simp only at hen
      subst hen
      simp

/-- C7: disabled pass-through.  While `cell.enabled = false` every access
through `cell.current` leaves the cell, the event trace and the proxy
counter untouched (zero clones, zero listener invocations, same `current`);
a disabled write to a plain data member mutates the existing underlying
instance in place; and with `enabled = true` again, the very next committed
write runs the full per-access cloning protocol (clone event, swap to a
fresh proxy over the clone, listener batch). -/
theorem c7_disabled_pass_through :
    (∀ ctx fuel st op, st.cell.enabled = false →
      (execExt ctx fuel st op).1.cell = st.cell ∧
      (execExt ctx fuel st op).1.events = st.events ∧
      (execExt ctx fuel st op).1.nextProxyId = st.nextProxyId) ∧
    (∀ ctx f st k v w, st.cell.enabled = false →
      chainLookup (f + 1) st.heap st.cell.currentTarget k =
        some (some (.data w)) →
      execExt ctx (f + 2) st (.write k v) =
        ({ st with heap := st.heap.writeProp st.cell.currentTarget k v },
          .ok (.vBool true))) ∧
    (∀ ctx f st k v h1 ca st4 rv, st.cell.enabled = true →
      extClone ctx.hook (f + 1) st.heap (.ref st.cell.currentTarget)
        st.cell.depth st.cell.respectCustom = some (h1, .ref ca) →
      reflectSet ctx f (commitStage st h1 st.cell.currentTarget (.ref ca))
        ca k v (.raw ca) = (st4, .ok rv) →
      execExt ctx (f + 1) st (.write k v) =
        (commitDone st st.cell.currentTarget ca st4, .ok rv)) := by
  refine ⟨?_, ?_, ?_⟩
  · intro ctx fuel st op hdis
    rcases op with k | ⟨k, v⟩ | k
    · exact disFrame_trapGet fuel ctx st _ _ k hdis
    · exact disFrame_trapSet fuel ctx st _ _ k v hdis
    · exact disFrame_trapCall fuel ctx st _ _ k hdis
  · intro ctx f st k v w hdis hck
    show trapSet ctx (f + 2) st st.cell.currentProxyId st.cell.currentTarget
      k v = _
    simp only [trapSet]
    split
    · simp only [reflectSet, hck, ThisVal.targetAddr]
    · rename_i hc
      rw [hdis] at hc
      simp at hc
  · intro ctx f st k v h1 ca st4 rv hen hcl hrs
    exact trapSet_commit_ok ctx f st _ _ k v h1 ca st4 rv hen hcl hrs

/-- A one-object heap `{n: 5}` with a disabled and an enabled cell over it,
for exercising the pass-through and re-enabled commit paths. -/
def H7 : Heap := ⟨[(0, ⟨[("n", .data (.vNum 5))], none⟩)], 1⟩

def ctx7 : Ctx := ⟨[], fun hh _ _ => (hh, .undef)⟩

def stD : St := ⟨H7, ⟨0, 0, false, .num 1, false, [], [7]⟩, [], 1⟩

def stE : St := ⟨H7, ⟨0, 0, true, .num 1, false, [], [7]⟩, [], 1⟩

/-- The depth-1 clone of `H7`'s object `0`. -/
def h1c7 : Heap :=
  ⟨[(1, ⟨[("n", .data (.vNum 5))], none⟩),
    (1, ⟨[("n", .data (.vNum 5))], none⟩),
    (0, ⟨[("n", .data (.vNum 5))], none⟩)], 2⟩

/-- The machine state after the committed write lands `n := 9` on the
clone. -/
def st4c7 : St :=
  ⟨⟨[(1, ⟨[("n", .data (.vNum 9))], none⟩),
     (1, ⟨[("n", .data (.vNum 5))], none⟩),
     (1, ⟨[("n", .data (.vNum 5))], none⟩),
     (0, ⟨[("n", .data (.vNum 5))], none⟩)], 2⟩,
   ⟨0, 0, false, .num 1, false, [], [7]⟩,
   [.cloned 0 (.ref 1)], 1⟩

/-- Witness: the three disabled-pass-through conclusions hold concretely on
the one-object heap `H7`. -/
theorem c7_disabled_pass_through_witness :
    ((execExt ctx7 5 stD (.write "n" (.vNum 9))).1.cell = stD.cell ∧
      (execExt ctx7 5 stD (.write "n" (.vNum 9))).1.events = stD.events ∧
      (execExt ctx7 5 stD (.write "n" (.vNum 9))).1.nextProxyId =
        stD.nextProxyId) ∧
    execExt ctx7 5 stD (.write "n" (.vNum 9)) =
      ({ stD with heap :=
          stD.heap.writeProp stD.cell.currentTarget "n" (.vNum 9) },
        .ok (.vBool true)) ∧
    execExt ctx7 4 stE (.write "n" (.vNum 9)) =
      (commitDone stE stE.cell.currentTarget 1 st4c7, .ok (.vBool true)) := by
  refine ⟨c7_disabled_pass_through.1 ctx7 5 stD (.write "n" (.vNum 9)) rfl,
    ?_, ?_⟩
  · exact c7_disabled_pass_through.2.1 ctx7 3 stD "n" (.vNum 9) (.vNum 5)
      rfl rfl
  · refine c7_disabled_pass_through.2.2 ctx7 3 stE "n" (.vNum 9) h1c7 1 st4c7
      (.vBool true) rfl ?_ ?_
    · simp [extClone, isCustomCloneable, chainLookup, extCloneRec,
        extCloneRecProps, lodashClone, Heap.alloc, Heap.get, Heap.set,
        seenGet, propsGet, stE, H7, h1c7, ctx7]
    · simp [reflectSet, chainLookup, commitStage, Heap.get, Heap.writeProp,
        Heap.set, propsGet, propsSet, ThisVal.targetAddr, stE, H7, h1c7,
        st4c7]

/-- C1: commit-or-discard atomicity on throw.  For each kind of intercepted
access with `enabled = true` — a property write, a non-exempt method call,
and a non-exempt getter read — if the triggering operation throws, the
error propagates unchanged to the caller, the cell is exactly as before
(`current` still points at the pre-operation target and proxy, and
`enabled` is back to `true`), and no `swapped` or `listener` event is
appended: the clone is discarded. -/
theorem c1_commit_or_discard_on_throw :
    (∀ ctx f st k v h1 ca st4 e, st.cell.enabled = true →
      extClone ctx.hook (f + 1) st.heap (.ref st.cell.currentTarget)
        st.cell.depth st.cell.respectCustom = some (h1, .ref ca) →
      reflectSet ctx f (commitStage st h1 st.cell.currentTarget (.ref ca))
        ca k v (.raw ca) = (st4, .err e) →
      execExt ctx (f + 1) st (.write k v) =
        (⟨st4.heap, st.cell,
          st.events ++ [.cloned st.cell.currentTarget (.ref ca)],
          st.nextProxyId⟩, .err e)) ∧
    (∀ ctx f st k h1 ca st4 e, st.cell.enabled = true →
      st.cell.nonMutatingKeys.contains k = false →
      (k == "clone") = false →
      isGetter (f + 2) st.heap st.cell.currentTarget k = some true →
      extClone ctx.hook (f + 1) st.heap (.ref st.cell.currentTarget)
        st.cell.depth st.cell.respectCustom = some (h1, .ref ca) →
      reflectGet ctx f (commitStage st h1 st.cell.currentTarget (.ref ca))
        ca k (.prox st.cell.currentProxyId st.cell.currentTarget) =
        (st4, .err e) →
      execExt ctx (f + 2) st (.read k) =
        (⟨st4.heap, st.cell,
          st.events ++ [.cloned st.cell.currentTarget (.ref ca)],
          st.nextProxyId⟩, .err e)) ∧
    (∀ ctx f st k fid h2 ca fid2 st5 e, st.cell.enabled = true →
      st.cell.nonMutatingKeys.contains k = false →
      (k == "clone") = false →
      isGetter (f + 2) st.heap st.cell.currentTarget k = some false →
      chainLookup (f + 1) st.heap st.cell.currentTarget k =
        some (some (.data (.fn fid))) →
      extClone ctx.hook (f + 2) st.heap (.ref st.cell.currentTarget)
        st.cell.depth st.cell.respectCustom = some (h2, .ref ca) →
      chainLookup (f + 1) h2 ca k = some (some (.data (.fn fid2))) →
      runFnId ctx (f + 1) (commitStage st h2 st.cell.currentTarget (.ref ca))
        (.raw ca) .undef fid2 = (st5, .err e) →
      execExt ctx (f + 2) st (.call k) =
        (⟨st5.heap, st.cell,
          st.events ++ [.cloned st.cell.currentTarget (.ref ca)],
          st.nextProxyId⟩, .err e)) := by
  refine ⟨?_, ?_, ?_⟩
  · intro ctx f st k v h1 ca st4 e hen hcl hrs
    exact trapSet_commit_err ctx f st _ _ k v h1 ca st4 e hen hcl hrs
  · intro ctx f st k h1 ca st4 e hen hnm hkc hig hcl hrg
    show trapGet ctx (f + 2) st st.cell.currentProxyId st.cell.currentTarget
      k = _
    rw [trapGet_getter ctx (f + 1) st _ _ k hen hnm hkc hig]
    exact getterCommit_err ctx f st _ _ k h1 ca st4 e hen hcl hrg
  · intro ctx f st k fid h2 ca fid2 st5 e hen hnm hkc hig hlk hcl hlk2 hrun
    exact trapCall_commit_err ctx f st _ _ k fid h2 ca fid2 st5 e
      hen hnm hkc hig hlk hcl hlk2 hrun

/-- A function table whose only function immediately throws, and a target
whose prototype exposes it as a getter (`g`), a setter (`s`), and which owns
it as a method (`m`). -/
def ctxT : Ctx :=
  ⟨[(1, ⟨[.throwErr "boom"], .const .undef⟩)], fun hh _ _ => (hh, .undef)⟩

def HT : Heap :=
  ⟨[(0, ⟨[("n", .data (.vNum 0)), ("m", .data (.fn 1))], some 10⟩),
    (10, ⟨[("g", .accessor (some 1) none), ("s", .accessor none (some 1))],
      none⟩)], 11⟩

def stT : St := ⟨HT, ⟨0, 0, true, .num 1, false, [], [3]⟩, [], 1⟩

/-- The depth-1 clone of `HT`'s object `0` (own properties copied, prototype
link shared). -/
def h1T : Heap :=
  ⟨[(11, ⟨[("n", .data (.vNum 0)), ("m", .data (.fn 1))], some 10⟩),
    (11, ⟨[("n", .data (.vNum 0)), ("m", .data (.fn 1))], some 10⟩),
    (0, ⟨[("n", .data (.vNum 0)), ("m", .data (.fn 1))], some 10⟩),
    (10, ⟨[("g", .accessor (some 1) none), ("s", .accessor none (some 1))],
      none⟩)], 12⟩

/-- Witness: a throwing setter write, getter read and method call each
propagate `"boom"` and leave the cell exactly as before, with only the
discarded clone's event appended. -/
theorem c1_commit_or_discard_on_throw_witness :
    execExt ctxT 7 stT (.write "s" (.vNum 1)) =
      (⟨(commitStage stT h1T stT.cell.currentTarget (.ref 11)).heap, stT.cell,
        stT.events ++ [.cloned stT.cell.currentTarget (.ref 11)],
        stT.nextProxyId⟩, .err "boom") ∧
    execExt ctxT 7 stT (.read "g") =
      (⟨(commitStage stT h1T stT.cell.currentTarget (.ref 11)).heap, stT.cell,
        stT.events ++ [.cloned stT.cell.currentTarget (.ref 11)],
        stT.nextProxyId⟩, .err "boom") ∧
    execExt ctxT 7 stT (.call "m") =
      (⟨(commitStage stT h1T stT.cell.currentTarget (.ref 11)).heap, stT.cell,
        stT.events ++ [.cloned stT.cell.currentTarget (.ref 11)],
        stT.nextProxyId⟩, .err "boom") := by
  refine ⟨?_, ?_, ?_⟩
  · refine c1_commit_or_discard_on_throw.1 ctxT 6 stT "s" (.vNum 1) h1T 11
      (commitStage stT h1T stT.cell.currentTarget (.ref 11)) "boom"
      rfl ?_ ?_
    · simp [extClone, isCustomCloneable, chainLookup, extCloneRec,
        extCloneRecProps, lodashClone, Heap.alloc, Heap.get, Heap.set,
        seenGet, propsGet, stT, HT, h1T, ctxT]
    · simp [reflectSet, chainLookup, commitStage, runFnId, runBody, runOps,
        evalExpr, Ctx.fnBody, Heap.get, propsGet, stT, HT, h1T, ctxT]
  · refine c1_commit_or_discard_on_throw.2.1 ctxT 5 stT "g" h1T 11
      (commitStage stT h1T stT.cell.currentTarget (.ref 11)) "boom"
      rfl rfl rfl ?_ ?_ ?_
    · simp [isGetter, chainLookup, Heap.get, propsGet, stT, HT]
    · simp [extClone, isCustomCloneable, chainLookup, extCloneRec,
        extCloneRecProps, lodashClone, Heap.alloc, Heap.get, Heap.set,
        seenGet, propsGet, stT, HT, h1T, ctxT]
    · simp [reflectGet, chainLookup, commitStage, runFnId, runBody, runOps,
        evalExpr, Ctx.fnBody, Heap.get, propsGet, stT, HT, h1T, ctxT]
  · refine c1_commit_or_discard_on_throw.2.2 ctxT 5 stT "m" 1 h1T 11 1
      (commitStage stT h1T stT.cell.currentTarget (.ref 11)) "boom"
      rfl rfl rfl ?_ ?_ ?_ ?_ ?_
    · simp [isGetter, chainLookup, Heap.get, propsGet, stT, HT]
    · simp [chainLookup, Heap.get, propsGet, stT, HT]
    · simp [extClone, isCustomCloneable, chainLookup, extCloneRec,
        extCloneRecProps, lodashClone, Heap.alloc, Heap.get, Heap.set,
        seenGet, propsGet, stT, HT, h1T, ctxT]
    · simp [chainLookup, Heap.get, propsGet, h1T]
    · simp [runFnId, runBody, runOps, evalExpr, commitStage, Ctx.fnBody,
        stT, HT, h1T, ctxT]

def Ev.isCloned : Ev → Bool
  | .cloned _ _ => true
  | _ => false

def Ev.isListener : Ev → Bool
  | .listener _ _ _ => true
  | _ => false

theorem countP_listener_map_cloned (ls : List Nat) (ca np : Nat) :
    (ls.map (fun l => Ev.listener l ca np)).countP Ev.isCloned = 0 := by
  induction ls with
  | nil => rfl
  | cons a t ih => simp [List.countP_cons, Ev.isCloned, ih]

theorem countP_listener_map_self (ls : List Nat) (ca np : Nat) :
    (ls.map (fun l => Ev.listener l ca np)).countP Ev.isListener =
      ls.length := by
  induction ls with
  | nil => rfl
  | cons a t ih => simp [List.countP_cons, Ev.isListener, ih]

/-- C3: mutation batching.  A non-exempt method call through an enabled
cell runs the commit protocol once around the whole invocation: whatever
the method body does internally (any number of member writes, nested calls
or setter assignments — the function table entry for `fid2` is arbitrary
here), the cell is disabled for the call's dynamic extent, so the final
trace gains exactly one `cloned` event and exactly one listener batch, not
one per internal write. -/
theorem c3_mutation_batching :
    ∀ ctx f st k fid h2 ca fid2 st5 rv, st.cell.enabled = true →
      st.cell.nonMutatingKeys.contains k = false →
      (k == "clone") = false →
      isGetter (f + 2) st.heap st.cell.currentTarget k = some false →
      chainLookup (f + 1) st.heap st.cell.currentTarget k =
        some (some (.data (.fn fid))) →
      extClone ctx.hook (f + 2) st.heap (.ref st.cell.currentTarget)
        st.cell.depth st.cell.respectCustom = some (h2, .ref ca) →
      chainLookup (f + 1) h2 ca k = some (some (.data (.fn fid2))) →
      runFnId ctx (f + 1) (commitStage st h2 st.cell.currentTarget (.ref ca))
        (.raw ca) .undef fid2 = (st5, .ok rv) →
      execExt ctx (f + 2) st (.call k) =
        (commitDone st st.cell.currentTarget ca st5, .ok rv) ∧
      (commitDone st st.cell.currentTarget ca st5).events.countP
        Ev.isCloned = st.events.countP Ev.isCloned + 1 ∧
      (commitDone st st.cell.currentTarget ca st5).events.countP
        Ev.isListener =
        st.events.countP Ev.isListener + st.cell.cloneListeners.length := by
  intro ctx f st k fid h2 ca fid2 st5 rv hen hnm hkc hig hlk hcl hlk2 hrun
  refine ⟨trapCall_commit_ok ctx f st _ _ k fid h2 ca fid2 st5 rv
    hen hnm hkc hig hlk hcl hlk2 hrun, ?_, ?_⟩
  · simp [commitDone, List.countP_append, List.countP_cons, Ev.isCloned,
      countP_listener_map_cloned]
  · simp [commitDone, List.countP_append, List.countP_cons, Ev.isListener,
      countP_listener_map_self]

/-- A method `m` whose body performs two internal member writes
(`this.x = 1; this.n = 7`) before returning `this.n`. -/
def ctx3 : Ctx :=
  ⟨[(2, ⟨[.setThis "x" (.const (.vNum 1)), .setThis "n" (.const (.vNum 7))],
    .thisField "n"⟩)], fun hh _ _ => (hh, .undef)⟩

def H3 : Heap :=
  ⟨[(0, ⟨[("n", .data (.vNum 0)), ("m", .data (.fn 2))], none⟩)], 1⟩

def st3 : St := ⟨H3, ⟨0, 0, true, .num 1, false, [], [4, 5]⟩, [], 1⟩

/-- The depth-1 clone of `H3`'s object `0`. -/
def h2c3 : Heap :=
  ⟨[(1, ⟨[("n", .data (.vNum 0)), ("m", .data (.fn 2))], none⟩),
    (1, ⟨[("n", .data (.vNum 0)), ("m", .data (.fn 2))], none⟩),
    (0, ⟨[("n", .data (.vNum 0)), ("m", .data (.fn 2))], none⟩)], 2⟩

/-- The machine state after the method body's two internal writes landed on
the clone (still disabled, still only the one `cloned` event). -/
def st5c3 : St :=
  ⟨⟨[(1, ⟨[("n", .data (.vNum 7)), ("m", .data (.fn 2)),
        ("x", .data (.vNum 1))], none⟩),
     (1, ⟨[("n", .data (.vNum 0)), ("m", .data (.fn 2)),
        ("x", .data (.vNum 1))], none⟩),
     (1, ⟨[("n", .data (.vNum 0)), ("m", .data (.fn 2))], none⟩),
     (1, ⟨[("n", .data (.vNum 0)), ("m", .data (.fn 2))], none⟩),
     (0, ⟨[("n", .data (.vNum 0)), ("m", .data (.fn 2))], none⟩)], 2⟩,
   ⟨0, 0, false, .num 1, false, [], [4, 5]⟩,
   [.cloned 0 (.ref 1)], 1⟩

/-- Witness: the two-write method call commits with a single `cloned` event
and a single two-listener batch. -/
theorem c3_mutation_batching_witness :
    execExt ctx3 7 st3 (.call "m") =
      (commitDone st3 st3.cell.currentTarget 1 st5c3, .ok (.vNum 7)) ∧
    (commitDone st3 st3.cell.currentTarget 1 st5c3).events.countP
      Ev.isCloned = st3.events.countP Ev.isCloned + 1 ∧
    (commitDone st3 st3.cell.currentTarget 1 st5c3).events.countP
      Ev.isListener =
      st3.events.countP Ev.isListener + st3.cell.cloneListeners.length := by
  refine c3_mutation_batching ctx3 5 st3 "m" 2 h2c3 1 2 st5c3 (.vNum 7)
    rfl rfl rfl ?_ ?_ ?_ ?_ ?_
  · simp [isGetter, chainLookup, Heap.get, propsGet, st3, H3]
  · simp [chainLookup, Heap.get, propsGet, st3, H3]
  · simp [extClone, isCustomCloneable, chainLookup, extCloneRec,
      extCloneRecProps, lodashClone, Heap.alloc, Heap.get, Heap.set,
      seenGet, propsGet, st3, H3, h2c3, ctx3]
  · simp [chainLookup, Heap.get, propsGet, h2c3]
  · simp [runFnId, runBody, runOps, evalExpr, setMember, getMember,
      reflectSet, reflectGet, chainLookup, commitStage, Ctx.fnBody,
      Heap.get, Heap.set, Heap.writeProp, propsGet, propsSet,
      ThisVal.targetAddr, st3, H3, h2c3, st5c3, ctx3]

/-- C2: structural independence of commits.  First, the structural branches
of `extClone` (deep, shallow and bounded — i.e. whenever the custom-clone
hook is not honored) never mutate the value being cloned: every
pre-existing address reads back unchanged.  Second, a committed write
through an enabled cell lands on the fresh clone: afterwards `current` is
the clone (key-for-key similar to the old instance, composite fields
repointed) updated with exactly that write — the written key holds the new
value, every other key is as in the clone — while every pre-existing
address, in particular the old `current` instance, reads back unchanged. -/
theorem c2_structural_independence :
    (∀ (hook : Hook) (fuel : Nat) (h : Heap) (a : Nat) (o : Obj)
      (depth : CloneDepth) (rc cc : Bool) (h' : Heap) (v' : JSValue),
      h.get a = some o →
      isCustomCloneable fuel h (.ref a) = some cc → (rc && cc) = false →
      extClone hook fuel h (.ref a) depth rc = some (h', v') →
      ∀ x, x < h.next → h'.get x = h.get x) ∧
    (∀ ctx f st k v w o cc h1 v1, st.cell.enabled = true →
      st.heap.get st.cell.currentTarget = some o →
      isCustomCloneable (f + 1) st.heap (.ref st.cell.currentTarget) =
        some cc →
      (st.cell.respectCustom && cc) = false →
      extClone ctx.hook (f + 1) st.heap (.ref st.cell.currentTarget)
        st.cell.depth st.cell.respectCustom = some (h1, v1) →
      chainLookup f h1 st.heap.next k = some (some (.data w)) →
      ∃ stF ps, execExt ctx (f + 1) st (.write k v) =
          (stF, .ok (.vBool true)) ∧
        PropsSim o.props ps ∧
        stF.cell.currentTarget = st.heap.next ∧
        stF.heap.get st.heap.next =
          some ⟨propsSet ps k (.data v), o.proto⟩ ∧
        propsGet (propsSet ps k (.data v)) k = some (.data v) ∧
        (∀ k2, k2 ≠ k →
          propsGet (propsSet ps k (.data v)) k2 = propsGet ps k2) ∧
        (∀ x, x < st.heap.next → stF.heap.get x = st.heap.get x)) := by
  refine ⟨?_, ?_⟩
  · intro hook fuel h a o depth rc cc h' v' hg hcc hno heq
    obtain ⟨ps, -, -, -, -, hpres⟩ :=
      extClone_structural_top hook fuel h a o depth rc cc h' v' hg hcc hno heq
    exact hpres
  · intro ctx f st k v w o cc h1 v1 hen hg hcc hno hcl hck
    obtain ⟨ps, hv1, hget, hsim, hlt, hpres⟩ :=
      extClone_structural_top ctx.hook (f + 1) st.heap
        st.cell.currentTarget o st.cell.depth st.cell.respectCustom cc h1 v1
        hg hcc hno hcl
    subst hv1
    rcases f with _ | f'
    · simp [chainLookup] at hck
    have hrs : reflectSet ctx (f' + 1)
        (commitStage st h1 st.cell.currentTarget (.ref st.heap.next))
        st.heap.next k v (.raw st.heap.next) =
        ({ commitStage st h1 st.cell.currentTarget (.ref st.heap.next) with
          heap := h1.writeProp st.heap.next k v }, .ok (.vBool true)) := by
      simp only [reflectSet, commitStage, hck, ThisVal.targetAddr]
    have hmain := trapSet_commit_ok ctx (f' + 1) st st.cell.currentProxyId
      st.cell.currentTarget k v h1 st.heap.next _ _ hen hcl hrs
    have hwp : h1.writeProp st.heap.next k v =
        h1.set st.heap.next ⟨propsSet ps k (.data v), o.proto⟩ := by
      simp only [Heap.writeProp, hget]
    refine ⟨commitDone st st.cell.currentTarget st.heap.next
        ({ commitStage st h1 st.cell.currentTarget (.ref st.heap.next) with
          heap := h1.writeProp st.heap.next k v }), ps, hmain, hsim, rfl,
      ?_, propsGet_propsSet_self ps k (.data v),
      (fun k2 hne => propsGet_propsSet_ne ps k k2 (.data v) hne), ?_⟩
    · show (h1.writeProp st.heap.next k v).get st.heap.next = _
      rw [hwp]
      exact Heap.get_set_self _ _ _
    · intro x hx
      show (h1.writeProp st.heap.next k v).get x = _
      rw [hwp, Heap.get_set_ne _ _ _ _ (by omega)]
      exact hpres x hx

def HW : Heap :=
  ⟨[(0, ⟨[("p", .data (.ref 1)), ("q", .data (.vNum 3))], none⟩),
    (1, ⟨[("z", .data (.vNum 0))], none⟩)], 2⟩

def stW : St := ⟨HW, ⟨0, 0, true, .num 1, false, [], [9]⟩, [], 1⟩

def ctxW : Ctx := ⟨[], fun hh _ _ => (hh, .undef)⟩

/-- The depth-1 clone heap of `HW`'s object `0`: the clone lands at `2` with
its composite field `p` repointed to the fresh one-level copy `3`. -/
def h1W : Heap :=
  ⟨[(2, ⟨[("p", .data (.ref 3)), ("q", .data (.vNum 3))], none⟩),
    (3, ⟨[("z", .data (.vNum 0))], none⟩),
    (3, ⟨[("z", .data (.vNum 0))], none⟩),
    (2, ⟨[("p", .data (.ref 1)), ("q", .data (.vNum 3))], none⟩),
    (0, ⟨[("p", .data (.ref 1)), ("q", .data (.vNum 3))], none⟩),
    (1, ⟨[("z", .data (.vNum 0))], none⟩)], 4⟩

/-- Witness: both structural-independence conclusions hold concretely on the
two-object heap `HW` for the committed write `q := 5`. -/
theorem c2_structural_independence_witness :
    (∀ x, x < HW.next → h1W.get x = HW.get x) ∧
    (∃ stF ps, execExt ctxW 6 stW (.write "q" (.vNum 5)) =
        (stF, .ok (.vBool true)) ∧
      PropsSim [("p", .data (.ref 1)), ("q", .data (.vNum 3))] ps ∧
      stF.cell.currentTarget = stW.heap.next ∧
      stF.heap.get stW.heap.next =
        some ⟨propsSet ps "q" (.data (.vNum 5)), none⟩ ∧
      propsGet (propsSet ps "q" (.data (.vNum 5))) "q" =
        some (.data (.vNum 5)) ∧
      (∀ k2, k2 ≠ "q" →
        propsGet (propsSet ps "q" (.data (.vNum 5))) k2 = propsGet ps k2) ∧
      (∀ x, x < stW.heap.next → stF.heap.get x = stW.heap.get x)) := by
  have hcl : extClone ctxW.hook 6 stW.heap (.ref stW.cell.currentTarget)
      stW.cell.depth stW.cell.respectCustom = some (h1W, .ref 2) := by
    simp [extClone, isCustomCloneable, chainLookup, extCloneRec,
      extCloneRecProps, lodashClone, Heap.alloc, Heap.get, Heap.set,
      seenGet, propsGet, stW, HW, h1W, ctxW]
  refine ⟨?_, ?_⟩
  · exact c2_structural_independence.1 ctxW.hook 6 HW 0
      ⟨[("p", .data (.ref 1)), ("q", .data (.vNum 3))], none⟩
      (.num 1) false false h1W (.ref 2) rfl rfl rfl hcl
  · exact c2_structural_independence.2 ctxW 5 stW "q" (.vNum 5) (.vNum 3)
      ⟨[("p", .data (.ref 1)), ("q", .data (.vNum 3))], none⟩
      false h1W (.ref 2) rfl rfl rfl rfl hcl
      (by simp [chainLookup, Heap.get, propsGet, stW, HW, h1W])

/-- A getter `g` (found on the prototype `10`) whose body performs the side
effect `this.n = 42` and returns `this.n`. -/
def ctx4 : Ctx :=
  ⟨[(1, ⟨[.setThis "n" (.const (.vNum 42))], .thisField "n"⟩)],
    fun hh _ _ => (hh, .undef)⟩

def H4 : Heap :=
  ⟨[(0, ⟨[("n", .data (.vNum 0))], some 10⟩),
    (10, ⟨[("g", .accessor (some 1) none)], none⟩)], 11⟩

def st4init : St := ⟨H4, ⟨0, 0, true, .num 1, false, [], []⟩, [], 1⟩

/-- C4 claims that a non-exempt accessor read evaluates the accessor on the
fresh clone, so its side effects land on the clone.  The code does the
opposite: the `get` trap's commit path calls
`Reflect.get(cloned, prop, receiver)` with `receiver` the *old proxy* (the
`set` trap, by contrast, passes `cloned` as receiver), so the accessor body
runs with `this` bound to the proxy over the *original* — which is disabled
for the call's extent and therefore writes through to the original in
place.  Concretely: reading `g` on `{n: 0}` returns `42` computed from the
original, the original is mutated to `n = 42`, and the committed clone (the
new `current`, address `11`) still holds the stale pre-read `n = 0`. -/
theorem c4_accessor_read_runs_against_original :
    ∃ stF, execExt ctx4 9 st4init (.read "g") = (stF, .ok (.vNum 42)) ∧
      stF.cell.currentTarget = 11 ∧
      (stF.heap.get 0).map (fun o => propsGet o.props "n") =
        some (some (.data (.vNum 42))) ∧
      (stF.heap.get 11).map (fun o => propsGet o.props "n") =
        some (some (.data (.vNum 0))) := by
  refine ⟨⟨⟨[(0, ⟨[("n", .data (.vNum 42))], some 10⟩),
      (11, ⟨[("n", .data (.vNum 0))], some 10⟩),
      (11, ⟨[("n", .data (.vNum 0))], some 10⟩),
      (0, ⟨[("n", .data (.vNum 0))], some 10⟩),
      (10, ⟨[("g", .accessor (some 1) none)], none⟩)], 12⟩,
    ⟨11, 1, true, .num 1, false, [], []⟩,
    [.cloned 0 (.ref 11), .swapped 11 1], 2⟩, ?_, rfl, rfl, rfl⟩
  simp [execExt, trapGet, trapSet, trapCall, getterCommit, reflectGet,
    reflectSet, runFnId, runBody, runOps, evalExpr, getMember, setMember,
    callMember, isGetter, chainLookup, extClone, isCustomCloneable,
    extCloneRec, extCloneRecProps, lodashClone, St.emit, St.setEnabled,
    St.swapCurrent, St.fireListeners, Ctx.fnBody, Heap.get, Heap.set,
    Heap.alloc, Heap.writeProp, propsGet, propsSet, seenGet,
    JSValue.isCallable, ThisVal.targetAddr, ctx4, H4, st4init]

/-- A getter `g` (found on the prototype `10`) whose body returns `this.n`
without side effects, over a target `{n: 5}`, with one registered clone
listener. -/
def ctxG : Ctx := ⟨[(1, ⟨[], .thisField "n"⟩)], fun hh _ _ => (hh, .undef)⟩

def HG : Heap :=
  ⟨[(0, ⟨[("n", .data (.vNum 5))], some 10⟩),
    (10, ⟨[("g", .accessor (some 1) none)], none⟩)], 11⟩

def stG : St := ⟨HG, ⟨0, 0, true, .num 1, false, [], [8]⟩, [], 1⟩

/-- The depth-1 clone of `HG`'s object `0`. -/
def h1G : Heap :=
  ⟨[(11, ⟨[("n", .data (.vNum 5))], some 10⟩),
    (11, ⟨[("n", .data (.vNum 5))], some 10⟩),
    (0, ⟨[("n", .data (.vNum 5))], some 10⟩),
    (10, ⟨[("g", .accessor (some 1) none)], none⟩)], 12⟩

/-- C8: listener ordering.  On every committed operation — a property
write, a non-exempt getter read, and a non-exempt method call — each
registered clone listener fires exactly once, strictly after the `swapped`
event that reassigns `cell.current` to the freshly wrapped clone, in
registration order (the batch is `cloneListeners.map`), and each listener
observes the post-commit cell: the recorded target/proxy pair equals the
new `currentTarget`/`currentProxyId`.  When the triggering operation throws
instead — on any of the three paths — no commit occurs and no listener
event is appended. -/
theorem c8_listener_ordering :
    (∀ ctx f st k v h1 ca st4 rv, st.cell.enabled = true →
      extClone ctx.hook (f + 1) st.heap (.ref st.cell.currentTarget)
        st.cell.depth st.cell.respectCustom = some (h1, .ref ca) →
      reflectSet ctx f (commitStage st h1 st.cell.currentTarget (.ref ca))
        ca k v (.raw ca) = (st4, .ok rv) →
      execExt ctx (f + 1) st (.write k v) =
        (commitDone st st.cell.currentTarget ca st4, .ok rv) ∧
      (commitDone st st.cell.currentTarget ca st4).events =
        st.events ++ [.cloned st.cell.currentTarget (.ref ca)] ++
          [.swapped ca st.nextProxyId] ++
          st.cell.cloneListeners.map
            (fun l => .listener l ca st.nextProxyId) ∧
      (commitDone st st.cell.currentTarget ca st4).cell.currentTarget = ca ∧
      (commitDone st st.cell.currentTarget ca st4).cell.currentProxyId =
        st.nextProxyId) ∧
    (∀ ctx f st k h1 ca st4 v, st.cell.enabled = true →
      st.cell.nonMutatingKeys.contains k = false →
      (k == "clone") = false →
      isGetter (f + 2) st.heap st.cell.currentTarget k = some true →
      extClone ctx.hook (f + 1) st.heap (.ref st.cell.currentTarget)
        st.cell.depth st.cell.respectCustom = some (h1, .ref ca) →
      reflectGet ctx f (commitStage st h1 st.cell.currentTarget (.ref ca))
        ca k (.prox st.cell.currentProxyId st.cell.currentTarget) =
        (st4, .ok v) →
      execExt ctx (f + 2) st (.read k) =
        (commitDone st st.cell.currentTarget ca st4, .ok v) ∧
      (commitDone st st.cell.currentTarget ca st4).events =
        st.events ++ [.cloned st.cell.currentTarget (.ref ca)] ++
          [.swapped ca st.nextProxyId] ++
          st.cell.cloneListeners.map
            (fun l => .listener l ca st.nextProxyId) ∧
      (commitDone st st.cell.currentTarget ca st4).cell.currentTarget = ca ∧
      (commitDone st st.cell.currentTarget ca st4).cell.currentProxyId =
        st.nextProxyId) ∧
    (∀ ctx f st k fid h2 ca fid2 st5 rv, st.cell.enabled = true →
      st.cell.nonMutatingKeys.contains k = false →
      (k == "clone") = false →
      isGetter (f + 2) st.heap st.cell.currentTarget k = some false →
      chainLookup (f + 1) st.heap st.cell.currentTarget k =
        some (some (.data (.fn fid))) →
      extClone ctx.hook (f + 2) st.heap (.ref st.cell.currentTarget)
        st.cell.depth st.cell.respectCustom = some (h2, .ref ca) →
      chainLookup (f + 1) h2 ca k = some (some (.data (.fn fid2))) →
      runFnId ctx (f + 1) (commitStage st h2 st.cell.currentTarget (.ref ca))
        (.raw ca) .undef fid2 = (st5, .ok rv) →
      execExt ctx (f + 2) st (.call k) =
        (commitDone st st.cell.currentTarget ca st5, .ok rv) ∧
      (commitDone st st.cell.currentTarget ca st5).events =
        st.events ++ [.cloned st.cell.currentTarget (.ref ca)] ++
          [.swapped ca st.nextProxyId] ++
          st.cell.cloneListeners.map
            (fun l => .listener l ca st.nextProxyId) ∧
      (commitDone st st.cell.currentTarget ca st5).cell.currentTarget = ca ∧
      (commitDone st st.cell.currentTarget ca st5).cell.currentProxyId =
        st.nextProxyId) ∧
    (∀ ctx f st k v h1 ca st4 e, st.cell.enabled = true →
      extClone ctx.hook (f + 1) st.heap (.ref st.cell.currentTarget)
        st.cell.depth st.cell.respectCustom = some (h1, .ref ca) →
      reflectSet ctx f (commitStage st h1 st.cell.currentTarget (.ref ca))
        ca k v (.raw ca) = (st4, .err e) →
      (execExt ctx (f + 1) st (.write k v)).1.events =
        st.events ++ [.cloned st.cell.currentTarget (.ref ca)] ∧
      (execExt ctx (f + 1) st (.write k v)).1.events.countP Ev.isListener =
        st.events.countP Ev.isListener) ∧
    (∀ ctx f st k h1 ca st4 e, st.cell.enabled = true →
      st.cell.nonMutatingKeys.contains k = false →
      (k == "clone") = false →
      isGetter (f + 2) st.heap st.cell.currentTarget k = some true →
      extClone ctx.hook (f + 1) st.heap (.ref st.cell.currentTarget)
        st.cell.depth st.cell.respectCustom = some (h1, .ref ca) →
      reflectGet ctx f (commitStage st h1 st.cell.currentTarget (.ref ca))
        ca k (.prox st.cell.currentProxyId st.cell.currentTarget) =
        (st4, .err e) →
      (execExt ctx (f + 2) st (.read k)).1.events =
        st.events ++ [.cloned st.cell.currentTarget (.ref ca)] ∧
      (execExt ctx (f + 2) st (.read k)).1.events.countP Ev.isListener =
        st.events.countP Ev.isListener) ∧
    (∀ ctx f st k fid h2 ca fid2 st5 e, st.cell.enabled = true →
      st.cell.nonMutatingKeys.contains k = false →
      (k == "clone") = false →
      isGetter (f + 2) st.heap st.cell.currentTarget k = some false →
      chainLookup (f + 1) st.heap st.cell.currentTarget k =
        some (some (.data (.fn fid))) →
      extClone ctx.hook (f + 2) st.heap (.ref st.cell.currentTarget)
        st.cell.depth st.cell.respectCustom = some (h2, .ref ca) →
      chainLookup (f + 1) h2 ca k = some (some (.data (.fn fid2))) →
      runFnId ctx (f + 1) (commitStage st h2 st.cell.currentTarget (.ref ca))
        (.raw ca) .undef fid2 = (st5, .err e) →
      (execExt ctx (f + 2) st (.call k)).1.events =
        st.events ++ [.cloned st.cell.currentTarget (.ref ca)] ∧
      (execExt ctx (f + 2) st (.call k)).1.events.countP Ev.isListener =
        st.events.countP Ev.isListener) := by
  refine ⟨?_, ?_, ?_, ?_, ?_, ?_⟩
  · intro ctx f st k v h1 ca st4 rv hen hcl hrs
    refine ⟨trapSet_commit_ok ctx f st _ _ k v h1 ca st4 rv hen hcl hrs,
      ?_, rfl, rfl⟩
    simp [commitDone, List.append_assoc]
  · intro ctx f st k h1 ca st4 v hen hnm hkc hig hcl hrg
    refine ⟨?_, ?_, rfl, rfl⟩
    · show trapGet ctx (f + 2) st st.cell.currentProxyId
        st.cell.currentTarget k = _
      rw [trapGet_getter ctx (f + 1) st _ _ k hen hnm hkc hig]
      exact getterCommit_ok ctx f st _ _ k h1 ca st4 v hen hcl hrg
    · simp [commitDone, List.append_assoc]
  · intro ctx f st k fid h2 ca fid2 st5 rv hen hnm hkc hig hlk hcl hlk2 hrun
    refine ⟨trapCall_commit_ok ctx f st _ _ k fid h2 ca fid2 st5 rv
      hen hnm hkc hig hlk hcl hlk2 hrun, ?_, rfl, rfl⟩
    simp [commitDone, List.append_assoc]
  · intro ctx f st k v h1 ca st4 e hen hcl hrs
    have h := trapSet_commit_err ctx f st st.cell.currentProxyId
      st.cell.currentTarget k v h1 ca st4 e hen hcl hrs
    show (trapSet ctx (f + 1) st st.cell.currentProxyId
      st.cell.currentTarget k v).1.events = _ ∧
      (trapSet ctx (f + 1) st st.cell.currentProxyId
        st.cell.currentTarget k v).1.events.countP Ev.isListener = _
    rw [h]
    refine ⟨rfl, ?_⟩
    simp [commitAbort, List.countP_append, List.countP_cons, Ev.isListener]
  · intro ctx f st k h1 ca st4 e hen hnm hkc hig hcl hrg
    have h : trapGet ctx (f + 2) st st.cell.currentProxyId
        st.cell.currentTarget k = (commitAbort st st.cell.currentTarget
        (.ref ca) st4, .err e) := by
      rw [trapGet_getter ctx (f + 1) st _ _ k hen hnm hkc hig]
      exact getterCommit_err ctx f st _ _ k h1 ca st4 e hen hcl hrg
    show (trapGet ctx (f + 2) st st.cell.currentProxyId
      st.cell.currentTarget k).1.events = _ ∧
      (trapGet ctx (f + 2) st st.cell.currentProxyId
        st.cell.currentTarget k).1.events.countP Ev.isListener = _
    rw [h]
    refine ⟨rfl, ?_⟩
    simp [commitAbort, List.countP_append, List.countP_cons, Ev.isListener]
  · intro ctx f st k fid h2 ca fid2 st5 e hen hnm hkc hig hlk hcl hlk2 hrun
    have h := trapCall_commit_err ctx f st st.cell.currentProxyId
      st.cell.currentTarget k fid h2 ca fid2 st5 e
      hen hnm hkc hig hlk hcl hlk2 hrun
    show (trapCall ctx (f + 2) st st.cell.currentProxyId
      st.cell.currentTarget k).1.events = _ ∧
      (trapCall ctx (f + 2) st st.cell.currentProxyId
        st.cell.currentTarget k).1.events.countP Ev.isListener = _
    rw [h]
    refine ⟨rfl, ?_⟩
    simp [commitAbort, List.countP_append, List.countP_cons, Ev.isListener]

/-- Witness: a committed write, a committed getter read and a committed
two-write method call each fire the registered listener batch strictly
after the swap, observing the new cell; a throwing setter write, getter
read and method call each fire none. -/
theorem c8_listener_ordering_witness :
    (execExt ctx7 4 stE (.write "n" (.vNum 9)) =
      (commitDone stE stE.cell.currentTarget 1 st4c7, .ok (.vBool true)) ∧
     (commitDone stE stE.cell.currentTarget 1 st4c7).events =
       stE.events ++ [.cloned stE.cell.currentTarget (.ref 1)] ++
         [.swapped 1 stE.nextProxyId] ++
         stE.cell.cloneListeners.map
           (fun l => .listener l 1 stE.nextProxyId) ∧
     (commitDone stE stE.cell.currentTarget 1 st4c7).cell.currentTarget = 1 ∧
     (commitDone stE stE.cell.currentTarget 1 st4c7).cell.currentProxyId =
       stE.nextProxyId) ∧
    (execExt ctxG 12 stG (.read "g") =
      (commitDone stG stG.cell.currentTarget 11
        (commitStage stG h1G stG.cell.currentTarget (.ref 11)),
        .ok (.vNum 5)) ∧
     (commitDone stG stG.cell.currentTarget 11
        (commitStage stG h1G stG.cell.currentTarget (.ref 11))).events =
       stG.events ++ [.cloned stG.cell.currentTarget (.ref 11)] ++
         [.swapped 11 stG.nextProxyId] ++
         stG.cell.cloneListeners.map
           (fun l => .listener l 11 stG.nextProxyId) ∧
     (commitDone stG stG.cell.currentTarget 11
        (commitStage stG h1G stG.cell.currentTarget
          (.ref 11))).cell.currentTarget = 11 ∧
     (commitDone stG stG.cell.currentTarget 11
        (commitStage stG h1G stG.cell.currentTarget
          (.ref 11))).cell.currentProxyId = stG.nextProxyId) ∧
    (execExt ctx3 7 st3 (.call "m") =
      (commitDone st3 st3.cell.currentTarget 1 st5c3, .ok (.vNum 7)) ∧
     (commitDone st3 st3.cell.currentTarget 1 st5c3).events =
       st3.events ++ [.cloned st3.cell.currentTarget (.ref 1)] ++
         [.swapped 1 st3.nextProxyId] ++
         st3.cell.cloneListeners.map
           (fun l => .listener l 1 st3.nextProxyId) ∧
     (commitDone st3 st3.cell.currentTarget 1 st5c3).cell.currentTarget =
       1 ∧
     (commitDone st3 st3.cell.currentTarget 1 st5c3).cell.currentProxyId =
       st3.nextProxyId) ∧
    ((execExt ctxT 7 stT (.write "s" (.vNum 1))).1.events =
       stT.events ++ [.cloned stT.cell.currentTarget (.ref 11)] ∧
     (execExt ctxT 7 stT (.write "s" (.vNum 1))).1.events.countP
       Ev.isListener = stT.events.countP Ev.isListener) ∧
    ((execExt ctxT 7 stT (.read "g")).1.events =
       stT.events ++ [.cloned stT.cell.currentTarget (.ref 11)] ∧
     (execExt ctxT 7 stT (.read "g")).1.events.countP Ev.isListener =
       stT.events.countP Ev.isListener) ∧
    ((execExt ctxT 7 stT (.call "m")).1.events =
       stT.events ++ [.cloned stT.cell.currentTarget (.ref 11)] ∧
     (execExt ctxT 7 stT (.call "m")).1.events.countP Ev.isListener =
       stT.events.countP Ev.isListener) := by
  refine ⟨c8_listener_ordering.1 ctx7 3 stE "n" (.vNum 9) h1c7 1 st4c7
      (.vBool true) rfl ?_ ?_,
    c8_listener_ordering.2.1 ctxG 10 stG "g" h1G 11
      (commitStage stG h1G stG.cell.currentTarget (.ref 11)) (.vNum 5)
      rfl rfl rfl ?_ ?_ ?_,
    c8_listener_ordering.2.2.1 ctx3 5 st3 "m" 2 h2c3 1 2 st5c3 (.vNum 7)
      rfl rfl rfl ?_ ?_ ?_ ?_ ?_,
    c8_listener_ordering.2.2.2.1 ctxT 6 stT "s" (.vNum 1) h1T 11
      (commitStage stT h1T stT.cell.currentTarget (.ref 11)) "boom"
      rfl ?_ ?_,
    c8_listener_ordering.2.2.2.2.1 ctxT 5 stT "g" h1T 11
      (commitStage stT h1T stT.cell.currentTarget (.ref 11)) "boom"
      rfl rfl rfl ?_ ?_ ?_,
    c8_listener_ordering.2.2.2.2.2 ctxT 5 stT "m" 1 h1T 11 1
      (commitStage stT h1T stT.cell.currentTarget (.ref 11)) "boom"
      rfl rfl rfl ?_ ?_ ?_ ?_ ?_⟩
  · simp [extClone, isCustomCloneable, chainLookup, extCloneRec,
      extCloneRecProps, lodashClone, Heap.alloc, Heap.get, Heap.set,
      seenGet, propsGet, stE, H7, h1c7, ctx7]
  · simp [reflectSet, chainLookup, commitStage, Heap.get, Heap.writeProp,
      Heap.set, propsGet, propsSet, ThisVal.targetAddr, stE, H7, h1c7,
      st4c7]
  · simp [isGetter, chainLookup, Heap.get, propsGet, stG, HG]
  · simp [extClone, isCustomCloneable, chainLookup, extCloneRec,
      extCloneRecProps, lodashClone, Heap.alloc, Heap.get, Heap.set,
      seenGet, propsGet, stG, HG, h1G, ctxG]
  · simp [reflectGet, chainLookup, commitStage, runFnId, runBody, runOps,
      evalExpr, getMember, trapGet, Ctx.fnBody, Heap.get, propsGet,
      stG, HG, h1G, ctxG]
  · simp [isGetter, chainLookup, Heap.get, propsGet, st3, H3]
  · simp [chainLookup, Heap.get, propsGet, st3, H3]
  · simp [extClone, isCustomCloneable, chainLookup, extCloneRec,
      extCloneRecProps, lodashClone, Heap.alloc, Heap.get, Heap.set,
      seenGet, propsGet, st3, H3, h2c3, ctx3]
  · simp [chainLookup, Heap.get, propsGet, h2c3]
  · simp [runFnId, runBody, runOps, evalExpr, setMember, getMember,
      reflectSet, reflectGet, chainLookup, commitStage, Ctx.fnBody,
      Heap.get, Heap.set, Heap.writeProp, propsGet, propsSet,
      ThisVal.targetAddr, st3, H3, h2c3, st5c3, ctx3]
  · simp [extClone, isCustomCloneable, chainLookup, extCloneRec,
      extCloneRecProps, lodashClone, Heap.alloc, Heap.get, Heap.set,
      seenGet, propsGet, stT, HT, h1T, ctxT]
  · simp [reflectSet, chainLookup, commitStage, runFnId, runBody, runOps,
      evalExpr, Ctx.fnBody, Heap.get, propsGet, stT, HT, h1T, ctxT]
  · simp [isGetter, chainLookup, Heap.get, propsGet, stT, HT]
  · simp [extClone, isCustomCloneable, chainLookup, extCloneRec,
      extCloneRecProps, lodashClone, Heap.alloc, Heap.get, Heap.set,
      seenGet, propsGet, stT, HT, h1T, ctxT]
  · simp [reflectGet, chainLookup, commitStage, runFnId, runBody, runOps,
      evalExpr, Ctx.fnBody, Heap.get, propsGet, stT, HT, h1T, ctxT]
  · simp [isGetter, chainLookup, Heap.get, propsGet, stT, HT]
  · simp [chainLookup, Heap.get, propsGet, stT, HT]
  · simp [extClone, isCustomCloneable, chainLookup, extCloneRec,
      extCloneRecProps, lodashClone, Heap.alloc, Heap.get, Heap.set,
      seenGet, propsGet, stT, HT, h1T, ctxT]
  · simp [chainLookup, Heap.get, propsGet, h1T]
  · simp [runFnId, runBody, runOps, evalExpr, commitStage, Ctx.fnBody,
      stT, HT, h1T, ctxT]
